import Mathlib

/-!
Verification development for the JSON-Beautify command-line formatter
(`main.go`).  The program is embedded shallowly:

* `Jval` models a decoded JSON value; string and number literals keep the
  raw literal text from the source bytes (the order-preserving pipeline
  never re-encodes them, and the sort pipeline's behaviour that the claims
  address — member ordering and array ordering — does not depend on
  literal re-encoding).
* `parseVal` models the syntax accepted by `encoding/json`'s scanner; it
  returns the decoded value together with the exact consumed span, which
  is what `Decode(&raw)` hands to the rest of the pipeline.
* `compactGo` / `indentGo` model the byte-level transformations performed
  by `json.Compact` and `json.Indent`; `goCompact` / `goIndent` add the
  validity check those functions perform (they fail on invalid input).
* `mapify` / `marshalSortWith` model decoding into a Go map (last key
  wins) and `json.Marshal`'s sorted-key object encoding, with the map
  iteration order as an explicit oracle parameter.
* `matchKey`, `matchStr`, `matchNum`, `matchBool`, `matchNull` and
  `passGen` model the five `regexp.ReplaceAllString` passes of
  `syntaxHighlight` (leftmost match, non-overlapping, continue after the
  match).
* `runLoop` models the decode/format/highlight/write loop of `main`.
-/

set_option maxRecDepth 20000

namespace JB

def toL (s : String) : List Char := s.toList

def isWS (c : Char) : Bool :=
  c = ' ' || c = '\t' || c = '\n' || c = '\r'

def skipWS : List Char → List Char
  | [] => []
  | c :: cs => if isWS c then skipWS cs else c :: cs

/-- Split off the longest whitespace run: returns the run and the rest. -/
def takeWS (s : List Char) : List Char × List Char :=
  (s.takeWhile isWS, s.dropWhile isWS)

/-- JSON values.  `num` and `str` hold the raw literal text (for `str`,
the text between the quotes, escape sequences verbatim). -/
inductive Jval where
  | null : Jval
  | boolean (b : Bool) : Jval
  | num (s : List Char) : Jval
  | str (s : List Char) : Jval
  | arr (xs : List Jval) : Jval
  | obj (ms : List (List Char × Jval)) : Jval

instance : Inhabited Jval := ⟨Jval.null⟩

mutual
/-- Compact rendering: structural characters plus the raw literal texts,
no whitespace between tokens.  This is the form `json.Marshal` produces
(modulo literal re-encoding, which keeps raw text in this model) and the
form `json.Compact` reduces a span to. -/
def compactRender : Jval → List Char
  | .null => ['n', 'u', 'l', 'l']
  | .boolean true => ['t', 'r', 'u', 'e']
  | .boolean false => ['f', 'a', 'l', 's', 'e']
  | .num s => s
  | .str s => '"' :: s ++ ['"']
  | .arr xs => '[' :: compactRenderL xs ++ [']']
  | .obj ms => '{' :: compactRenderM ms ++ ['}']

def compactRenderL : List Jval → List Char
  | [] => []
  | [x] => compactRender x
  | x :: y :: xs => compactRender x ++ ',' :: compactRenderL (y :: xs)

def compactRenderM : List (List Char × Jval) → List Char
  | [] => []
  | [(k, v)] => '"' :: k ++ '"' :: ':' :: compactRender v
  | (k, v) :: m :: ms =>
    ('"' :: k ++ '"' :: ':' :: compactRender v) ++ ',' :: compactRenderM (m :: ms)
end

/-- `n` copies of the indent unit. -/
def copies : Nat → List Char → List Char
  | 0, _ => []
  | n + 1, u => u ++ copies n u

/-- Newline plus prefix plus `d` indent units: what `json.Indent`'s
`appendNewline(dst, prefix, indent, depth)` appends. -/
def nlI (lp iu : List Char) (d : Nat) : List Char :=
  '\n' :: lp ++ copies d iu

mutual
/-- Pretty rendering at depth `d` with line prefix `lp` and indent unit
`iu`: the layout produced by `json.MarshalIndent` and by `json.Indent`
on a span — each container element on its own indented line, a space
after the member colon, empty containers rendered inline. -/
def prettyRender (lp iu : List Char) (d : Nat) : Jval → List Char
  | .null => ['n', 'u', 'l', 'l']
  | .boolean true => ['t', 'r', 'u', 'e']
  | .boolean false => ['f', 'a', 'l', 's', 'e']
  | .num s => s
  | .str s => '"' :: s ++ ['"']
  | .arr [] => ['[', ']']
  | .arr (x :: xs) =>
    '[' :: (nlI lp iu (d + 1) ++ prettyRenderL lp iu (d + 1) (x :: xs)) ++
      nlI lp iu d ++ [']']
  | .obj [] => ['{', '}']
  | .obj (m :: ms) =>
    '{' :: (nlI lp iu (d + 1) ++ prettyRenderM lp iu (d + 1) (m :: ms)) ++
      nlI lp iu d ++ ['}']

def prettyRenderL (lp iu : List Char) (d : Nat) : List Jval → List Char
  | [] => []
  | [x] => prettyRender lp iu d x
  | x :: y :: xs =>
    prettyRender lp iu d x ++ ',' :: (nlI lp iu d ++ prettyRenderL lp iu d (y :: xs))

def prettyRenderM (lp iu : List Char) (d : Nat) : List (List Char × Jval) → List Char
  | [] => []
  | [(k, v)] => '"' :: k ++ '"' :: ':' :: ' ' :: prettyRender lp iu d v
  | (k, v) :: m :: ms =>
    ('"' :: k ++ '"' :: ':' :: ' ' :: prettyRender lp iu d v) ++
      ',' :: (nlI lp iu d ++ prettyRenderM lp iu d (m :: ms))
end

/-! ### Sort path: Go map decoding and sorted-key marshalling -/

/-- Byte-wise (scalar-value-wise) lexicographic comparison of key
strings, as `sort.Strings` uses. -/
def keyLe : List Char → List Char → Bool
  | [], _ => true
  | _ :: _, [] => false
  | a :: as, b :: bs => decide (a.toNat < b.toNat) || (a = b && keyLe as bs)

/-- Insert into a map-backed association list: overwrite the value if the
key is present (Go map assignment), append otherwise. -/
def putKey (k : List Char) (v : Jval) : List (List Char × Jval) → List (List Char × Jval)
  | [] => [(k, v)]
  | (k1, v1) :: ms => if k1 = k then (k1, v) :: ms else (k1, v1) :: putKey k v ms

/-- Build the Go map contents from the members in source order: later
occurrences of a key overwrite earlier ones. -/
def buildMap (l : List (List Char × Jval)) : List (List Char × Jval) :=
  l.foldl (fun acc kv => putKey kv.1 kv.2 acc) []

/-- Insertion into a key-sorted list. -/
def insKey (p : List Char × Jval) : List (List Char × Jval) → List (List Char × Jval)
  | [] => [p]
  | q :: qs => if keyLe p.1 q.1 then p :: q :: qs else q :: insKey p qs

/-- Insertion sort by key: the observable effect of `json.Marshal`
collecting a map's keys and sorting them with `sort.Strings`. -/
def insSortKeys : List (List Char × Jval) → List (List Char × Jval)
  | [] => []
  | p :: ps => insKey p (insSortKeys ps)

mutual
/-- Decoding into a Go map tree: every object becomes a map (duplicate
keys collapse, last occurrence wins), arrays stay ordered. -/
def mapify : Jval → Jval
  | .null => .null
  | .boolean b => .boolean b
  | .num s => .num s
  | .str s => .str s
  | .arr xs => .arr (mapifyL xs)
  | .obj ms => .obj (buildMap (mapifyM ms))

def mapifyL : List Jval → List Jval
  | [] => []
  | x :: xs => mapify x :: mapifyL xs

def mapifyM : List (List Char × Jval) → List (List Char × Jval)
  | [] => []
  | (k, v) :: ms => (k, mapify v) :: mapifyM ms
end

mutual
/-- `json.Marshal` of a decoded map tree, with the map iteration order
made explicit: at every object the members are first read off in the
(arbitrary) iteration order `σ`, then sorted by key.  Arrays are encoded
in element order. -/
def marshalSortWith (σ : List (List Char × Jval) → List (List Char × Jval)) : Jval → Jval
  | .null => .null
  | .boolean b => .boolean b
  | .num s => .num s
  | .str s => .str s
  | .arr xs => .arr (marshalSortWithL σ xs)
  | .obj ms => .obj (insSortKeys (σ (marshalSortWithM σ ms)))

def marshalSortWithL (σ : List (List Char × Jval) → List (List Char × Jval)) :
    List Jval → List Jval
  | [] => []
  | x :: xs => marshalSortWith σ x :: marshalSortWithL σ xs

def marshalSortWithM (σ : List (List Char × Jval) → List (List Char × Jval)) :
    List (List Char × Jval) → List (List Char × Jval)
  | [] => []
  | (k, v) :: ms => (k, marshalSortWith σ v) :: marshalSortWithM σ ms
end

/-- The sort-path tree transformation with the identity iteration order. -/
def marshalSort : Jval → Jval := marshalSortWith id

/-- The complete sort path: decode to maps, marshal with sorted keys. -/
def sortPath (v : Jval) : Jval := marshalSort (mapify v)

/-- Adjacent-pairs key ordering check for one member list. -/
def ascKeys : List (List Char × Jval) → Bool
  | [] => true
  | [_] => true
  | p :: q :: ms => keyLe p.1 q.1 && ascKeys (q :: ms)

mutual
/-- Every object's member keys are in non-decreasing order, at every
nesting depth. -/
def sortedB : Jval → Bool
  | .null => true
  | .boolean _ => true
  | .num _ => true
  | .str _ => true
  | .arr xs => sortedBL xs
  | .obj ms => ascKeys ms && sortedBM ms

def sortedBL : List Jval → Bool
  | [] => true
  | x :: xs => sortedB x && sortedBL xs

def sortedBM : List (List Char × Jval) → Bool
  | [] => true
  | (_, v) :: ms => sortedB v && sortedBM ms
end

mutual
/-- `arrPresB inp out`: `out` arose from `inp` without disturbing any
array: leaves are unchanged, arrays correspond element by element in
order, and every object member of `out` stems from a member of `inp`
with the same key and a related value. -/
def arrPresB : Jval → Jval → Bool
  | .null, .null => true
  | .boolean a, .boolean b => a = b
  | .num a, .num b => a = b
  | .str a, .str b => a = b
  | .arr xs, .arr ys => arrPresL xs ys
  | .obj ms, .obj ns => arrPresM ms ns
  | _, _ => false

def arrPresL : List Jval → List Jval → Bool
  | [], [] => true
  | x :: xs, y :: ys => arrPresB x y && arrPresL xs ys
  | _, _ => false

def arrPresM (ms : List (List Char × Jval)) : List (List Char × Jval) → Bool
  | [] => true
  | (k, w) :: ns => memRel ms k w && arrPresM ms ns

def memRel : List (List Char × Jval) → List Char → Jval → Bool
  | [], _, _ => false
  | (k2, v2) :: ms, k, w => (decide (k2 = k) && arrPresB v2 w) || memRel ms k w
end

/-! ### The decoder: a parser for the syntax `encoding/json` accepts -/

/-- Valid single-character escapes after a backslash. -/
def isEsc (c : Char) : Bool :=
  c = '"' || c = '\\' || c = '/' || c = 'b' || c = 'f' || c = 'n' || c = 'r' || c = 't'

def isHex (c : Char) : Bool :=
  c.isDigit || ('a' ≤ c && c ≤ 'f') || ('A' ≤ c && c ≤ 'F')

/-- Parse a string body after the opening quote: returns the raw content
(escapes verbatim) and the rest after the closing quote.  Control
characters are rejected, escapes are validated, as in the Go scanner. -/
def parseStrBody : List Char → Option (List Char × List Char)
  | [] => none
  | c :: cs =>
    if c = '"' then some ([], cs)
    else if c = '\\' then
      match cs with
      | [] => none
      | e :: cs2 =>
        if e = 'u' then
          match cs2 with
          | h1 :: h2 :: h3 :: h4 :: cs3 =>
            if isHex h1 && isHex h2 && isHex h3 && isHex h4 then
              match parseStrBody cs3 with
              | some (b, r) => some ('\\' :: 'u' :: h1 :: h2 :: h3 :: h4 :: b, r)
              | none => none
            else none
          | _ => none
        else if isEsc e then
          match parseStrBody cs2 with
          | some (b, r) => some ('\\' :: e :: b, r)
          | none => none
        else none
    else if c.toNat < 0x20 then none
    else
      match parseStrBody cs with
      | some (b, r) => some (c :: b, r)
      | none => none

/-- The integer part of a number: `0` or a nonzero digit followed by
digits (no leading zeros), per the JSON grammar the Go scanner uses. -/
def parseIntPart : List Char → Option (List Char × List Char)
  | [] => none
  | c :: cs =>
    if c = '0' then some (['0'], cs)
    else if c.isDigit then
      some (c :: cs.takeWhile Char.isDigit, cs.dropWhile Char.isDigit)
    else none

/-- Optional fraction: if a dot follows, at least one digit is required
(the scanner errors out otherwise). -/
def parseFracPart : List Char → Option (List Char × List Char)
  | '.' :: cs =>
    match cs.takeWhile Char.isDigit with
    | [] => none
    | ds => some ('.' :: ds, cs.dropWhile Char.isDigit)
  | s => some ([], s)

/-- Optional exponent: `e`/`E`, optional sign, at least one digit. -/
def parseExpPart : List Char → Option (List Char × List Char)
  | c :: cs =>
    if c = 'e' || c = 'E' then
      match cs with
      | s :: cs2 =>
        if s = '+' || s = '-' then
          match cs2.takeWhile Char.isDigit with
          | [] => none
          | ds => some (c :: s :: ds, cs2.dropWhile Char.isDigit)
        else
          match cs.takeWhile Char.isDigit with
          | [] => none
          | ds => some (c :: ds, cs.dropWhile Char.isDigit)
      | [] => none
    else some ([], c :: cs)
  | [] => some ([], [])

/-- Parse a number literal from the start of the input (maximal munch),
with the Go scanner's error behaviour: a dot or exponent marker not
followed by a digit is a syntax error, not a shorter match. -/
def parseNum (s : List Char) : Option (List Char × List Char) :=
  match s with
  | '-' :: cs =>
    match parseIntPart cs with
    | none => none
    | some (ip, r1) =>
      match parseFracPart r1 with
      | none => none
      | some (fp, r2) =>
        match parseExpPart r2 with
        | none => none
        | some (ep, r3) => some ('-' :: ip ++ fp ++ ep, r3)
  | _ =>
    match parseIntPart s with
    | none => none
    | some (ip, r1) =>
      match parseFracPart r1 with
      | none => none
      | some (fp, r2) =>
        match parseExpPart r2 with
        | none => none
        | some (ep, r3) => some (ip ++ fp ++ ep, r3)

mutual
/-- Parse one JSON value from the start of the input (no leading
whitespace).  Returns the value, the exact span consumed, and the rest.
Fuel only bounds the nesting depth of the recursion; any fuel above the
input length is enough. -/
def parseVal : Nat → List Char → Option (Jval × List Char × List Char)
  | 0, _ => none
  | fuel + 1, s =>
    match s with
    | [] => none
    | c :: cs =>
      if c = 'n' then
        if cs.take 3 = ['u', 'l', 'l'] then some (.null, ['n', 'u', 'l', 'l'], cs.drop 3)
        else none
      else if c = 't' then
        if cs.take 3 = ['r', 'u', 'e'] then some (.boolean true, ['t', 'r', 'u', 'e'], cs.drop 3)
        else none
      else if c = 'f' then
        if cs.take 4 = ['a', 'l', 's', 'e'] then
          some (.boolean false, ['f', 'a', 'l', 's', 'e'], cs.drop 4)
        else none
      else if c = '"' then
        match parseStrBody cs with
        | some (b, r) => some (.str b, '"' :: b ++ ['"'], r)
        | none => none
      else if c = '[' then
        match takeWS cs with
        | (w, r1) =>
          match r1 with
          | ']' :: r2 => some (.arr [], '[' :: w ++ [']'], r2)
          | _ =>
            match parseElems fuel r1 with
            | some (xs, sp, rest) => some (.arr xs, '[' :: w ++ sp, rest)
            | none => none
      else if c = '{' then
        match takeWS cs with
        | (w, r1) =>
          match r1 with
          | '}' :: r2 => some (.obj [], '{' :: w ++ ['}'], r2)
          | _ =>
            match parseMembers fuel r1 with
            | some (ms, sp, rest) => some (.obj ms, '{' :: w ++ sp, rest)
            | none => none
      else
        match parseNum (c :: cs) with
        | some (lit, r) => some (.num lit, lit, r)
        | none => none

/-- Parse array elements starting at a value character; the returned span
runs up to and including the closing bracket. -/
def parseElems : Nat → List Char → Option (List Jval × List Char × List Char)
  | 0, _ => none
  | fuel + 1, s =>
    match parseVal fuel s with
    | none => none
    | some (v, sp, r) =>
      match takeWS r with
      | (w, r1) =>
        match r1 with
        | ']' :: r2 => some ([v], sp ++ w ++ [']'], r2)
        | ',' :: r2 =>
          match takeWS r2 with
          | (w2, r3) =>
            match parseElems fuel r3 with
            | some (xs, sp2, rest) => some (v :: xs, sp ++ w ++ ',' :: w2 ++ sp2, rest)
            | none => none
        | _ => none

/-- Parse object members starting at the opening quote of a key; the
returned span runs up to and including the closing brace. -/
def parseMembers : Nat → List Char → Option (List (List Char × Jval) × List Char × List Char)
  | 0, _ => none
  | fuel + 1, s =>
    match s with
    | '"' :: r0 =>
      match parseStrBody r0 with
      | none => none
      | some (k, r1) =>
        match takeWS r1 with
        | (w1, r2) =>
          match r2 with
          | ':' :: r3 =>
            match takeWS r3 with
            | (w2, r4) =>
              match parseVal fuel r4 with
              | none => none
              | some (v, sp, r5) =>
                match takeWS r5 with
                | (w3, r6) =>
                  match r6 with
                  | '}' :: r7 =>
                    some ([(k, v)], '"' :: k ++ '"' :: w1 ++ ':' :: w2 ++ sp ++ w3 ++ ['}'], r7)
                  | ',' :: r7 =>
                    match takeWS r7 with
                    | (w4, r8) =>
                      match parseMembers fuel r8 with
                      | some (ms, sp2, rest) =>
                        some ((k, v) :: ms,
                          '"' :: k ++ '"' :: w1 ++ ':' :: w2 ++ sp ++ w3 ++ ',' :: w4 ++ sp2,
                          rest)
                      | none => none
                  | _ => none
          | _ => none
    | _ => none
end

/-- Whole-document validity, as `json.Compact` / `json.Indent` check it:
optional leading whitespace, one complete JSON value, then only
whitespace. -/
def parseDoc (s : List Char) : Option Jval :=
  match takeWS s with
  | (_, s1) =>
    match parseVal (s1.length + 1) s1 with
    | some (v, _, rest) => if skipWS rest = [] then some v else none
    | none => none

/-- State of the byte-level scanners: inside a string literal, and just
after a backslash inside a string literal. -/
structure CState where
  inStr : Bool
  esc : Bool

/-- The byte transformation of `json.Compact`: copy every byte except
insignificant whitespace (whitespace outside string literals). -/
def compactGo : CState → List Char → List Char
  | _, [] => []
  | st, c :: cs =>
    if st.inStr then
      if st.esc then c :: compactGo ⟨true, false⟩ cs
      else if c = '\\' then c :: compactGo ⟨true, true⟩ cs
      else if c = '"' then c :: compactGo ⟨false, false⟩ cs
      else c :: compactGo ⟨true, false⟩ cs
    else
      if isWS c then compactGo st cs
      else if c = '"' then c :: compactGo ⟨true, false⟩ cs
      else c :: compactGo st cs

/-- `json.Compact`: validates the input and strips insignificant
whitespace; an error (modelled as `none`) on invalid input. -/
def goCompact (s : List Char) : Option (List Char) :=
  match parseDoc s with
  | some _ => some (compactGo ⟨false, false⟩ s)
  | none => none

/-- State of the `json.Indent` scanner: string state plus the current
nesting depth and the pending-indent flag used to keep empty containers
inline. -/
structure IState where
  inStr : Bool
  esc : Bool
  depth : Nat
  needIndent : Bool

/-- The byte transformation of `json.Indent`: skip source whitespace
outside strings, insert a newline + prefix + depth × indent before each
container element, a space after a member colon, and a newline before a
non-empty container's closing bracket. -/
def indentGo (lp iu : List Char) : IState → List Char → List Char
  | _, [] => []
  | st, c :: cs =>
    if st.inStr then
      if st.esc then c :: indentGo lp iu ⟨true, false, st.depth, st.needIndent⟩ cs
      else if c = '\\' then c :: indentGo lp iu ⟨true, true, st.depth, st.needIndent⟩ cs
      else if c = '"' then c :: indentGo lp iu ⟨false, false, st.depth, st.needIndent⟩ cs
      else c :: indentGo lp iu ⟨true, false, st.depth, st.needIndent⟩ cs
    else if isWS c then indentGo lp iu st cs
    else if c = '}' || c = ']' then
      if st.needIndent then c :: indentGo lp iu ⟨false, false, st.depth, false⟩ cs
      else nlI lp iu (st.depth - 1) ++ c :: indentGo lp iu ⟨false, false, st.depth - 1, false⟩ cs
    else
      let d := if st.needIndent then st.depth + 1 else st.depth
      let pre := if st.needIndent then nlI lp iu d else []
      if c = '{' || c = '[' then pre ++ c :: indentGo lp iu ⟨false, false, d, true⟩ cs
      else if c = ',' then pre ++ c :: nlI lp iu d ++ indentGo lp iu ⟨false, false, d, false⟩ cs
      else if c = ':' then pre ++ c :: ' ' :: indentGo lp iu ⟨false, false, d, false⟩ cs
      else if c = '"' then pre ++ c :: indentGo lp iu ⟨true, false, d, false⟩ cs
      else pre ++ c :: indentGo lp iu ⟨false, false, d, false⟩ cs

/-- `json.Indent`: validates the input and re-indents; an error
(modelled as `none`) on invalid input. -/
def goIndent (lp iu : List Char) (s : List Char) : Option (List Char) :=
  match parseDoc s with
  | some _ => some (indentGo lp iu ⟨false, false, 0, false⟩ s)
  | none => none

/-- One `decoder.Decode` call: end of stream if only whitespace remains,
otherwise one value (with its span) or a syntax error. -/
inductive DecodeResult where
  | eof : DecodeResult
  | err : DecodeResult
  | val (v : Jval) (span rest : List Char) : DecodeResult

def decodeOne (s : List Char) : DecodeResult :=
  match skipWS s with
  | [] => .eof
  | s1 =>
    match parseVal (s1.length + 1) s1 with
    | some (v, sp, rest) => .val v sp rest
    | none => .err

/-- Drive the decoder to completion: the list of decoded values with
their spans, and whether the stream ended cleanly (`true`) or with a
syntax error (`false`). -/
def decodeList : Nat → List Char → List (Jval × List Char) × Bool
  | 0, _ => ([], false)
  | fuel + 1, s =>
    match decodeOne s with
    | .eof => ([], true)
    | .err => ([], false)
    | .val v sp rest =>
      match decodeList fuel rest with
      | (l, ok) => ((v, sp) :: l, ok)

def decodeStream (s : List Char) : List (Jval × List Char) × Bool :=
  decodeList (s.length + 1) s

/-! ### The highlighter: five substitution passes -/

def escChar : Char := '\x1b'

def colorReset : List Char := [escChar, '[', '0', 'm']
def colorRed : List Char := [escChar, '[', '3', '1', 'm']
def colorGreen : List Char := [escChar, '[', '3', '2', 'm']
def colorYellow : List Char := [escChar, '[', '3', '3', 'm']
def colorBlue : List Char := [escChar, '[', '3', '4', 'm']
def colorPurple : List Char := [escChar, '[', '3', '5', 'm']
def colorBold : List Char := [escChar, '[', '1', 'm']

def keyColor : List Char := colorBlue ++ colorBold
def stringColor : List Char := colorGreen
def numberColor : List Char := colorYellow
def boolColor : List Char := colorPurple
def nullColor : List Char := colorRed

/-- One match attempt of `"([^"]+)"\s*:` at the current position,
together with its replacement `KEY"$1"RESET:` (note: the matched
whitespace before the colon is not part of the replacement): returns
the emitted replacement and the rest of the input after the match. -/
def matchKey : List Char → Option (List Char × List Char)
  | '"' :: cs =>
    let k := cs.takeWhile (· != '"')
    match cs.dropWhile (· != '"') with
    | '"' :: cs2 =>
      if k = [] then none
      else
        match cs2.dropWhile isWS with
        | ':' :: cs3 => some (keyColor ++ '"' :: k ++ '"' :: colorReset ++ [':'], cs3)
        | _ => none
    | _ => none
  | _ => none

/-- One match attempt of `:(\s*)"([^"]*)"` with replacement
`:$1GREEN"$2"RESET`. -/
def matchStr : List Char → Option (List Char × List Char)
  | ':' :: cs =>
    let w := cs.takeWhile isWS
    match cs.dropWhile isWS with
    | '"' :: cs2 =>
      let k := cs2.takeWhile (· != '"')
      match cs2.dropWhile (· != '"') with
      | '"' :: cs3 => some (':' :: w ++ stringColor ++ '"' :: k ++ '"' :: colorReset, cs3)
      | _ => none
    | _ => none
  | _ => none

/-- Greedy optional fractional part of the number pattern
`(?:\.[0-9]+)?`: taken only when a dot with at least one digit follows. -/
def hlFrac (s : List Char) : List Char × List Char :=
  match s with
  | '.' :: cs =>
    match cs.takeWhile Char.isDigit with
    | [] => ([], '.' :: cs)
    | ds => ('.' :: ds, cs.dropWhile Char.isDigit)
  | _ => ([], s)

/-- Greedy optional exponent part `(?:[eE][+-]?[0-9]+)?`. -/
def hlExp (s : List Char) : List Char × List Char :=
  match s with
  | c :: cs =>
    if c = 'e' || c = 'E' then
      match cs with
      | s2 :: cs2 =>
        if s2 = '+' || s2 = '-' then
          match cs2.takeWhile Char.isDigit with
          | [] => ([], c :: s2 :: cs2)
          | ds => (c :: s2 :: ds, cs2.dropWhile Char.isDigit)
        else
          match cs.takeWhile Char.isDigit with
          | [] => ([], c :: cs)
          | ds => (c :: ds, cs.dropWhile Char.isDigit)
      | [] => ([], [c])
    else ([], c :: cs)
  | [] => ([], [])

/-- One match attempt of
`:(\s*)([0-9]+(?:\.[0-9]+)?(?:[eE][+-]?[0-9]+)?)` with replacement
`:$1YELLOW$2RESET`.  Note the literal part has no minus sign. -/
def matchNum : List Char → Option (List Char × List Char)
  | ':' :: cs =>
    let w := cs.takeWhile isWS
    let t := cs.dropWhile isWS
    match t.takeWhile Char.isDigit with
    | [] => none
    | ds =>
      match hlFrac (t.dropWhile Char.isDigit) with
      | (fr, t2) =>
        match hlExp t2 with
        | (ex, t3) =>
          some (':' :: w ++ numberColor ++ (ds ++ fr ++ ex) ++ colorReset, t3)
  | _ => none

/-- One match attempt of `:(\s*)(true|false)` with replacement
`:$1PURPLE$2RESET`. -/
def matchBool : List Char → Option (List Char × List Char)
  | ':' :: cs =>
    let w := cs.takeWhile isWS
    match cs.dropWhile isWS with
    | 't' :: 'r' :: 'u' :: 'e' :: rest =>
      some (':' :: w ++ boolColor ++ ['t', 'r', 'u', 'e'] ++ colorReset, rest)
    | 'f' :: 'a' :: 'l' :: 's' :: 'e' :: rest =>
      some (':' :: w ++ boolColor ++ ['f', 'a', 'l', 's', 'e'] ++ colorReset, rest)
    | _ => none
  | _ => none

/-- One match attempt of `:(\s*)(null)` with replacement
`:$1RED$2RESET`. -/
def matchNull : List Char → Option (List Char × List Char)
  | ':' :: cs =>
    let w := cs.takeWhile isWS
    match cs.dropWhile isWS with
    | 'n' :: 'u' :: 'l' :: 'l' :: rest =>
      some (':' :: w ++ nullColor ++ ['n', 'u', 'l', 'l'] ++ colorReset, rest)
    | _ => none
  | _ => none

/-- `regexp.ReplaceAllString`: scan left to right, replace each leftmost
non-overlapping match and continue after it.  Fuel above the input
length is always enough since every step consumes at least one source
character. -/
def passGen (m : List Char → Option (List Char × List Char)) : Nat → List Char → List Char
  | 0, s => s
  | _ + 1, [] => []
  | fuel + 1, c :: cs =>
    match m (c :: cs) with
    | some (out, rest) => out ++ passGen m fuel rest
    | none => c :: passGen m fuel cs

def passKeyF (s : List Char) : List Char := passGen matchKey s.length s
def passStrF (s : List Char) : List Char := passGen matchStr s.length s
def passNumF (s : List Char) : List Char := passGen matchNum s.length s
def passBoolF (s : List Char) : List Char := passGen matchBool s.length s
def passNullF (s : List Char) : List Char := passGen matchNull s.length s

/-- `syntaxHighlight`: the five substitution passes in program order —
keys, string values, numbers, booleans, null. -/
def syntaxHighlight (s : List Char) : List Char :=
  passNullF (passBoolF (passNumF (passStrF (passKeyF s))))

/-- Drop one ANSI escape sequence: everything up to and including the
terminating `m`. -/
def dropToM : List Char → List Char
  | [] => []
  | c :: cs => if c = 'm' then cs else dropToM cs

/-- Strip all ANSI escape sequences from a text.  Fuel above the input
length is always enough. -/
def stripAnsiA : Nat → List Char → List Char
  | 0, _ => []
  | _ + 1, [] => []
  | fuel + 1, c :: cs =>
    if c = escChar then stripAnsiA fuel (dropToM cs) else c :: stripAnsiA fuel cs

def stripAnsi (s : List Char) : List Char := stripAnsiA s.length s

/-! ### The main processing loop -/

/-- The per-run formatting configuration (the flags the core consumes).
`colorize` is the effective flag: `*colorize && *outputFile == ""`. -/
structure Config where
  compact : Bool
  sortKeys : Bool
  validate : Bool
  colorize : Bool
  linePrefix : List Char
  indentUnit : List Char

/-- The encode step for one decoded value: sort path re-renders the tree
via `Marshal`/`MarshalIndent`; the order-preserving path runs
`json.Compact` or `json.Indent` on the raw span (either can report an
error, which is fatal). -/
def renderValue (cfg : Config) (v : Jval) (span : List Char) : Option (List Char) :=
  if cfg.sortKeys then
    if cfg.compact then some (compactRender (sortPath v))
    else some (prettyRender cfg.linePrefix cfg.indentUnit 0 (sortPath v))
  else
    if cfg.compact then goCompact span
    else goIndent cfg.linePrefix cfg.indentUnit span

/-- Observable outcome of a run: the byte chunks written to the output
(one per value, text plus the separately written newline), the number of
values processed, whether the loop finished without a fatal error, and
the validation summary count if one was reported. -/
structure RunResult where
  chunks : List (List Char)
  count : Nat
  ok : Bool
  summary : Option Nat

/-- The stream loop of `main`: decode, then either count (validate
mode) or render, optionally highlight, and write the text followed by
one newline; stop at end of input or at the first error. -/
def runLoop (cfg : Config) : Nat → List Char → Nat → RunResult
  | 0, _, count => ⟨[], count, false, none⟩
  | fuel + 1, s, count =>
    match decodeOne s with
    | .eof => ⟨[], count, true, if cfg.validate then some count else none⟩
    | .err => ⟨[], count, false, none⟩
    | .val v span rest =>
      if cfg.validate then runLoop cfg fuel rest (count + 1)
      else
        match renderValue cfg v span with
        | none => ⟨[], count, false, none⟩
        | some body =>
          let out := if cfg.colorize then syntaxHighlight body else body
          let r := runLoop cfg fuel rest (count + 1)
          ⟨(out ++ ['\n']) :: r.chunks, r.count, r.ok, r.summary⟩

def runMain (cfg : Config) (input : List Char) : RunResult :=
  runLoop cfg (input.length + 1) input 0

/-! ### Specification-side predicates -/

/-- Every character is whitespace. -/
def AllWS (w : List Char) : Prop := ∀ c ∈ w, isWS c = true

/-- Well-formed string-literal bodies: the character sequences
`parseStrBody` accepts (no unescaped quote or backslash, no control
characters, validated escapes). -/
inductive SBody : List Char → Prop where
  | nil : SBody []
  | plain (c : Char) (b : List Char) : c ≠ '"' → c ≠ '\\' → 0x20 ≤ c.toNat →
      SBody b → SBody (c :: b)
  | esc (e : Char) (b : List Char) : e ≠ 'u' → isEsc e = true → SBody b →
      SBody ('\\' :: e :: b)
  | escU (h1 h2 h3 h4 : Char) (b : List Char) : isHex h1 = true → isHex h2 = true →
      isHex h3 = true → isHex h4 = true → SBody b →
      SBody ('\\' :: 'u' :: h1 :: h2 :: h3 :: h4 :: b)

mutual
/-- `WSRender v u`: `u` is a serialization of the value `v` — the token
sequence of `v` with arbitrary insignificant whitespace in the slots the
grammar allows, no surrounding whitespace.  The spans the decoder
returns, the compact renderings and the pretty renderings all take this
form. -/
inductive WSRender : Jval → List Char → Prop where
  | null : WSRender .null ['n', 'u', 'l', 'l']
  | tru : WSRender (.boolean true) ['t', 'r', 'u', 'e']
  | fls : WSRender (.boolean false) ['f', 'a', 'l', 's', 'e']
  | num (lit : List Char) : parseNum lit = some (lit, []) → WSRender (.num lit) lit
  | str (b : List Char) : SBody b → WSRender (.str b) ('"' :: b ++ ['"'])
  | arrNil (w : List Char) : AllWS w → WSRender (.arr []) ('[' :: w ++ [']'])
  | arr (w u : List Char) (xs : List Jval) : AllWS w → WSElems xs u →
      WSRender (.arr xs) ('[' :: w ++ u)
  | objNil (w : List Char) : AllWS w → WSRender (.obj []) ('{' :: w ++ ['}'])
  | obj (w u : List Char) (ms : List (List Char × Jval)) : AllWS w → WSMembers ms u →
      WSRender (.obj ms) ('{' :: w ++ u)

/-- Array elements as the parser consumes them: starting at a value
character, ending just after the closing bracket. -/
inductive WSElems : List Jval → List Char → Prop where
  | last (x : Jval) (r w : List Char) : WSRender x r → AllWS w →
      WSElems [x] (r ++ w ++ [']'])
  | cons (x : Jval) (r w w2 : List Char) (xs : List Jval) (u : List Char) :
      WSRender x r → AllWS w → AllWS w2 → WSElems xs u →
      WSElems (x :: xs) (r ++ w ++ ',' :: w2 ++ u)

/-- Object members as the parser consumes them: starting at the opening
quote of a key, ending just after the closing brace. -/
inductive WSMembers : List (List Char × Jval) → List Char → Prop where
  | last (k w1 w2 : List Char) (v : Jval) (r w3 : List Char) :
      SBody k → AllWS w1 → AllWS w2 → WSRender v r → AllWS w3 →
      WSMembers [(k, v)] ('"' :: k ++ '"' :: w1 ++ ':' :: w2 ++ r ++ w3 ++ ['}'])
  | cons (k w1 w2 : List Char) (v : Jval) (r w3 w4 : List Char)
      (ms : List (List Char × Jval)) (u : List Char) :
      SBody k → AllWS w1 → AllWS w2 → WSRender v r → AllWS w3 → AllWS w4 →
      WSMembers ms u →
      WSMembers ((k, v) :: ms) ('"' :: k ++ '"' :: w1 ++ ':' :: w2 ++ r ++ w3 ++ ',' :: w4 ++ u)
end

mutual
/-- Well-formed value trees: string bodies and keys are valid literal
bodies, number slots hold maximal complete number literals.  Every value
the decoder produces is well formed. -/
inductive WFv : Jval → Prop where
  | null : WFv .null
  | boolean (b : Bool) : WFv (.boolean b)
  | num (lit : List Char) : parseNum lit = some (lit, []) → WFv (.num lit)
  | str (b : List Char) : SBody b → WFv (.str b)
  | arr (xs : List Jval) : WFL xs → WFv (.arr xs)
  | obj (ms : List (List Char × Jval)) : WFM ms → WFv (.obj ms)

inductive WFL : List Jval → Prop where
  | nil : WFL []
  | cons (x : Jval) (xs : List Jval) : WFv x → WFL xs → WFL (x :: xs)

inductive WFM : List (List Char × Jval) → Prop where
  | nil : WFM []
  | cons (k : List Char) (v : Jval) (ms : List (List Char × Jval)) :
      SBody k → WFv v → WFM ms → WFM ((k, v) :: ms)
end

/-- A character that could extend a number literal to the right; a
number span followed by anything else re-parses to exactly itself. -/
def numExtChar (c : Char) : Bool :=
  c.isDigit || c = '.' || c = 'e' || c = 'E' || c = '+' || c = '-'

/-- `valStop v t`: appending `t` after a span of `v` does not change what
the parser consumes (only number literals are not self-delimiting). -/
def valStop : Jval → List Char → Prop
  | .num _, c :: _ => numExtChar c = false
  | _, _ => True

/-- One of the seven ANSI color codes the highlighter inserts. -/
def isColorCode (t : List Char) : Prop :=
  t = colorReset ∨ t = colorRed ∨ t = colorGreen ∨ t = colorYellow ∨
    t = colorBlue ∨ t = colorPurple ∨ t = colorBold

/-- Texts that are a sequence of ordinary characters and complete color
codes — the shape of every intermediate highlighter result. -/
inductive WellAnsi : List Char → Prop where
  | nil : WellAnsi []
  | plain (c : Char) (s : List Char) : c ≠ escChar → WellAnsi s → WellAnsi (c :: s)
  | code (t s : List Char) : isColorCode t → WellAnsi s → WellAnsi (t ++ s)

/-- Does the text contain the escape character? -/
def hasEsc (s : List Char) : Bool := s.any (· = escChar)

/-- A nonempty whitespace run followed by a colon. -/
def wsColon (t : List Char) : Bool :=
  match t.takeWhile isWS with
  | [] => false
  | _ =>
    match t.dropWhile isWS with
    | ':' :: _ => true
    | _ => false

/-- Does the text contain a quote followed by at least one whitespace
character and then a colon?  Exactly at such places the key pass of the
highlighter deletes the whitespace. -/
def hasQWC : List Char → Bool
  | [] => false
  | c :: cs => (c = '"' && wsColon cs) || hasQWC cs

mutual
/-- Trees as they come out of Go map decoding: every object's keys are
pairwise distinct (a map cannot hold duplicate keys), recursively. -/
inductive MapTree : Jval → Prop where
  | null : MapTree .null
  | boolean (b : Bool) : MapTree (.boolean b)
  | num (s : List Char) : MapTree (.num s)
  | str (s : List Char) : MapTree (.str s)
  | arr (xs : List Jval) : MapTreeL xs → MapTree (.arr xs)
  | obj (ms : List (List Char × Jval)) : (ms.map Prod.fst).Nodup → MapTreeM ms →
      MapTree (.obj ms)

inductive MapTreeL : List Jval → Prop where
  | nil : MapTreeL []
  | cons (x : Jval) (xs : List Jval) : MapTree x → MapTreeL xs → MapTreeL (x :: xs)

inductive MapTreeM : List (List Char × Jval) → Prop where
  | nil : MapTreeM []
  | cons (k : List Char) (v : Jval) (ms : List (List Char × Jval)) :
      MapTree v → MapTreeM ms → MapTreeM ((k, v) :: ms)
end

/-- The shape of the literal group of the highlighter's number pattern
`[0-9]+(?:\.[0-9]+)?(?:[eE][+-]?[0-9]+)?` (no minus sign). -/
def NumTok (lit : List Char) : Prop :=
  ∃ ds fr ex, lit = ds ++ fr ++ ex ∧ ds ≠ [] ∧ (∀ c ∈ ds, c.isDigit = true) ∧
    (fr = [] ∨ ∃ fd, fr = '.' :: fd ∧ fd ≠ [] ∧ ∀ c ∈ fd, c.isDigit = true) ∧
    (ex = [] ∨ ∃ e sg ed, (e = 'e' ∨ e = 'E') ∧ (sg = [] ∨ sg = ['+'] ∨ sg = ['-']) ∧
      ex = e :: sg ++ ed ∧ ed ≠ [] ∧ ∀ c ∈ ed, c.isDigit = true)

/-! ### Generic list helpers -/

/-- Keys pairwise distinct. -/
def keysNodup (l : List (List Char × Jval)) : Prop := (l.map Prod.fst).Nodup

/-- Structured shape of an integer part. -/
def IntShape (ip : List Char) : Prop :=
  ip = ['0'] ∨ ∃ d ds, ip = d :: ds ∧ d.isDigit = true ∧ d ≠ '0' ∧ ∀ c ∈ ds, c.isDigit = true

/-- Structured shape of an optional fraction part. -/
def FracShape (fp : List Char) : Prop :=
  fp = [] ∨ ∃ ds, fp = '.' :: ds ∧ ds ≠ [] ∧ ∀ c ∈ ds, c.isDigit = true

/-- Structured shape of an optional exponent part. -/
def ExpShape (ep : List Char) : Prop :=
  ep = [] ∨ ∃ e sg ds, ep = e :: sg ++ ds ∧ (e = 'e' ∨ e = 'E') ∧
    (sg = [] ∨ sg = ['+'] ∨ sg = ['-']) ∧ ds ≠ [] ∧ ∀ c ∈ ds, c.isDigit = true

/-- No digit at the head: the integer/digit-run parsers stop here. -/
def NoDigitHead (t : List Char) : Prop := ∀ c, t.head? = some c → c.isDigit = false

/-- Characters that cannot start an extension of a completed number nor
a fraction/exponent attempt. -/
def NoNumExtHead (t : List Char) : Prop := ∀ c, t.head? = some c → numExtChar c = false

/-- Structured shape of a complete number literal. -/
def NumShape (l : List Char) : Prop :=
  ∃ sign ip fp ep, l = sign ++ ip ++ fp ++ ep ∧ (sign = [] ∨ sign = ['-']) ∧
    IntShape ip ∧ FracShape fp ∧ ExpShape ep

def safeC (c : Char) : Bool :=
  !isWS c && c != '{' && c != '}' && c != '[' && c != ']' &&
    c != ',' && c != ':' && c != '"'

def MSpec (m : List Char → Option (List Char × List Char)) : Prop :=
  ∀ s out rest, m s = some (out, rest) →
    (∃ pre, pre ≠ [] ∧ s = pre ++ rest) ∧ out ≠ [] ∧
      ∀ c, out.getLast? = some c → c ≠ '\n'

inductive Seg : List Char → Prop where
  | nil : Seg []
  | plain (c : Char) (s : List Char) : ¬(c = escChar) → ¬(c = '"') → Seg s → Seg (c :: s)
  | quoted (b : List Char) (s : List Char) :
      (∀ c ∈ b, ¬(c = escChar) ∧ ¬(c = '"') ∧ ¬(c = ':')) → Seg s →
      Seg ('"' :: (b ++ '"' :: s))
  | code (a : List Char) (s : List Char) : isColorCode a → Seg s → Seg (a ++ s)

/-- The data a successful colon-anchored match provides when the text after
the colon is segment-structured: the consumed part, its escape-freeness, the
segment structure of what remains, how the output strips, and the segment
structure of the output. -/
def SegHit (out rest rest2 : List Char) : Prop :=
  ∃ pre, rest = pre ++ rest2 ∧ (∀ c ∈ pre, ¬(c = escChar)) ∧ Seg rest2 ∧
    (∀ X, stripAnsi (out ++ X) = ':' :: (pre ++ stripAnsi X)) ∧
    (∀ z, Seg z → Seg (out ++ z))

/-- The data a successful colon-anchored match provides when the text after
the colon is a sequence of non-escape characters and complete color codes:
the consumed part is such a sequence itself, what remains is again one, the
output strips like the consumed text, and the output is again such a
sequence when the rest is. -/
def WAHit (out rest rest2 : List Char) : Prop :=
  ∃ pre, rest = pre ++ rest2 ∧ WellAnsi pre ∧ WellAnsi rest2 ∧
    (∀ X, stripAnsi (out ++ X) = ':' :: stripAnsi (pre ++ X)) ∧
    (∀ z, WellAnsi z → WellAnsi (out ++ z))

theorem takeWhile_app (p : Char → Bool) (a b : List Char) (ha : ∀ c ∈ a, p c = true)
    (hb : ∀ c, b.head? = some c → p c = false) :
    (a ++ b).takeWhile p = a ∧ (a ++ b).dropWhile p = b := by
  induction a with
  | nil =>
    simp only [List.nil_append]
    cases b with
    | nil => simp [List.takeWhile, List.dropWhile]
    | cons c cs =>
      have := hb c (by simp)
      simp [List.takeWhile_cons, List.dropWhile_cons, this]
  | cons x xs ih =>
    have hx := ha x (by simp)
    have hrest := ih (fun c hc => ha c (by simp [hc]))
    simp [List.takeWhile_cons, List.dropWhile_cons, hx, hrest.1, hrest.2]

theorem getLast?_app_of_ne_nil (a b : List Char) (hb : b ≠ []) :
    (a ++ b).getLast? = b.getLast? := by
  cases b with
  | nil => simp at hb
  | cons c cs =>
    simp only [List.getLast?_append]
    have hs : (c :: cs).getLast?.isSome := by
      rw [List.getLast?_isSome]
      simp
    exact Option.or_of_isSome hs

/-! ### Sort-path lemmas (claims C1 and C9) -/

theorem keyLe_refl (a : List Char) : keyLe a a = true := by
  induction a with
  | nil => simp [keyLe]
  | cons c cs ih => simp [keyLe, ih]

theorem keyLe_total (a b : List Char) : keyLe a b = true ∨ keyLe b a = true := by
  induction a generalizing b with
  | nil => simp [keyLe]
  | cons c cs ih =>
    cases b with
    | nil => simp [keyLe]
    | cons d ds =>
      simp only [keyLe, Bool.or_eq_true, decide_eq_true_eq, Bool.and_eq_true]
      rcases Nat.lt_trichotomy c.toNat d.toNat with h | h | h
      · exact Or.inl (Or.inl h)
      · have hcd : c = d := by
          have : c.val = d.val := by
            apply UInt32.toNat.inj  -- may need fixing
            exact h
          exact Char.eq_of_val_eq this
        subst hcd
        rcases ih ds with h2 | h2
        · exact Or.inl (Or.inr ⟨rfl, h2⟩)
        · exact Or.inr (Or.inr ⟨rfl, h2⟩)
      · exact Or.inr (Or.inl h)

theorem keyLe_antisymm (a b : List Char) (h1 : keyLe a b = true) (h2 : keyLe b a = true) :
    a = b := by
  induction a generalizing b with
  | nil =>
    cases b with
    | nil => rfl
    | cons d ds => simp [keyLe] at h2
  | cons c cs ih =>
    cases b with
    | nil => simp [keyLe] at h1
    | cons d ds =>
      simp only [keyLe, Bool.or_eq_true, decide_eq_true_eq, Bool.and_eq_true] at h1 h2
      rcases h1 with h1 | ⟨rfl, h1⟩
      · rcases h2 with h2 | ⟨rfl, h2⟩
        · omega
        · omega
      · rcases h2 with h2 | ⟨_, h2⟩
        · omega
        · rw [ih ds h1 h2]

theorem keyLe_trans (a b c : List Char) (h1 : keyLe a b = true) (h2 : keyLe b c = true) :
    keyLe a c = true := by
  induction a generalizing b c with
  | nil => simp [keyLe]
  | cons x xs ih =>
    cases b with
    | nil => simp [keyLe] at h1
    | cons y ys =>
      cases c with
      | nil => simp [keyLe] at h2
      | cons z zs =>
        simp only [keyLe, Bool.or_eq_true, decide_eq_true_eq, Bool.and_eq_true] at h1 h2 ⊢
        rcases h1 with h1 | ⟨rfl, h1⟩
        · rcases h2 with h2 | ⟨rfl, h2⟩
          · exact Or.inl (Nat.lt_trans h1 h2)
          · exact Or.inl h1
        · rcases h2 with h2 | ⟨rfl, h2⟩
          · exact Or.inl h2
          · exact Or.inr ⟨rfl, ih ys zs h1 h2⟩

theorem ascKeys_cons (p : List Char × Jval) (l : List (List Char × Jval))
    (hl : ascKeys l = true) (hle : ∀ q ∈ l, keyLe p.1 q.1 = true) :
    ascKeys (p :: l) = true := by
  cases l with
  | nil => simp [ascKeys]
  | cons q qs =>
    simp only [ascKeys, Bool.and_eq_true]
    exact ⟨hle q (by simp), hl⟩

theorem ascKeys_tail (p : List Char × Jval) (l : List (List Char × Jval))
    (h : ascKeys (p :: l) = true) : ascKeys l = true := by
  cases l with
  | nil => simp [ascKeys]
  | cons q qs =>
    simp only [ascKeys, Bool.and_eq_true] at h
    exact h.2

theorem ascKeys_head_le (p : List Char × Jval) (l : List (List Char × Jval))
    (h : ascKeys (p :: l) = true) : ∀ q ∈ l, keyLe p.1 q.1 = true := by
  induction l generalizing p with
  | nil => intro q hq; simp at hq
  | cons r rs ih =>
    intro q hq
    simp only [ascKeys, Bool.and_eq_true] at h
    rcases List.mem_cons.mp hq with rfl | hq2
    · exact h.1
    · exact keyLe_trans _ _ _ h.1 (ih r h.2 q hq2)

theorem insKey_mem (p q : List Char × Jval) (l : List (List Char × Jval))
    (h : q ∈ insKey p l) : q = p ∨ q ∈ l := by
  induction l with
  | nil => simpa [insKey] using h
  | cons r rs ih =>
    simp only [insKey] at h
    split at h
    · rcases List.mem_cons.mp h with rfl | h2
      · exact Or.inl rfl
      · exact Or.inr h2
    · rcases List.mem_cons.mp h with rfl | h2
      · exact Or.inr (by simp)
      · rcases ih h2 with h3 | h3
        · exact Or.inl h3
        · exact Or.inr (by simp [h3])

theorem insKey_asc (p : List Char × Jval) (l : List (List Char × Jval))
    (h : ascKeys l = true) : ascKeys (insKey p l) = true := by
  induction l with
  | nil => simp [insKey, ascKeys]
  | cons q qs ih =>
    simp only [insKey]
    split
    · refine ascKeys_cons _ _ h ?_
      intro r hr
      rcases List.mem_cons.mp hr with rfl | hr2
      · assumption
      · exact keyLe_trans _ _ _ (by assumption) (ascKeys_head_le q qs h r hr2)
    · rename_i hpq
      refine ascKeys_cons _ _ (ih (ascKeys_tail _ _ h)) ?_
      intro r hr
      rcases insKey_mem p r qs hr with hr1 | hr2
      · subst hr1
        rcases keyLe_total r.1 q.1 with hle | hle
        · exact absurd hle hpq
        · exact hle
      · exact ascKeys_head_le q qs h r hr2

theorem insSortKeys_mem (q : List Char × Jval) (l : List (List Char × Jval))
    (h : q ∈ insSortKeys l) : q ∈ l := by
  induction l with
  | nil => simpa [insSortKeys] using h
  | cons p ps ih =>
    simp only [insSortKeys] at h
    rcases insKey_mem p q (insSortKeys ps) h with rfl | h2
    · simp
    · simp [ih h2]

theorem insSortKeys_asc (l : List (List Char × Jval)) : ascKeys (insSortKeys l) = true := by
  induction l with
  | nil => simp [insSortKeys, ascKeys]
  | cons p ps ih => simpa [insSortKeys] using insKey_asc p _ ih

theorem insKey_perm (p : List Char × Jval) (l : List (List Char × Jval)) :
    List.Perm (insKey p l) (p :: l) := by
  induction l with
  | nil => simp [insKey]
  | cons q qs ih =>
    simp only [insKey]
    split
    · exact List.Perm.refl _
    · exact (List.Perm.cons q ih).trans (List.Perm.swap p q qs)

theorem insSortKeys_perm (l : List (List Char × Jval)) : List.Perm (insSortKeys l) l := by
  induction l with
  | nil => simp [insSortKeys]
  | cons p ps ih =>
    exact (insKey_perm p (insSortKeys ps)).trans (List.Perm.cons p ih)

theorem sorted_nodup_perm_eq (l1 l2 : List (List Char × Jval)) (h1 : ascKeys l1 = true)
    (h2 : ascKeys l2 = true) (hn : keysNodup l1) (hp : List.Perm l1 l2) : l1 = l2 := by
  induction l1 generalizing l2 with
  | nil => exact (List.Perm.nil_eq hp).symm ▸ rfl
  | cons p ps ih =>
    cases l2 with
    | nil => exact absurd hp.symm (by simp)
    | cons q qs =>
      have hpq : p = q := by
        have hq_mem : q ∈ p :: ps := hp.mem_iff.mpr (by simp)
        have hp_mem : p ∈ q :: qs := hp.mem_iff.mp (by simp)
        rcases List.mem_cons.mp hq_mem with rfl | hq2
        · rfl
        · rcases List.mem_cons.mp hp_mem with rfl | hp2
          · rfl
          · have hle1 : keyLe p.1 q.1 = true := ascKeys_head_le p ps h1 q hq2
            have hle2 : keyLe q.1 p.1 = true := ascKeys_head_le q qs h2 p hp2
            have hkeys : p.1 = q.1 := keyLe_antisymm _ _ hle1 hle2
            -- p and q share a key, and q is in the tail ps: contradicts nodup
            exfalso
            have : q.1 ∈ ps.map Prod.fst := List.mem_map_of_mem Prod.fst hq2
            rw [← hkeys] at this
            simp only [keysNodup, List.map_cons, List.nodup_cons] at hn
            exact hn.1 this
      subst hpq
      have hp2 : List.Perm ps qs := List.Perm.cons_inv hp
      have := ih qs (ascKeys_tail _ _ h1) (ascKeys_tail _ _ h2)
        (by simp only [keysNodup, List.map_cons, List.nodup_cons] at hn; exact hn.2) hp2
      rw [this]

theorem putKey_mem (k : List Char) (v : Jval) (l : List (List Char × Jval))
    (q : List Char × Jval) (h : q ∈ putKey k v l) : q = (k, v) ∨ q ∈ l := by
  induction l with
  | nil => simpa [putKey] using h
  | cons r rs ih =>
    simp only [putKey] at h
    split at h
    · rcases List.mem_cons.mp h with h1 | h1
      · rename_i heq
        subst h1
        left
        simp [heq]
      · exact Or.inr (by simp [h1])
    · rcases List.mem_cons.mp h with h1 | h1
      · exact Or.inr (by simp [h1])
      · rcases ih h1 with h2 | h2
        · exact Or.inl h2
        · exact Or.inr (by simp [h2])

theorem foldl_putKey_mem (l acc : List (List Char × Jval)) (q : List Char × Jval)
    (h : q ∈ l.foldl (fun acc kv => putKey kv.1 kv.2 acc) acc) : q ∈ l ∨ q ∈ acc := by
  induction l generalizing acc with
  | nil => exact Or.inr h
  | cons r rs ih =>
    simp only [List.foldl_cons] at h
    rcases ih (putKey r.1 r.2 acc) h with h1 | h1
    · exact Or.inl (by simp [h1])
    · rcases putKey_mem r.1 r.2 acc q h1 with h2 | h2
      · exact Or.inl (by simp [h2])
      · exact Or.inr h2

theorem buildMap_mem (l : List (List Char × Jval)) (q : List Char × Jval)
    (h : q ∈ buildMap l) : q ∈ l := by
  rcases foldl_putKey_mem l [] q h with h1 | h1
  · exact h1
  · simp at h1

theorem mapifyM_mem (ms : List (List Char × Jval)) (q : List Char × Jval)
    (h : q ∈ mapifyM ms) : ∃ v, (q.1, v) ∈ ms ∧ q.2 = mapify v := by
  induction ms with
  | nil => simp [mapifyM] at h
  | cons m rest ih =>
    match m with
    | (k, v) =>
      simp only [mapifyM] at h
      rcases List.mem_cons.mp h with h1 | h1
      · subst h1
        exact ⟨v, by simp⟩
      · rcases ih h1 with ⟨v2, hv2, he⟩
        exact ⟨v2, by simp [hv2], he⟩

theorem marshalSortWithM_mem (σ : List (List Char × Jval) → List (List Char × Jval))
    (ms : List (List Char × Jval)) (q : List Char × Jval)
    (h : q ∈ marshalSortWithM σ ms) : ∃ v, (q.1, v) ∈ ms ∧ q.2 = marshalSortWith σ v := by
  induction ms with
  | nil => simp [marshalSortWithM] at h
  | cons m rest ih =>
    match m with
    | (k, v) =>
      simp only [marshalSortWithM] at h
      rcases List.mem_cons.mp h with h1 | h1
      · subst h1
        exact ⟨v, by simp⟩
      · rcases ih h1 with ⟨v2, hv2, he⟩
        exact ⟨v2, by simp [hv2], he⟩

theorem sortedBM_of_mem (ns : List (List Char × Jval))
    (h : ∀ q ∈ ns, sortedB q.2 = true) : sortedBM ns = true := by
  induction ns with
  | nil => simp [sortedBM]
  | cons q qs ih =>
    match q with
    | (k, v) =>
      simp only [sortedBM, Bool.and_eq_true]
      exact ⟨h (k, v) (by simp), ih (fun r hr => h r (by simp [hr]))⟩

mutual
theorem sortedB_marshalSort : ∀ v : Jval, sortedB (marshalSort v) = true
  | .null => by simp [marshalSort, marshalSortWith, sortedB]
  | .boolean b => by simp [marshalSort, marshalSortWith, sortedB]
  | .num s => by simp [marshalSort, marshalSortWith, sortedB]
  | .str s => by simp [marshalSort, marshalSortWith, sortedB]
  | .arr xs => by
    simp only [marshalSort, marshalSortWith, sortedB]
    exact sortedBL_marshalSort xs
  | .obj ms => by
    simp only [marshalSort, marshalSortWith, sortedB, Bool.and_eq_true]
    refine ⟨insSortKeys_asc _, ?_⟩
    exact sortedBM_of_mem _ (fun q hq => by
      rcases marshalSortWithM_mem id ms q (insSortKeys_mem q _ hq) with ⟨v2, hv2, he⟩
      rw [he]
      exact sortedB_marshalSort_mem ms v2 q.1 hv2)

theorem sortedBL_marshalSort : ∀ xs : List Jval, sortedBL (marshalSortWithL id xs) = true
  | [] => by simp [marshalSortWithL, sortedBL]
  | x :: xs => by
    simp only [marshalSortWithL, sortedBL, Bool.and_eq_true]
    exact ⟨sortedB_marshalSort x, sortedBL_marshalSort xs⟩

theorem sortedB_marshalSort_mem : ∀ (ms : List (List Char × Jval)) (v : Jval) (k : List Char),
    (k, v) ∈ ms → sortedB (marshalSort v) = true
  | [], _, _, h => by simp at h
  | m :: rest, v, k, h => by
    rcases List.mem_cons.mp h with h1 | h1
    · have : v = m.2 := by rw [← h1]
      rw [this]
      exact sortedB_marshalSort m.2
    · exact sortedB_marshalSort_mem rest v k h1
end


theorem memRel_intro (ms : List (List Char × Jval)) (k : List Char) (v0 w : Jval)
    (hm : (k, v0) ∈ ms) (hrel : arrPresB v0 w = true) : memRel ms k w = true := by
  induction ms with
  | nil => simp at hm
  | cons m rest ih =>
    match m with
    | (k2, v2) =>
      simp only [memRel, Bool.or_eq_true, Bool.and_eq_true, decide_eq_true_eq]
      rcases List.mem_cons.mp hm with h1 | h1
      · have hk : k2 = k := by
          have := congrArg Prod.fst h1.symm
          simpa using this
        have hv : v2 = v0 := by
          have := congrArg Prod.snd h1.symm
          simpa using this
        subst hv
        exact Or.inl ⟨hk, hrel⟩
      · exact Or.inr (ih h1)

theorem arrPresM_of_mem (ms ns : List (List Char × Jval))
    (h : ∀ q ∈ ns, memRel ms q.1 q.2 = true) : arrPresM ms ns = true := by
  induction ns with
  | nil => simp [arrPresM]
  | cons q qs ih =>
    match q with
    | (k, w) =>
      simp only [arrPresM, Bool.and_eq_true]
      exact ⟨h (k, w) (by simp), ih (fun r hr => h r (by simp [hr]))⟩

mutual
theorem arrPres_sortPath : ∀ v : Jval, arrPresB v (sortPath v) = true
  | .null => by simp [sortPath, mapify, marshalSort, marshalSortWith, arrPresB]
  | .boolean b => by simp [sortPath, mapify, marshalSort, marshalSortWith, arrPresB]
  | .num s => by simp [sortPath, mapify, marshalSort, marshalSortWith, arrPresB]
  | .str s => by simp [sortPath, mapify, marshalSort, marshalSortWith, arrPresB]
  | .arr xs => by
    show arrPresB (.arr xs) (marshalSort (mapify (.arr xs))) = true
    simp only [mapify, marshalSort, marshalSortWith, arrPresB]
    exact arrPresL_sortPath xs
  | .obj ms => by
    show arrPresB (.obj ms) (marshalSort (mapify (.obj ms))) = true
    simp only [mapify, marshalSort, marshalSortWith, arrPresB, id]
    refine arrPresM_of_mem _ _ (fun q hq => ?_)
    rcases marshalSortWithM_mem id _ q (insSortKeys_mem q _ hq) with ⟨v2, hv2, he⟩
    rcases mapifyM_mem ms (q.1, v2) (buildMap_mem _ _ hv2) with ⟨v0, hv0, he2⟩
    simp only at he2
    refine memRel_intro ms q.1 v0 q.2 hv0 ?_
    rw [he, he2]
    exact arrPres_sortPath_mem ms v0 q.1 hv0

theorem arrPresL_sortPath : ∀ xs : List Jval,
    arrPresL xs (marshalSortWithL id (mapifyL xs)) = true
  | [] => by simp [mapifyL, marshalSortWithL, arrPresL]
  | x :: xs => by
    simp only [mapifyL, marshalSortWithL, arrPresL, Bool.and_eq_true]
    exact ⟨arrPres_sortPath x, arrPresL_sortPath xs⟩

theorem arrPres_sortPath_mem : ∀ (ms : List (List Char × Jval)) (v : Jval) (k : List Char),
    (k, v) ∈ ms → arrPresB v (sortPath v) = true
  | [], _, _, h => by simp at h
  | m :: rest, v, k, h => by
    rcases List.mem_cons.mp h with h1 | h1
    · have : v = m.2 := by rw [← h1]
      rw [this]
      exact arrPres_sortPath m.2
    · exact arrPres_sortPath_mem rest v k h1
end

theorem putKey_keysNodup (k : List Char) (v : Jval) (l : List (List Char × Jval))
    (h : keysNodup l) : keysNodup (putKey k v l) := by
  induction l with
  | nil => simp [putKey, keysNodup]
  | cons r rs ih =>
    simp only [putKey]
    split
    · simpa [keysNodup] using h
    · rename_i hne
      simp only [keysNodup, List.map_cons, List.nodup_cons] at h ⊢
      refine ⟨?_, ih h.2⟩
      intro hmem
      rcases List.mem_map.mp hmem with ⟨q, hq, hq2⟩
      rcases putKey_mem k v rs q hq with h1 | h1
      · subst h1
        simp at hq2
        exact hne hq2.symm
      · exact h.1 (hq2 ▸ List.mem_map_of_mem Prod.fst h1)

theorem buildMap_keysNodup (l : List (List Char × Jval)) : keysNodup (buildMap l) := by
  have main : ∀ (l acc : List (List Char × Jval)), keysNodup acc →
      keysNodup (l.foldl (fun acc kv => putKey kv.1 kv.2 acc) acc) := by
    intro l
    induction l with
    | nil => intro acc h; exact h
    | cons r rs ih =>
      intro acc h
      exact ih _ (putKey_keysNodup r.1 r.2 acc h)
  exact main l [] (by simp [keysNodup])

theorem marshalSortWithM_keys (σ : List (List Char × Jval) → List (List Char × Jval))
    (ms : List (List Char × Jval)) :
    (marshalSortWithM σ ms).map Prod.fst = ms.map Prod.fst := by
  induction ms with
  | nil => simp [marshalSortWithM]
  | cons m rest ih =>
    match m with
    | (k, v) => simp [marshalSortWithM, ih]

theorem mapTreeM_of_mem (ns : List (List Char × Jval))
    (h : ∀ q ∈ ns, MapTree q.2) : MapTreeM ns := by
  induction ns with
  | nil => exact .nil
  | cons q qs ih =>
    match q with
    | (k, v) => exact .cons k v qs (h (k, v) (by simp)) (ih (fun r hr => h r (by simp [hr])))

mutual
theorem mapify_mapTree : ∀ v : Jval, MapTree (mapify v)
  | .null => .null
  | .boolean b => .boolean b
  | .num s => .num s
  | .str s => .str s
  | .arr xs => by
    show MapTree (.arr (mapifyL xs))
    exact .arr _ (mapify_mapTreeL xs)
  | .obj ms => by
    show MapTree (.obj (buildMap (mapifyM ms)))
    refine .obj _ (buildMap_keysNodup _) ?_
    refine mapTreeM_of_mem _ (fun q hq => ?_)
    rcases mapifyM_mem ms q (buildMap_mem _ _ hq) with ⟨v0, hv0, he⟩
    rw [he]
    exact mapify_mapTree_mem ms v0 q.1 hv0

theorem mapify_mapTreeL : ∀ xs : List Jval, MapTreeL (mapifyL xs)
  | [] => .nil
  | x :: xs => by
    show MapTreeL (mapify x :: mapifyL xs)
    exact .cons _ _ (mapify_mapTree x) (mapify_mapTreeL xs)

theorem mapify_mapTree_mem : ∀ (ms : List (List Char × Jval)) (v : Jval) (k : List Char),
    (k, v) ∈ ms → MapTree (mapify v)
  | [], _, _, h => by simp at h
  | m :: rest, v, k, h => by
    rcases List.mem_cons.mp h with h1 | h1
    · have : v = m.2 := by rw [← h1]
      rw [this]
      exact mapify_mapTree m.2
    · exact mapify_mapTree_mem rest v k h1
end

mutual
theorem marshalSortWith_det
    (σ1 σ2 : List (List Char × Jval) → List (List Char × Jval))
    (hσ1 : ∀ l, List.Perm (σ1 l) l) (hσ2 : ∀ l, List.Perm (σ2 l) l) :
    ∀ v : Jval, MapTree v → marshalSortWith σ1 v = marshalSortWith σ2 v
  | .null, _ => rfl
  | .boolean b, _ => rfl
  | .num s, _ => rfl
  | .str s, _ => rfl
  | .arr xs, h => by
    cases h with
    | arr _ hl =>
      show Jval.arr (marshalSortWithL σ1 xs) = Jval.arr (marshalSortWithL σ2 xs)
      rw [marshalSortWithL_det σ1 σ2 hσ1 hσ2 xs hl]
  | .obj ms, h => by
    cases h with
    | obj _ hnd hm =>
      show Jval.obj (insSortKeys (σ1 (marshalSortWithM σ1 ms))) =
        Jval.obj (insSortKeys (σ2 (marshalSortWithM σ2 ms)))
      rw [marshalSortWithM_det σ1 σ2 hσ1 hσ2 ms hm]
      congr 1
      have hL : keysNodup (marshalSortWithM σ2 ms) := by
        simpa [keysNodup, marshalSortWithM_keys] using hnd
      have hperm1 : List.Perm (insSortKeys (σ1 (marshalSortWithM σ2 ms)))
          (marshalSortWithM σ2 ms) :=
        (insSortKeys_perm _).trans (hσ1 _)
      have hperm2 : List.Perm (insSortKeys (σ2 (marshalSortWithM σ2 ms)))
          (marshalSortWithM σ2 ms) :=
        (insSortKeys_perm _).trans (hσ2 _)
      refine sorted_nodup_perm_eq _ _ (insSortKeys_asc _) (insSortKeys_asc _) ?_
        (hperm1.trans hperm2.symm)
      have : List.Perm ((insSortKeys (σ1 (marshalSortWithM σ2 ms))).map Prod.fst)
          ((marshalSortWithM σ2 ms).map Prod.fst) := hperm1.map Prod.fst
      exact (List.Perm.nodup_iff this).mpr hL

theorem marshalSortWithL_det
    (σ1 σ2 : List (List Char × Jval) → List (List Char × Jval))
    (hσ1 : ∀ l, List.Perm (σ1 l) l) (hσ2 : ∀ l, List.Perm (σ2 l) l) :
    ∀ xs : List Jval, MapTreeL xs → marshalSortWithL σ1 xs = marshalSortWithL σ2 xs
  | [], _ => rfl
  | x :: xs, h => by
    cases h with
    | cons _ _ hx hl =>
      show marshalSortWith σ1 x :: marshalSortWithL σ1 xs =
        marshalSortWith σ2 x :: marshalSortWithL σ2 xs
      rw [marshalSortWith_det σ1 σ2 hσ1 hσ2 x hx, marshalSortWithL_det σ1 σ2 hσ1 hσ2 xs hl]

theorem marshalSortWithM_det
    (σ1 σ2 : List (List Char × Jval) → List (List Char × Jval))
    (hσ1 : ∀ l, List.Perm (σ1 l) l) (hσ2 : ∀ l, List.Perm (σ2 l) l) :
    ∀ ms : List (List Char × Jval), MapTreeM ms →
      marshalSortWithM σ1 ms = marshalSortWithM σ2 ms
  | [], _ => rfl
  | (k, v) :: ms, h => by
    cases h with
    | cons _ _ _ hv hm =>
      show (k, marshalSortWith σ1 v) :: marshalSortWithM σ1 ms =
        (k, marshalSortWith σ2 v) :: marshalSortWithM σ2 ms
      rw [marshalSortWith_det σ1 σ2 hσ1 hσ2 v hv, marshalSortWithM_det σ1 σ2 hσ1 hσ2 ms hm]
end

/-! ### Whitespace and literal lemmas -/

theorem takeWS_eq (s : List Char) : takeWS s = (s.takeWhile isWS, s.dropWhile isWS) := rfl

theorem takeWS_allWS (s : List Char) : AllWS (s.takeWhile isWS) := by
  intro c hc
  exact List.mem_takeWhile_imp hc

theorem takeWS_split (s : List Char) : s = s.takeWhile isWS ++ s.dropWhile isWS :=
  (List.takeWhile_append_dropWhile isWS s).symm

theorem takeWS_app (w t : List Char) (hw : AllWS w)
    (ht : ∀ c, t.head? = some c → isWS c = false) :
    (w ++ t).takeWhile isWS = w ∧ (w ++ t).dropWhile isWS = t :=
  takeWhile_app isWS w t hw ht

theorem skipWS_eq_dropWhile (s : List Char) : skipWS s = s.dropWhile isWS := by
  induction s with
  | nil => simp [skipWS]
  | cons c cs ih =>
    simp only [skipWS, List.dropWhile_cons]
    split
    · rename_i h
      simp [h, ih]
    · rename_i h
      simp only [Bool.not_eq_true] at h
      simp [h]

theorem skipWS_app (w t : List Char) (hw : AllWS w) : skipWS (w ++ t) = skipWS t := by
  induction w with
  | nil => simp
  | cons c cs ih =>
    simp only [List.cons_append, skipWS, hw c (by simp)]
    exact ih (fun d hd => hw d (by simp [hd]))


theorem parseStrBody_sound (s : List Char) :
    ∀ b r, parseStrBody s = some (b, r) → s = b ++ '"' :: r ∧ SBody b := by
  induction s using parseStrBody.induct <;> intro b r h <;>
      rw [parseStrBody.eq_def] at h
  case case1 => simp at h
  case case2 cs =>
    simp only [reduceIte, Option.some.injEq, Prod.mk.injEq] at h
    rcases h with ⟨rfl, rfl⟩
    exact ⟨rfl, .nil⟩
  case case3 => simp at h
  case case4 h1 h2 h3 h4 cs3 hhex b2 r2 heq hq ih =>
    simp only [hhex, heq, reduceCtorEq, reduceIte, Option.some.injEq, Prod.mk.injEq] at h
    rcases h with ⟨rfl, rfl⟩
    rcases ih b2 r2 heq with ⟨hs, hb⟩
    refine ⟨by rw [hs]; simp, ?_⟩
    simp only [Bool.and_eq_true] at hhex
    exact .escU h1 h2 h3 h4 b2 hhex.1.1.1 hhex.1.1.2 hhex.1.2 hhex.2 hb
  case case5 => simp_all
  case case6 => simp_all
  case case7 cs hshort hq =>
    rcases cs with _ | ⟨a1, _ | ⟨a2, _ | ⟨a3, _ | ⟨a4, t⟩⟩⟩⟩
    · simp at h
    · simp at h
    · simp at h
    · simp at h
    · exact absurd rfl (hshort a1 a2 a3 a4 t)
  case case8 e cs2 hu hesc b2 r2 heq hq ih =>
    simp only [hu, hesc, heq, reduceCtorEq, reduceIte, Option.some.injEq, Prod.mk.injEq] at h
    rcases h with ⟨rfl, rfl⟩
    rcases ih b2 r2 heq with ⟨hs, hb⟩
    exact ⟨by rw [hs]; simp, .esc e b2 hu hesc hb⟩
  case case9 => simp_all
  case case10 => simp_all
  case case11 => simp_all
  case case12 c cs hq hbs hctrl b2 r2 heq ih =>
    simp only [hq, hbs, hctrl, heq, reduceCtorEq, reduceIte, Option.some.injEq,
      Prod.mk.injEq] at h
    rcases h with ⟨rfl, rfl⟩
    rcases ih b2 r2 heq with ⟨hs, hb⟩
    exact ⟨by rw [hs]; simp, .plain c b2 hq hbs (by omega) hb⟩
  case case13 => simp_all

theorem parseStrBody_complete {b : List Char} (hb : SBody b) :
    ∀ t, parseStrBody (b ++ '"' :: t) = some (b, t) := by
  induction hb with
  | nil =>
    intro t
    rw [parseStrBody.eq_def]
    simp
  | plain c b2 hq hbs hctrl hb2 ih =>
    intro t
    rw [parseStrBody.eq_def]
    simp only [List.cons_append, hq, hbs, ih t, reduceIte, reduceCtorEq]
    simp only [if_neg (by omega : ¬c.toNat < 32)]
  | esc e b2 hu hesc hb2 ih =>
    intro t
    rw [parseStrBody.eq_def]
    simp [hu, hesc, ih t]
  | escU h1 h2 h3 h4 b2 x1 x2 x3 x4 hb2 ih =>
    intro t
    rw [parseStrBody.eq_def]
    simp [x1, x2, x3, x4, ih t]

theorem parseIntPart_sound (s ip r : List Char) (h : parseIntPart s = some (ip, r)) :
    s = ip ++ r ∧ IntShape ip := by
  match s with
  | [] => simp [parseIntPart] at h
  | c :: cs =>
    rw [parseIntPart.eq_def] at h
    by_cases h0 : c = '0'
    · subst h0
      simp only [reduceIte, Option.some.injEq, Prod.mk.injEq] at h
      rcases h with ⟨rfl, rfl⟩
      exact ⟨rfl, Or.inl rfl⟩
    · simp only [h0, reduceIte] at h
      split at h
      · rename_i hd
        simp only [Option.some.injEq, Prod.mk.injEq] at h
        rcases h with ⟨rfl, rfl⟩
        constructor
        · have := (List.takeWhile_append_dropWhile Char.isDigit cs)
          simp [this]
        · exact Or.inr ⟨c, _, rfl, hd, h0, fun d hd2 => List.mem_takeWhile_imp hd2⟩
      · simp at h

theorem parseIntPart_replay (ip : List Char) (hip : IntShape ip) (t : List Char)
    (ht : NoDigitHead t) : parseIntPart (ip ++ t) = some (ip, t) := by
  rcases hip with rfl | ⟨d, ds, rfl, hd, h0, hds⟩
  · rw [parseIntPart.eq_def]
    simp
  · rw [parseIntPart.eq_def]
    simp only [List.cons_append, h0, hd, reduceIte]
    have := takeWhile_app Char.isDigit ds t hds (fun c hc => ht c hc)
    simp [this.1, this.2]

theorem parseFracPart_sound (s fp r : List Char) (h : parseFracPart s = some (fp, r)) :
    s = fp ++ r ∧ FracShape fp := by
  match s with
  | [] =>
    simp only [parseFracPart, Option.some.injEq, Prod.mk.injEq] at h
    rcases h with ⟨rfl, rfl⟩
    exact ⟨rfl, Or.inl rfl⟩
  | '.' :: cs =>
    rw [parseFracPart.eq_def] at h
    simp only at h
    cases hds : cs.takeWhile Char.isDigit with
    | nil =>
      rw [hds] at h
      simp at h
    | cons d ds =>
      rw [hds] at h
      simp only [Option.some.injEq, Prod.mk.injEq, reduceCtorEq] at h
      rcases h with ⟨rfl, rfl⟩
      constructor
      · have h2 := List.takeWhile_append_dropWhile Char.isDigit cs
        rw [hds] at h2
        simp [h2]
      · refine Or.inr ⟨d :: ds, rfl, by simp, ?_⟩
        intro c hc
        rw [← hds] at hc
        exact List.mem_takeWhile_imp hc
  | c :: cs =>
    by_cases hdot : c = '.'
    · subst hdot
      rw [parseFracPart.eq_def] at h
      simp only at h
      cases hds : cs.takeWhile Char.isDigit with
      | nil =>
        rw [hds] at h
        simp at h
      | cons d ds =>
        rw [hds] at h
        simp only [Option.some.injEq, Prod.mk.injEq, reduceCtorEq] at h
        rcases h with ⟨rfl, rfl⟩
        constructor
        · have h2 := List.takeWhile_append_dropWhile Char.isDigit cs
          rw [hds] at h2
          simp [h2]
        · refine Or.inr ⟨d :: ds, rfl, by simp, ?_⟩
          intro c hc
          rw [← hds] at hc
          exact List.mem_takeWhile_imp hc
    · rw [parseFracPart.eq_def] at h
      split at h
      · rename_i cs2 heq
        injection heq with h1 h2
        exact absurd h1 hdot
      · simp only [Option.some.injEq, Prod.mk.injEq] at h
        rcases h with ⟨rfl, rfl⟩
        exact ⟨rfl, Or.inl rfl⟩

theorem head?_app_ne_nil (a b : List Char) (ha : a ≠ []) : (a ++ b).head? = a.head? := by
  cases a with
  | nil => simp at ha
  | cons c cs => simp

theorem noDigitHead_of_noNumExt (t : List Char) (h : NoNumExtHead t) : NoDigitHead t := by
  intro c hc
  have := h c hc
  simp only [numExtChar, Bool.or_eq_false_iff] at this
  exact this.1.1.1.1.1

theorem parseFracPart_replay (fp : List Char) (hfp : FracShape fp) (t : List Char)
    (ht1 : ∀ c, t.head? = some c → c ≠ '.') (ht2 : NoDigitHead t) :
    parseFracPart (fp ++ t) = some (fp, t) := by
  rcases hfp with rfl | ⟨ds, rfl, hne, hds⟩
  · simp only [List.nil_append]
    match t with
    | [] => rfl
    | c :: cs =>
      rw [parseFracPart.eq_def]
      split
      · rename_i cs2 heq
        injection heq with h1 h2
        exact absurd h1 (ht1 c (by simp))
      · rfl
  · rw [List.cons_append, parseFracPart.eq_def]
    simp only
    have happ := takeWhile_app Char.isDigit ds t hds ht2
    rw [happ.1, happ.2]
    match ds, hne with
    | d :: ds2, _ => simp

theorem parseExpPart_sound (s ep r : List Char) (h : parseExpPart s = some (ep, r)) :
    s = ep ++ r ∧ ExpShape ep := by
  match s with
  | [] =>
    simp only [parseExpPart, Option.some.injEq, Prod.mk.injEq] at h
    rcases h with ⟨rfl, rfl⟩
    exact ⟨rfl, Or.inl rfl⟩
  | c :: cs =>
    rw [parseExpPart.eq_def] at h
    by_cases he : c = 'e' || c = 'E'
    · simp only [he, reduceIte] at h
      match cs with
      | [] => simp at h
      | s2 :: cs2 =>
        by_cases hs : s2 = '+' || s2 = '-'
        · simp only [hs, reduceIte] at h
          cases hds : cs2.takeWhile Char.isDigit with
          | nil =>
            rw [hds] at h
            simp at h
          | cons d ds =>
            rw [hds] at h
            simp only [Option.some.injEq, Prod.mk.injEq, reduceCtorEq] at h
            rcases h with ⟨rfl, rfl⟩
            have h2 := List.takeWhile_append_dropWhile Char.isDigit cs2
            rw [hds] at h2
            constructor
            · simp [h2]
            · refine Or.inr ⟨c, [s2], d :: ds, by simp, ?_, ?_, by simp, ?_⟩
              · simpa using he
              · rcases (by simpa using hs : s2 = '+' ∨ s2 = '-') with rfl | rfl
                · simp
                · simp
              · intro x hx
                rw [← hds] at hx
                exact List.mem_takeWhile_imp hx
        · simp only [hs, reduceIte] at h
          cases hds : (s2 :: cs2).takeWhile Char.isDigit with
          | nil =>
            rw [hds] at h
            simp at h
          | cons d ds =>
            rw [hds] at h
            simp only [Option.some.injEq, Prod.mk.injEq, reduceCtorEq] at h
            rcases h with ⟨rfl, rfl⟩
            have h2 := List.takeWhile_append_dropWhile Char.isDigit (s2 :: cs2)
            rw [hds] at h2
            constructor
            · simp [h2]
            · refine Or.inr ⟨c, [], d :: ds, by simp, by simpa using he, by simp, by simp, ?_⟩
              intro x hx
              rw [← hds] at hx
              exact List.mem_takeWhile_imp hx
    · simp only [he, reduceIte, Option.some.injEq, Prod.mk.injEq] at h
      rcases h with ⟨rfl, rfl⟩
      exact ⟨rfl, Or.inl rfl⟩

theorem parseExpPart_replay (ep : List Char) (hep : ExpShape ep) (t : List Char)
    (ht1 : ∀ c, t.head? = some c → (c = 'e' || c = 'E') = false) (ht2 : NoDigitHead t) :
    parseExpPart (ep ++ t) = some (ep, t) := by
  rcases hep with rfl | ⟨e, sg, ds, rfl, he, hsg, hne, hds⟩
  · simp only [List.nil_append]
    match t with
    | [] => rfl
    | c :: cs =>
      rw [parseExpPart.eq_def]
      simp [ht1 c (by simp)]
  · have heb : (e = 'e' || e = 'E') = true := by
      rcases he with rfl | rfl <;> simp
    rcases hsg with rfl | rfl | rfl
    · simp only [List.nil_append, List.cons_append, parseExpPart.eq_def, heb, reduceIte]
      match ds, hne with
      | d :: ds2, _ =>
        have hd : d.isDigit = true := hds d (by simp)
        have hnotsign : (d = '+' || d = '-') = false := by
          simp only [Bool.or_eq_false_iff, decide_eq_false_iff_not]
          constructor
          · intro hc
            subst hc
            simp [Char.isDigit] at hd
          · intro hc
            subst hc
            simp [Char.isDigit] at hd
        simp only [List.cons_append, hnotsign, reduceIte]
        have happ := takeWhile_app Char.isDigit (d :: ds2) t hds ht2
        simp only [List.cons_append] at happ
        rw [happ.1, happ.2]
        simp
    · match ds, hne with
      | d :: ds2, _ =>
        rw [parseExpPart.eq_def]
        have happ := takeWhile_app Char.isDigit (d :: ds2) t hds ht2
        simp only [List.cons_append, List.singleton_append, List.nil_append] at happ ⊢
        simp [heb, happ.1, happ.2]
    · match ds, hne with
      | d :: ds2, _ =>
        rw [parseExpPart.eq_def]
        have happ := takeWhile_app Char.isDigit (d :: ds2) t hds ht2
        simp only [List.cons_append, List.singleton_append, List.nil_append] at happ ⊢
        simp [heb, happ.1, happ.2]

theorem ne_of_isDigit (c d : Char) (h : c.isDigit = true) (hd : d.isDigit = false) :
    c ≠ d := by
  intro he
  subst he
  rw [h] at hd
  cases hd

theorem parseNum_sound (s l r : List Char) (h : parseNum s = some (l, r)) :
    s = l ++ r ∧ NumShape l := by
  rw [parseNum.eq_def] at h
  split at h
  · rename_i cs
    cases hip : parseIntPart cs with
    | none => rw [hip] at h; simp only [] at h; simp at h
    | some pr1 =>
      match pr1 with
      | (ip, r1) =>
        rw [hip] at h
        dsimp only at h
        cases hfp : parseFracPart r1 with
        | none => rw [hfp] at h; dsimp only at h; simp at h
        | some pr2 =>
          match pr2 with
          | (fp, r2) =>
            rw [hfp] at h
            dsimp only at h
            cases hep : parseExpPart r2 with
            | none => rw [hep] at h; dsimp only at h; simp at h
            | some pr3 =>
              match pr3 with
              | (ep, r3) =>
                rw [hep] at h
                dsimp only at h
                simp only [Option.some.injEq, Prod.mk.injEq] at h
                rcases h with ⟨rfl, rfl⟩
                obtain ⟨hs1, hI⟩ := parseIntPart_sound cs ip r1 hip
                obtain ⟨hs2, hF⟩ := parseFracPart_sound r1 fp r2 hfp
                obtain ⟨hs3, hE⟩ := parseExpPart_sound r2 ep r3 hep
                subst hs1 hs2 hs3
                refine ⟨by simp, ['-'], ip, fp, ep, by simp, Or.inr rfl, hI, hF, hE⟩
  · cases hip : parseIntPart s with
    | none => rw [hip] at h; simp only [] at h; simp at h
    | some pr1 =>
      match pr1 with
      | (ip, r1) =>
        rw [hip] at h
        dsimp only at h
        cases hfp : parseFracPart r1 with
        | none => rw [hfp] at h; dsimp only at h; simp at h
        | some pr2 =>
          match pr2 with
          | (fp, r2) =>
            rw [hfp] at h
            dsimp only at h
            cases hep : parseExpPart r2 with
            | none => rw [hep] at h; dsimp only at h; simp at h
            | some pr3 =>
              match pr3 with
              | (ep, r3) =>
                rw [hep] at h
                dsimp only at h
                simp only [Option.some.injEq, Prod.mk.injEq] at h
                rcases h with ⟨rfl, rfl⟩
                obtain ⟨hs1, hI⟩ := parseIntPart_sound s ip r1 hip
                obtain ⟨hs2, hF⟩ := parseFracPart_sound r1 fp r2 hfp
                obtain ⟨hs3, hE⟩ := parseExpPart_sound r2 ep r3 hep
                subst hs2 hs3
                refine ⟨by simp [hs1], [], ip, fp, ep, by simp, Or.inl rfl, hI, hF, hE⟩

theorem intShape_head (ip : List Char) (h : IntShape ip) :
    ∃ d ds, ip = d :: ds ∧ d.isDigit = true := by
  rcases h with rfl | ⟨d, ds, rfl, hd, _, _⟩
  · exact ⟨'0', [], rfl, by decide⟩
  · exact ⟨d, ds, rfl, hd⟩

theorem parseNum_replay (l : List Char) (hl : NumShape l) (t : List Char)
    (ht : NoNumExtHead t) : parseNum (l ++ t) = some (l, t) := by
  rcases hl with ⟨sign, ip, fp, ep, rfl, hsign, hI, hF, hE⟩
  have hD : NoDigitHead t := noDigitHead_of_noNumExt t ht
  -- head conditions after the exponent
  have htE : ∀ c, t.head? = some c → (c = 'e' || c = 'E') = false := by
    intro c hc
    have := ht c hc
    simp only [numExtChar, Bool.or_eq_false_iff] at this
    simp only [Bool.or_eq_false_iff]
    exact ⟨this.1.1.1.2, this.1.1.2⟩
  have hexp : parseExpPart (ep ++ t) = some (ep, t) := parseExpPart_replay ep hE t htE hD
  -- head conditions after the fraction
  have hfr1 : ∀ c, (ep ++ t).head? = some c → c ≠ '.' := by
    intro c hc
    rcases hE with rfl | ⟨e, sg, ds, rfl, he, _, _, _⟩
    · simp only [List.nil_append] at hc
      have := ht c hc
      simp only [numExtChar, Bool.or_eq_false_iff] at this
      simp only [decide_eq_false_iff_not] at this
      exact this.1.1.1.1.2
    · simp only [List.cons_append, List.head?_cons, Option.some.injEq] at hc
      subst hc
      rcases he with rfl | rfl <;> decide
  have hfr2 : NoDigitHead (ep ++ t) := by
    intro c hc
    rcases hE with rfl | ⟨e, sg, ds, rfl, he, _, _, _⟩
    · simp only [List.nil_append] at hc
      exact hD c hc
    · simp only [List.cons_append, List.head?_cons, Option.some.injEq] at hc
      subst hc
      rcases he with rfl | rfl <;> decide
  have hfrac : parseFracPart (fp ++ (ep ++ t)) = some (fp, ep ++ t) :=
    parseFracPart_replay fp hF (ep ++ t) hfr1 hfr2
  -- head condition after the integer part
  have hint1 : NoDigitHead (fp ++ (ep ++ t)) := by
    intro c hc
    rcases hF with rfl | ⟨ds, rfl, _, _⟩
    · simp only [List.nil_append] at hc
      exact hfr2 c hc
    · simp only [List.cons_append, List.head?_cons, Option.some.injEq] at hc
      subst hc
      decide
  have hint : parseIntPart (ip ++ (fp ++ (ep ++ t))) = some (ip, fp ++ (ep ++ t)) :=
    parseIntPart_replay ip hI (fp ++ (ep ++ t)) hint1
  rcases hsign with rfl | rfl
  · simp only [List.nil_append, List.append_assoc]
    rw [parseNum.eq_def]
    obtain ⟨d, ds, hip, hd⟩ := intShape_head ip hI
    split
    · rename_i cs heq
      rw [hip] at heq
      simp only [List.cons_append] at heq
      injection heq with h1 h2
      exact absurd h1 (ne_of_isDigit d '-' hd (by decide))
    · rw [hint]
      dsimp only
      rw [hfrac]
      dsimp only
      rw [hexp]
      simp
  · simp only [List.cons_append, List.nil_append, List.append_assoc]
    rw [parseNum.eq_def]
    simp only
    rw [hint]
    dsimp only
    rw [hfrac]
    dsimp only
    rw [hexp]
    simp

theorem intShape_chars (ip : List Char) (h : IntShape ip) :
    ip ≠ [] ∧ ∀ c ∈ ip, numExtChar c = true := by
  rcases h with rfl | ⟨d, ds, rfl, hd, _, hds⟩
  · exact ⟨by simp, by intro c hc; simp at hc; subst hc; decide⟩
  · refine ⟨by simp, ?_⟩
    intro c hc
    rcases List.mem_cons.mp hc with rfl | hc2
    · simp [numExtChar, hd]
    · simp [numExtChar, hds c hc2]

theorem numShape_chars (l : List Char) (h : NumShape l) :
    l ≠ [] ∧ ∀ c ∈ l, numExtChar c = true := by
  rcases h with ⟨sign, ip, fp, ep, rfl, hsign, hI, hF, hE⟩
  obtain ⟨hne, hchars⟩ := intShape_chars ip hI
  constructor
  · rcases hsign with rfl | rfl <;> simp [hne]
  · intro c hc
    simp only [List.append_assoc, List.mem_append] at hc
    rcases hc with hc | hc | hc | hc
    · rcases hsign with rfl | rfl
      · simp at hc
      · simp at hc
        subst hc
        decide
    · exact hchars c hc
    · rcases hF with rfl | ⟨ds, rfl, _, hds⟩
      · simp at hc
      · rcases List.mem_cons.mp hc with rfl | hc2
        · decide
        · simp [numExtChar, hds c hc2]
    · rcases hE with rfl | ⟨e, sg, ds, rfl, he, hsg, _, hds⟩
      · simp at hc
      · rcases List.mem_cons.mp hc with rfl | hc2
        · rcases he with rfl | rfl <;> decide
        · rcases List.mem_append.mp hc2 with hc3 | hc3
          · rcases hsg with rfl | rfl | rfl
            · simp at hc3
            · simp at hc3; subst hc3; decide
            · simp at hc3; subst hc3; decide
          · simp [numExtChar, hds c hc3]

theorem numExt_plain (c : Char) (h : numExtChar c = true) :
    isWS c = false ∧ c ≠ '"' ∧ c ≠ '\\' := by
  simp only [numExtChar, Bool.or_eq_true, decide_eq_true_eq] at h
  rcases h with ⟨⟨⟨⟨h | h⟩ | h⟩ | h⟩ | h⟩ | h
  · refine ⟨?_, ne_of_isDigit c '"' h (by decide), ne_of_isDigit c '\\' h (by decide)⟩
    simp only [isWS, Bool.or_eq_false_iff, decide_eq_false_iff_not]
    exact ⟨⟨⟨ne_of_isDigit c ' ' h (by decide), ne_of_isDigit c '\t' h (by decide)⟩,
      ne_of_isDigit c '\n' h (by decide)⟩, ne_of_isDigit c '\r' h (by decide)⟩
  all_goals subst h
  all_goals exact ⟨by decide, by decide, by decide⟩


theorem takeWS_parts (s w r : List Char) (h : takeWS s = (w, r)) : s = w ++ r ∧ AllWS w := by
  rw [takeWS_eq] at h
  injection h with h1 h2
  subst h1 h2
  exact ⟨(List.takeWhile_append_dropWhile isWS s).symm, takeWS_allWS s⟩

theorem parse_sound : ∀ fuel : Nat,
    (∀ s v sp rest, parseVal fuel s = some (v, sp, rest) → s = sp ++ rest ∧ WSRender v sp) ∧
    (∀ s xs sp rest, parseElems fuel s = some (xs, sp, rest) →
      s = sp ++ rest ∧ WSElems xs sp) ∧
    (∀ s ms sp rest, parseMembers fuel s = some (ms, sp, rest) →
      s = sp ++ rest ∧ WSMembers ms sp) := by
  intro fuel
  induction fuel with
  | zero =>
    refine ⟨?_, ?_, ?_⟩ <;> intro s a sp rest h
    · rw [parseVal.eq_def] at h
      simp at h
    · rw [parseElems.eq_def] at h
      simp at h
    · rw [parseMembers.eq_def] at h
      simp at h
  | succ fuel ih =>
    obtain ⟨ihV, ihE, ihM⟩ := ih
    refine ⟨?_, ?_, ?_⟩
    · -- parseVal
      intro s v sp rest h
      match s with
      | [] => rw [parseVal.eq_def] at h; simp at h
      | c :: cs =>
        rw [parseVal.eq_def] at h
        dsimp only at h
        by_cases hn : c = 'n'
        · subst hn
          simp only [reduceIte] at h
          split at h
          · rename_i htake
            simp only [Option.some.injEq, Prod.mk.injEq] at h
            obtain ⟨rfl, rfl, rfl⟩ := h
            have hcs : cs = ['u', 'l', 'l'] ++ cs.drop 3 := by
              conv_lhs => rw [← List.take_append_drop 3 cs]
              rw [htake]
            exact ⟨by rw [hcs]; rfl, .null⟩
          · simp at h
        · simp only [hn, reduceIte] at h
          by_cases ht : c = 't'
          · subst ht
            simp only [reduceIte] at h
            split at h
            · rename_i htake
              simp only [Option.some.injEq, Prod.mk.injEq] at h
              obtain ⟨rfl, rfl, rfl⟩ := h
              have hcs : cs = ['r', 'u', 'e'] ++ cs.drop 3 := by
                conv_lhs => rw [← List.take_append_drop 3 cs]
                rw [htake]
              exact ⟨by rw [hcs]; rfl, .tru⟩
            · simp at h
          · simp only [ht, reduceIte] at h
            by_cases hf : c = 'f'
            · subst hf
              simp only [reduceIte] at h
              split at h
              · rename_i htake
                simp only [Option.some.injEq, Prod.mk.injEq] at h
                obtain ⟨rfl, rfl, rfl⟩ := h
                have hcs : cs = ['a', 'l', 's', 'e'] ++ cs.drop 4 := by
                  conv_lhs => rw [← List.take_append_drop 4 cs]
                  rw [htake]
                exact ⟨by rw [hcs]; rfl, .fls⟩
              · simp at h
            · simp only [hf, reduceIte] at h
              by_cases hq : c = '"'
              · subst hq
                simp only [reduceIte] at h
                cases hsb : parseStrBody cs with
                | none => rw [hsb] at h; simp at h
                | some br =>
                  match br with
                  | (b, r) =>
                    rw [hsb] at h
                    dsimp only at h
                    simp only [Option.some.injEq, Prod.mk.injEq] at h
                    obtain ⟨rfl, rfl, rfl⟩ := h
                    obtain ⟨hs, hb⟩ := parseStrBody_sound cs b r hsb
                    subst hs
                    exact ⟨by simp, .str b hb⟩
              · simp only [hq, reduceIte] at h
                by_cases hbr : c = '['
                · subst hbr
                  simp only [reduceIte] at h
                  rcases hw : takeWS cs with ⟨w, r1⟩
                  rw [hw] at h
                  dsimp only at h
                  obtain ⟨hcs, hws⟩ := takeWS_parts cs w r1 hw
                  split at h
                  · simp only [Option.some.injEq, Prod.mk.injEq] at h
                    obtain ⟨rfl, rfl, rfl⟩ := h
                    exact ⟨by simp [hcs], .arrNil w hws⟩
                  · cases he : parseElems fuel r1 with
                    | none => rw [he] at h; simp at h
                    | some xsr =>
                      match xsr with
                      | (xs, sp2, rest2) =>
                        rw [he] at h
                        dsimp only at h
                        simp only [Option.some.injEq, Prod.mk.injEq] at h
                        obtain ⟨rfl, rfl, rfl⟩ := h
                        obtain ⟨hr1, hxs⟩ := ihE r1 xs sp2 rest2 he
                        subst hr1 hcs
                        exact ⟨by simp, .arr w sp2 xs hws hxs⟩
                · simp only [hbr, reduceIte] at h
                  by_cases hbc : c = '{'
                  · subst hbc
                    simp only [reduceIte] at h
                    rcases hw : takeWS cs with ⟨w, r1⟩
                    rw [hw] at h
                    dsimp only at h
                    obtain ⟨hcs, hws⟩ := takeWS_parts cs w r1 hw
                    split at h
                    · simp only [Option.some.injEq, Prod.mk.injEq] at h
                      obtain ⟨rfl, rfl, rfl⟩ := h
                      exact ⟨by simp [hcs], .objNil w hws⟩
                    · cases he : parseMembers fuel r1 with
                      | none => rw [he] at h; simp at h
                      | some msr =>
                        match msr with
                        | (ms, sp2, rest2) =>
                          rw [he] at h
                          dsimp only at h
                          simp only [Option.some.injEq, Prod.mk.injEq] at h
                          obtain ⟨rfl, rfl, rfl⟩ := h
                          obtain ⟨hr1, hms⟩ := ihM r1 ms sp2 rest2 he
                          subst hr1 hcs
                          exact ⟨by simp, .obj w sp2 ms hws hms⟩
                  · simp only [hbc, reduceIte] at h
                    cases hnum : parseNum (c :: cs) with
                    | none => rw [hnum] at h; simp at h
                    | some lr =>
                      match lr with
                      | (l, r) =>
                        rw [hnum] at h
                        dsimp only at h
                        simp only [Option.some.injEq, Prod.mk.injEq] at h
                        obtain ⟨rfl, rfl, rfl⟩ := h
                        obtain ⟨hs, hshape⟩ := parseNum_sound (c :: cs) l r hnum
                        refine ⟨hs, .num l ?_⟩
                        have := parseNum_replay l hshape [] (by intro x hx; simp at hx)
                        simpa using this
    · -- parseElems
      intro s xs sp rest h
      rw [parseElems.eq_def] at h
      dsimp only at h
      cases hv : parseVal fuel s with
      | none => rw [hv] at h; simp at h
      | some vsr =>
        match vsr with
        | (v, sp1, r) =>
          rw [hv] at h
          dsimp only at h
          obtain ⟨hs1, hv1⟩ := ihV s v sp1 r hv
          subst hs1
          rcases hw : takeWS r with ⟨w, r1⟩
          rw [hw] at h
          dsimp only at h
          obtain ⟨hr, hws⟩ := takeWS_parts r w r1 hw
          subst hr
          split at h
          · simp only [Option.some.injEq, Prod.mk.injEq] at h
            obtain ⟨rfl, rfl, rfl⟩ := h
            exact ⟨by simp, .last v sp1 w hv1 hws⟩
          · rename_i tail
            rcases hw2 : takeWS tail with ⟨w2, r3⟩
            rw [hw2] at h
            dsimp only at h
            obtain ⟨htail, hws2⟩ := takeWS_parts tail w2 r3 hw2
            subst htail
            cases he : parseElems fuel r3 with
            | none => rw [he] at h; simp at h
            | some xsr =>
              match xsr with
              | (xs2, sp2, rest2) =>
                rw [he] at h
                dsimp only at h
                simp only [Option.some.injEq, Prod.mk.injEq] at h
                obtain ⟨rfl, rfl, rfl⟩ := h
                obtain ⟨hr3, hxs⟩ := ihE r3 xs2 sp2 rest2 he
                subst hr3
                exact ⟨by simp, .cons v sp1 w w2 xs2 sp2 hv1 hws hws2 hxs⟩
          · simp at h
    · -- parseMembers
      intro s ms sp rest h
      rw [parseMembers.eq_def] at h
      dsimp only at h
      split at h
      · rename_i r0
        cases hsb : parseStrBody r0 with
        | none => rw [hsb] at h; simp at h
        | some kr =>
          match kr with
          | (k, r1) =>
            rw [hsb] at h
            dsimp only at h
            obtain ⟨hr0, hk⟩ := parseStrBody_sound r0 k r1 hsb
            subst hr0
            rcases hw1 : takeWS r1 with ⟨w1, r2⟩
            rw [hw1] at h
            dsimp only at h
            obtain ⟨hr1, hws1⟩ := takeWS_parts r1 w1 r2 hw1
            subst hr1
            split at h
            · rename_i r3
              rcases hw2 : takeWS r3 with ⟨w2, r4⟩
              rw [hw2] at h
              dsimp only at h
              obtain ⟨hr3, hws2⟩ := takeWS_parts r3 w2 r4 hw2
              subst hr3
              cases hv : parseVal fuel r4 with
              | none => rw [hv] at h; simp at h
              | some vsr =>
                match vsr with
                | (v, sp1, r5) =>
                  rw [hv] at h
                  dsimp only at h
                  obtain ⟨hr4, hv1⟩ := ihV r4 v sp1 r5 hv
                  subst hr4
                  rcases hw3 : takeWS r5 with ⟨w3, r6⟩
                  rw [hw3] at h
                  dsimp only at h
                  obtain ⟨hr5, hws3⟩ := takeWS_parts r5 w3 r6 hw3
                  subst hr5
                  split at h
                  · simp only [Option.some.injEq, Prod.mk.injEq] at h
                    obtain ⟨rfl, rfl, rfl⟩ := h
                    exact ⟨by simp, .last k w1 w2 v sp1 w3 hk hws1 hws2 hv1 hws3⟩
                  · rename_i tail
                    rcases hw4 : takeWS tail with ⟨w4, r8⟩
                    rw [hw4] at h
                    dsimp only at h
                    obtain ⟨htail, hws4⟩ := takeWS_parts tail w4 r8 hw4
                    subst htail
                    cases hm : parseMembers fuel r8 with
                    | none => rw [hm] at h; simp at h
                    | some msr =>
                      match msr with
                      | (ms2, sp2, rest2) =>
                        rw [hm] at h
                        dsimp only at h
                        simp only [Option.some.injEq, Prod.mk.injEq] at h
                        obtain ⟨rfl, rfl, rfl⟩ := h
                        obtain ⟨hr8, hms⟩ := ihM r8 ms2 sp2 rest2 hm
                        subst hr8
                        exact ⟨by simp,
                          .cons k w1 w2 v sp1 w3 w4 ms2 sp2 hk hws1 hws2 hv1 hws3 hws4 hms⟩
                  · simp at h
            · simp at h
      · simp at h

theorem isWS_not_numExt (c : Char) (h : isWS c = true) : numExtChar c = false := by
  simp only [isWS, Bool.or_eq_true, decide_eq_true_eq] at h
  rcases h with ⟨⟨rfl | rfl⟩ | rfl⟩ | rfl <;> decide

theorem numShape_head (l : List Char) (h : NumShape l) :
    ∃ c cs, l = c :: cs ∧ isWS c = false ∧ c ≠ 'n' ∧ c ≠ 't' ∧ c ≠ 'f' ∧ c ≠ '"' ∧
      c ≠ '[' ∧ c ≠ '{' ∧ c ≠ ']' ∧ c ≠ '}' ∧ c ≠ ',' := by
  rcases h with ⟨sign, ip, fp, ep, rfl, hsign, hI, hF, hE⟩
  rcases hsign with rfl | rfl
  · obtain ⟨d, ds, rfl, hd⟩ := intShape_head ip hI
    refine ⟨d, ds ++ fp ++ ep, by simp, ?_⟩
    have h2 := numExt_plain d (by simp [numExtChar, hd])
    exact ⟨h2.1, ne_of_isDigit d 'n' hd (by decide), ne_of_isDigit d 't' hd (by decide),
      ne_of_isDigit d 'f' hd (by decide), h2.2.1, ne_of_isDigit d '[' hd (by decide),
      ne_of_isDigit d '{' hd (by decide), ne_of_isDigit d ']' hd (by decide),
      ne_of_isDigit d '}' hd (by decide), ne_of_isDigit d ',' hd (by decide)⟩
  · exact ⟨'-', ip ++ fp ++ ep, by simp, by decide, by decide, by decide, by decide,
      by decide, by decide, by decide, by decide, by decide, by decide⟩

theorem wsrender_head (v : Jval) (u : List Char) (h : WSRender v u) :
    ∃ c cs, u = c :: cs ∧ isWS c = false ∧ c ≠ ']' ∧ c ≠ '}' ∧ c ≠ ',' := by
  cases h with
  | null => exact ⟨'n', _, rfl, by decide, by decide, by decide, by decide⟩
  | tru => exact ⟨'t', _, rfl, by decide, by decide, by decide, by decide⟩
  | fls => exact ⟨'f', _, rfl, by decide, by decide, by decide, by decide⟩
  | num lit hlit =>
    obtain ⟨-, hshape⟩ := parseNum_sound u u [] (by simpa using hlit)
    obtain ⟨c, cs, heq, hws, _, _, _, _, _, _, h1, h2, h3⟩ := numShape_head u hshape
    exact ⟨c, cs, heq, hws, h1, h2, h3⟩
  | str b hb => exact ⟨'"', _, rfl, by decide, by decide, by decide, by decide⟩
  | arrNil w hw => exact ⟨'[', _, rfl, by decide, by decide, by decide, by decide⟩
  | arr w u2 xs hw hu => exact ⟨'[', _, rfl, by decide, by decide, by decide, by decide⟩
  | objNil w hw => exact ⟨'{', _, rfl, by decide, by decide, by decide, by decide⟩
  | obj w u2 ms hw hm => exact ⟨'{', _, rfl, by decide, by decide, by decide, by decide⟩

theorem valStop_ws_cons (v : Jval) (w : List Char) (d : Char) (t : List Char)
    (hw : AllWS w) (hd : numExtChar d = false) : valStop v (w ++ d :: t) := by
  cases v <;> try trivial
  show valStop (.num _) (w ++ d :: t)
  cases w with
  | nil => exact hd
  | cons c cs =>
    show numExtChar c = false
    exact isWS_not_numExt c (hw c (by simp))

theorem takeWS_app2 (w : List Char) (d : Char) (t : List Char) (hw : AllWS w)
    (hd : isWS d = false) : takeWS (w ++ d :: t) = (w, d :: t) := by
  rw [takeWS_eq]
  have := takeWhile_app isWS w (d :: t) hw (by intro c hc; simp at hc; subst hc; exact hd)
  rw [this.1, this.2]

mutual
theorem parseVal_complete : ∀ (v : Jval) (u : List Char), WSRender v u → ∀ fuel t,
    u.length < fuel → valStop v t → parseVal fuel (u ++ t) = some (v, u, t)
  | _, _, .null => by
    intro fuel t hf hstop
    match fuel, hf with
    | f + 1, hf2 =>
      rw [parseVal.eq_def]
      simp
  | _, _, .tru => by
    intro fuel t hf hstop
    match fuel, hf with
    | f + 1, hf2 =>
      rw [parseVal.eq_def]
      simp
  | _, _, .fls => by
    intro fuel t hf hstop
    match fuel, hf with
    | f + 1, hf2 =>
      rw [parseVal.eq_def]
      simp
  | _, _, .num lit hlit => by
    intro fuel t hf hstop
    match fuel, hf with
    | f + 1, hf2 =>
      obtain ⟨-, hshape⟩ := parseNum_sound lit lit [] (by simpa using hlit)
      have hstop2 : NoNumExtHead t := by
        intro c hc
        cases t with
        | nil => simp at hc
        | cons d t2 =>
          simp only [List.head?_cons, Option.some.injEq] at hc
          subst hc
          exact hstop
      have hrep := parseNum_replay lit hshape t hstop2
      obtain ⟨c, cs, heq, hws, hn, ht, hfc, hq, hbr, hbc, _, _, _⟩ := numShape_head lit hshape
      rw [heq, List.cons_append, parseVal.eq_def]
      dsimp only
      rw [if_neg hn, if_neg ht, if_neg hfc, if_neg hq, if_neg hbr, if_neg hbc]
      rw [show c :: (cs ++ t) = lit ++ t from by simp [heq], hrep]
      simp [heq]
  | _, _, .str b hb => by
    intro fuel t hf hstop
    match fuel, hf with
    | f + 1, hf2 =>
      have : ('"' :: b ++ ['"']) ++ t = '"' :: (b ++ '"' :: t) := by simp
      rw [this, parseVal.eq_def]
      simp [parseStrBody_complete hb t]
  | _, _, .arrNil w hw => by
    intro fuel t hf hstop
    match fuel, hf with
    | f + 1, hf2 =>
      have : ('[' :: w ++ [']']) ++ t = '[' :: (w ++ ']' :: t) := by simp
      rw [this, parseVal.eq_def]
      simp [takeWS_app2 w ']' t hw (by decide)]
  | _, _, .arr w u2 xs hw hu => by
    intro fuel t hf hstop
    match fuel, hf with
    | f + 1, hf2 =>
      have heq : ('[' :: w ++ u2) ++ t = '[' :: (w ++ (u2 ++ t)) := by simp
      rw [heq, parseVal.eq_def]
      dsimp only
      rw [if_neg (by decide), if_neg (by decide), if_neg (by decide), if_neg (by decide),
        if_pos rfl]
      obtain ⟨c, cs, hcu, hcws, hc1, hc2, hc3⟩ := wselems_head xs u2 hu
      have htw : takeWS (w ++ (u2 ++ t)) = (w, u2 ++ t) := by
        rw [hcu, List.cons_append]
        exact takeWS_app2 w c (cs ++ t) hw hcws
      rw [htw]
      dsimp only
      have hlen : u2.length < f := by
        have : ('[' :: w ++ u2).length < f + 1 := hf2
        simp only [List.cons_append, List.length_cons, List.length_append] at this
        omega
      have hrec := parseElems_complete xs u2 hu f t hlen
      rw [hcu] at hrec ⊢
      split
      · rename_i r2 heq2
        rw [List.cons_append] at heq2
        injection heq2 with ha hb2
        exact absurd ha hc1
      · rw [hrec]
  | _, _, .objNil w hw => by
    intro fuel t hf hstop
    match fuel, hf with
    | f + 1, hf2 =>
      have : ('{' :: w ++ ['}']) ++ t = '{' :: (w ++ '}' :: t) := by simp
      rw [this, parseVal.eq_def]
      simp [takeWS_app2 w '}' t hw (by decide)]
  | _, _, .obj w u2 ms hw hm => by
    intro fuel t hf hstop
    match fuel, hf with
    | f + 1, hf2 =>
      have heq : ('{' :: w ++ u2) ++ t = '{' :: (w ++ (u2 ++ t)) := by simp
      rw [heq, parseVal.eq_def]
      dsimp only
      rw [if_neg (by decide), if_neg (by decide), if_neg (by decide), if_neg (by decide),
        if_neg (by decide), if_pos rfl]
      obtain ⟨cs, hcu⟩ := wsmembers_head ms u2 hm
      have htw : takeWS (w ++ (u2 ++ t)) = (w, u2 ++ t) := by
        rw [hcu, List.cons_append]
        exact takeWS_app2 w '"' (cs ++ t) hw (by decide)
      rw [htw]
      dsimp only
      have hlen : u2.length < f := by
        have : ('{' :: w ++ u2).length < f + 1 := hf2
        simp only [List.cons_append, List.length_cons, List.length_append] at this
        omega
      have hrec := parseMembers_complete ms u2 hm f t hlen
      rw [hcu] at hrec ⊢
      split
      · rename_i r2 heq2
        rw [List.cons_append] at heq2
        injection heq2 with ha hb2
        exact absurd ha (by decide)
      · rw [hrec]

theorem wselems_head : ∀ (xs : List Jval) (u : List Char), WSElems xs u →
    ∃ c cs, u = c :: cs ∧ isWS c = false ∧ c ≠ ']' ∧ c ≠ '}' ∧ c ≠ ','
  | _, _, .last x r w hx hw => by
    obtain ⟨c, cs, heq, h1, h2, h3, h4⟩ := wsrender_head x r hx
    exact ⟨c, cs ++ w ++ [']'], by simp [heq], h1, h2, h3, h4⟩
  | _, _, .cons x r w w2 xs u hx hw hw2 hu => by
    obtain ⟨c, cs, heq, h1, h2, h3, h4⟩ := wsrender_head x r hx
    exact ⟨c, cs ++ w ++ ',' :: w2 ++ u, by simp [heq], h1, h2, h3, h4⟩

theorem wsmembers_head : ∀ (ms : List (List Char × Jval)) (u : List Char), WSMembers ms u →
    ∃ cs, u = '"' :: cs
  | _, _, .last k w1 w2 v r w3 hk hw1 hw2 hv hw3 => ⟨_, rfl⟩
  | _, _, .cons k w1 w2 v r w3 w4 ms u hk hw1 hw2 hv hw3 hw4 hm => ⟨_, rfl⟩

theorem parseElems_complete : ∀ (xs : List Jval) (u : List Char), WSElems xs u → ∀ fuel t,
    u.length < fuel → parseElems fuel (u ++ t) = some (xs, u, t)
  | _, _, .last x r w hx hw => by
    intro fuel t hf
    match fuel, hf with
    | f + 1, hf2 =>
      have heq : (r ++ w ++ [']']) ++ t = r ++ (w ++ ']' :: t) := by simp
      rw [heq, parseElems.eq_def]
      dsimp only
      have hlen : r.length < f := by
        have : (r ++ w ++ [']']).length < f + 1 := hf2
        simp only [List.length_append, List.length_cons] at this
        omega
      rw [parseVal_complete x r hx f (w ++ ']' :: t) hlen
        (valStop_ws_cons x w ']' t hw (by decide))]
      dsimp only
      rw [takeWS_app2 w ']' t hw (by decide)]
      simp
  | _, _, .cons x r w w2 xs u hx hw hw2 hu => by
    intro fuel t hf
    match fuel, hf with
    | f + 1, hf2 =>
      have heq : (r ++ w ++ ',' :: w2 ++ u) ++ t = r ++ (w ++ ',' :: (w2 ++ (u ++ t))) := by
        simp
      rw [heq, parseElems.eq_def]
      dsimp only
      have hlen : r.length < f := by
        have : (r ++ w ++ ',' :: w2 ++ u).length < f + 1 := hf2
        simp only [List.length_append, List.length_cons] at this
        omega
      rw [parseVal_complete x r hx f (w ++ ',' :: (w2 ++ (u ++ t))) hlen
        (valStop_ws_cons x w ',' (w2 ++ (u ++ t)) hw (by decide))]
      dsimp only
      rw [takeWS_app2 w ',' (w2 ++ (u ++ t)) hw (by decide)]
      obtain ⟨c, cs, hcu, hcws, hc1, hc2, hc3⟩ := wselems_head xs u hu
      have htw : takeWS (w2 ++ (u ++ t)) = (w2, u ++ t) := by
        rw [hcu, List.cons_append]
        exact takeWS_app2 w2 c (cs ++ t) hw2 hcws
      have hlen2 : u.length < f := by
        have : (r ++ w ++ ',' :: w2 ++ u).length < f + 1 := hf2
        simp only [List.length_append, List.length_cons] at this
        omega
      have hrec := parseElems_complete xs u hu f t hlen2
      simp [htw, hrec]

theorem parseMembers_complete : ∀ (ms : List (List Char × Jval)) (u : List Char),
    WSMembers ms u → ∀ fuel t, u.length < fuel → parseMembers fuel (u ++ t) = some (ms, u, t)
  | _, _, .last k w1 w2 v r w3 hk hw1 hw2 hv hw3 => by
    intro fuel t hf
    match fuel, hf with
    | f + 1, hf2 =>
      have heq : ('"' :: k ++ '"' :: w1 ++ ':' :: w2 ++ r ++ w3 ++ ['}']) ++ t =
          '"' :: (k ++ '"' :: (w1 ++ ':' :: (w2 ++ (r ++ (w3 ++ '}' :: t))))) := by simp
      rw [heq, parseMembers.eq_def]
      dsimp only
      have hsb := parseStrBody_complete hk (w1 ++ ':' :: (w2 ++ (r ++ (w3 ++ '}' :: t))))
      have htw1 := takeWS_app2 w1 ':' (w2 ++ (r ++ (w3 ++ '}' :: t))) hw1 (by decide)
      obtain ⟨c, cs, hcu, hcws, hc1, hc2, hc3⟩ := wsrender_head v r hv
      have htw2 : takeWS (w2 ++ (r ++ (w3 ++ '}' :: t))) = (w2, r ++ (w3 ++ '}' :: t)) := by
        rw [hcu, List.cons_append]
        exact takeWS_app2 w2 c (cs ++ (w3 ++ '}' :: t)) hw2 hcws
      have hlen : r.length < f := by
        have : ('"' :: k ++ '"' :: w1 ++ ':' :: w2 ++ r ++ w3 ++ ['}']).length < f + 1 := hf2
        simp only [List.length_append, List.length_cons] at this
        omega
      have hval := parseVal_complete v r hv f (w3 ++ '}' :: t) hlen
        (valStop_ws_cons v w3 '}' t hw3 (by decide))
      have htw3 := takeWS_app2 w3 '}' t hw3 (by decide)
      simp [hsb, htw1, htw2, hval, htw3]
  | _, _, .cons k w1 w2 v r w3 w4 ms u hk hw1 hw2 hv hw3 hw4 hm => by
    intro fuel t hf
    match fuel, hf with
    | f + 1, hf2 =>
      have heq : ('"' :: k ++ '"' :: w1 ++ ':' :: w2 ++ r ++ w3 ++ ',' :: w4 ++ u) ++ t =
          '"' :: (k ++ '"' :: (w1 ++ ':' :: (w2 ++ (r ++ (w3 ++ ',' :: (w4 ++ (u ++ t))))))) := by
        simp
      rw [heq, parseMembers.eq_def]
      dsimp only
      have hsb := parseStrBody_complete hk
        (w1 ++ ':' :: (w2 ++ (r ++ (w3 ++ ',' :: (w4 ++ (u ++ t))))))
      have htw1 := takeWS_app2 w1 ':' (w2 ++ (r ++ (w3 ++ ',' :: (w4 ++ (u ++ t))))) hw1
        (by decide)
      obtain ⟨c, cs, hcu, hcws, hc1, hc2, hc3⟩ := wsrender_head v r hv
      have htw2 : takeWS (w2 ++ (r ++ (w3 ++ ',' :: (w4 ++ (u ++ t))))) =
          (w2, r ++ (w3 ++ ',' :: (w4 ++ (u ++ t)))) := by
        rw [hcu, List.cons_append]
        exact takeWS_app2 w2 c (cs ++ (w3 ++ ',' :: (w4 ++ (u ++ t)))) hw2 hcws
      have hlen : r.length < f := by
        have : ('"' :: k ++ '"' :: w1 ++ ':' :: w2 ++ r ++ w3 ++ ',' :: w4 ++ u).length <
            f + 1 := hf2
        simp only [List.length_append, List.length_cons] at this
        omega
      have hval := parseVal_complete v r hv f (w3 ++ ',' :: (w4 ++ (u ++ t))) hlen
        (valStop_ws_cons v w3 ',' (w4 ++ (u ++ t)) hw3 (by decide))
      have htw3 := takeWS_app2 w3 ',' (w4 ++ (u ++ t)) hw3 (by decide)
      obtain ⟨cs2, hcu2⟩ := wsmembers_head ms u hm
      have htw4 : takeWS (w4 ++ (u ++ t)) = (w4, u ++ t) := by
        rw [hcu2, List.cons_append]
        exact takeWS_app2 w4 '"' (cs2 ++ t) hw4 (by decide)
      have hlen2 : u.length < f := by
        have : ('"' :: k ++ '"' :: w1 ++ ':' :: w2 ++ r ++ w3 ++ ',' :: w4 ++ u).length <
            f + 1 := hf2
        simp only [List.length_append, List.length_cons] at this
        omega
      have hrec := parseMembers_complete ms u hm f t hlen2
      simp [hsb, htw1, htw2, hval, htw3, htw4, hrec]

end

/-! ### The compact machine on renderings -/

theorem compactGo_ws (w t : List Char) (hw : AllWS w) :
    compactGo ⟨false, false⟩ (w ++ t) = compactGo ⟨false, false⟩ t := by
  induction w with
  | nil => simp
  | cons c cs ih =>
    have hc := hw c (by simp)
    rw [List.cons_append, compactGo]
    simp only [hc, reduceIte]
    exact ih (fun d hd => hw d (by simp [hd]))

theorem compactGo_plain (l t : List Char) (hl : ∀ c ∈ l, isWS c = false ∧ c ≠ '"') :
    compactGo ⟨false, false⟩ (l ++ t) = l ++ compactGo ⟨false, false⟩ t := by
  induction l with
  | nil => simp
  | cons c cs ih =>
    obtain ⟨h1, h2⟩ := hl c (by simp)
    rw [List.cons_append, compactGo]
    simp only [h1, h2, reduceIte, Bool.false_eq_true, if_false]
    rw [ih (fun d hd => hl d (by simp [hd]))]
    simp

theorem compactGo_sbody (b : List Char) (hb : SBody b) : ∀ t,
    compactGo ⟨true, false⟩ (b ++ '"' :: t) = b ++ '"' :: compactGo ⟨false, false⟩ t := by
  induction hb with
  | nil =>
    intro t
    rw [List.nil_append, compactGo]
    simp
  | plain c b2 hq hbs hctrl hb2 ih =>
    intro t
    rw [List.cons_append, compactGo]
    simp only [hq, hbs, reduceIte]
    rw [ih t]
    rfl
  | esc e b2 hu hesc hb2 ih =>
    intro t
    show '\\' :: compactGo ⟨true, true⟩ (e :: (b2 ++ '"' :: t)) = _
    rw [show compactGo ⟨true, true⟩ (e :: (b2 ++ '"' :: t)) =
      e :: compactGo ⟨true, false⟩ (b2 ++ '"' :: t) from rfl]
    rw [ih t]
    simp
  | escU h1 h2 h3 h4 b2 x1 x2 x3 x4 hb2 ih =>
    intro t
    have step : ∀ (c : Char) (rest : List Char), isHex c = true →
        compactGo ⟨true, false⟩ (c :: rest) = c :: compactGo ⟨true, false⟩ rest := by
      intro c rest hc
      have hb1 : ¬(c = '\\') := fun he => by rw [he] at hc; exact absurd hc (by decide)
      have hb2 : ¬(c = '"') := fun he => by rw [he] at hc; exact absurd hc (by decide)
      rw [compactGo]
      simp [hb1, hb2]
    show '\\' :: compactGo ⟨true, true⟩
      ('u' :: (h1 :: h2 :: h3 :: h4 :: (b2 ++ '"' :: t))) = _
    rw [show compactGo ⟨true, true⟩ ('u' :: (h1 :: h2 :: h3 :: h4 :: (b2 ++ '"' :: t))) =
      'u' :: compactGo ⟨true, false⟩ (h1 :: h2 :: h3 :: h4 :: (b2 ++ '"' :: t)) from rfl]
    rw [step h1 _ x1, step h2 _ x2, step h3 _ x3, step h4 _ x4, ih t]
    simp

theorem wselems_ne_nil (xs : List Jval) (u : List Char) (h : WSElems xs u) : xs ≠ [] := by
  cases h <;> simp

theorem wsmembers_ne_nil (ms : List (List Char × Jval)) (u : List Char)
    (h : WSMembers ms u) : ms ≠ [] := by
  cases h <;> simp

theorem compactRenderL_cons (x : Jval) (xs : List Jval) (h : xs ≠ []) :
    compactRenderL (x :: xs) = compactRender x ++ ',' :: compactRenderL xs := by
  cases xs with
  | nil => simp at h
  | cons y ys => rfl

theorem compactRenderM_cons (k : List Char) (v : Jval) (ms : List (List Char × Jval))
    (h : ms ≠ []) : compactRenderM ((k, v) :: ms) =
      ('"' :: k ++ '"' :: ':' :: compactRender v) ++ ',' :: compactRenderM ms := by
  cases ms with
  | nil => simp at h
  | cons m ms2 => rfl

theorem compactGo_quote (rest : List Char) :
    compactGo ⟨false, false⟩ ('"' :: rest) = '"' :: compactGo ⟨true, false⟩ rest := by
  rw [compactGo]
  simp [isWS]

theorem compactGo_step (c : Char) (rest : List Char) (h1 : isWS c = false)
    (h2 : ¬(c = '"')) :
    compactGo ⟨false, false⟩ (c :: rest) = c :: compactGo ⟨false, false⟩ rest := by
  rw [compactGo]
  simp [h1, h2]

mutual
theorem compact_wsr : ∀ (v : Jval) (u : List Char), WSRender v u → ∀ t,
    compactGo ⟨false, false⟩ (u ++ t) = compactRender v ++ compactGo ⟨false, false⟩ t
  | _, _, .null => by
    intro t
    simp [compactGo, compactRender, isWS]
  | _, _, .tru => by
    intro t
    simp [compactGo, compactRender, isWS]
  | _, _, .fls => by
    intro t
    simp [compactGo, compactRender, isWS]
  | _, _, .num lit hlit => by
    intro t
    obtain ⟨-, hshape⟩ := parseNum_sound lit lit [] (by simpa using hlit)
    refine compactGo_plain lit t (fun c hc => ?_)
    have := numExt_plain c ((numShape_chars lit hshape).2 c hc)
    exact ⟨this.1, this.2.1⟩
  | _, _, .str b hb => by
    intro t
    have heq : ('"' :: b ++ ['"']) ++ t = '"' :: (b ++ '"' :: t) := by simp
    rw [heq, compactGo_quote, compactGo_sbody b hb t]
    simp [compactRender]
  | _, _, .arrNil w hw => by
    intro t
    have heq : ('[' :: w ++ [']']) ++ t = '[' :: (w ++ ']' :: t) := by simp
    rw [heq, compactGo_step '[' _ (by decide) (by decide), compactGo_ws w _ hw,
      compactGo_step ']' _ (by decide) (by decide)]
    simp [compactRender, compactRenderL]
  | _, _, .arr w u2 xs hw hu => by
    intro t
    have heq : ('[' :: w ++ u2) ++ t = '[' :: (w ++ (u2 ++ t)) := by simp
    rw [heq, compactGo_step '[' _ (by decide) (by decide), compactGo_ws w _ hw,
      compact_wse xs u2 hu t]
    simp [compactRender]
  | _, _, .objNil w hw => by
    intro t
    have heq : ('{' :: w ++ ['}']) ++ t = '{' :: (w ++ '}' :: t) := by simp
    rw [heq, compactGo_step '{' _ (by decide) (by decide), compactGo_ws w _ hw,
      compactGo_step '}' _ (by decide) (by decide)]
    simp [compactRender, compactRenderM]
  | _, _, .obj w u2 ms hw hm => by
    intro t
    have heq : ('{' :: w ++ u2) ++ t = '{' :: (w ++ (u2 ++ t)) := by simp
    rw [heq, compactGo_step '{' _ (by decide) (by decide), compactGo_ws w _ hw,
      compact_wsm ms u2 hm t]
    simp [compactRender]

theorem compact_wse : ∀ (xs : List Jval) (u : List Char), WSElems xs u → ∀ t,
    compactGo ⟨false, false⟩ (u ++ t) =
      compactRenderL xs ++ ']' :: compactGo ⟨false, false⟩ t
  | _, _, .last x r w hx hw => by
    intro t
    have heq : (r ++ w ++ [']']) ++ t = r ++ (w ++ ']' :: t) := by simp
    rw [heq, compact_wsr x r hx, compactGo_ws w _ hw,
      compactGo_step ']' _ (by decide) (by decide)]
    simp [compactRenderL]
  | _, _, .cons x r w w2 xs u hx hw hw2 hu => by
    intro t
    have heq : (r ++ w ++ ',' :: w2 ++ u) ++ t = r ++ (w ++ ',' :: (w2 ++ (u ++ t))) := by
      simp
    rw [heq, compact_wsr x r hx, compactGo_ws w _ hw,
      compactGo_step ',' _ (by decide) (by decide), compactGo_ws w2 _ hw2,
      compact_wse xs u hu t]
    rw [compactRenderL_cons x xs (wselems_ne_nil xs u hu)]
    simp

theorem compact_wsm : ∀ (ms : List (List Char × Jval)) (u : List Char), WSMembers ms u →
    ∀ t, compactGo ⟨false, false⟩ (u ++ t) =
      compactRenderM ms ++ '}' :: compactGo ⟨false, false⟩ t
  | _, _, .last k w1 w2 v r w3 hk hw1 hw2 hv hw3 => by
    intro t
    have heq : ('"' :: k ++ '"' :: w1 ++ ':' :: w2 ++ r ++ w3 ++ ['}']) ++ t =
        '"' :: (k ++ '"' :: (w1 ++ ':' :: (w2 ++ (r ++ (w3 ++ '}' :: t))))) := by simp
    rw [heq, compactGo_quote, compactGo_sbody k hk, compactGo_ws w1 _ hw1,
      compactGo_step ':' _ (by decide) (by decide), compactGo_ws w2 _ hw2,
      compact_wsr v r hv, compactGo_ws w3 _ hw3,
      compactGo_step '}' _ (by decide) (by decide)]
    simp [compactRenderM]
  | _, _, .cons k w1 w2 v r w3 w4 ms u hk hw1 hw2 hv hw3 hw4 hm => by
    intro t
    have heq : ('"' :: k ++ '"' :: w1 ++ ':' :: w2 ++ r ++ w3 ++ ',' :: w4 ++ u) ++ t =
        '"' :: (k ++ '"' :: (w1 ++ ':' :: (w2 ++ (r ++ (w3 ++ ',' :: (w4 ++ (u ++ t))))))) := by
      simp
    rw [heq, compactGo_quote, compactGo_sbody k hk, compactGo_ws w1 _ hw1,
      compactGo_step ':' _ (by decide) (by decide), compactGo_ws w2 _ hw2,
      compact_wsr v r hv, compactGo_ws w3 _ hw3,
      compactGo_step ',' _ (by decide) (by decide), compactGo_ws w4 _ hw4,
      compact_wsm ms u hm t]
    rw [compactRenderM_cons k v ms (wsmembers_ne_nil ms u hm)]
    simp
end

/-! ### The indent machine on renderings -/

theorem indentGo_ws (lp iu w : List Char) (st : IState) (hs : st.inStr = false)
    (hw : AllWS w) (t : List Char) :
    indentGo lp iu st (w ++ t) = indentGo lp iu st t := by
  induction w with
  | nil => simp
  | cons c cs ih =>
    have hc := hw c (by simp)
    rw [List.cons_append, indentGo]
    simp only [hs, Bool.false_eq_true, if_false, hc, reduceIte]
    exact ih (fun d hd => hw d (by simp [hd]))

theorem iStep (lp iu : List Char) (d : Nat) (c : Char) (cs : List Char)
    (hc : safeC c = true) :
    indentGo lp iu ⟨false, false, d, false⟩ (c :: cs) =
      c :: indentGo lp iu ⟨false, false, d, false⟩ cs := by
  simp only [safeC, Bool.and_eq_true, bne_iff_ne, ne_eq, Bool.not_eq_true'] at hc
  obtain ⟨⟨⟨⟨⟨⟨⟨hws, h1⟩, h2⟩, h3⟩, h4⟩, h5⟩, h6⟩, h7⟩ := hc
  rw [indentGo]
  simp [hws, h1, h2, h3, h4, h5, h6, h7]

theorem iStepNI (lp iu : List Char) (d : Nat) (c : Char) (cs : List Char)
    (hc : safeC c = true) :
    indentGo lp iu ⟨false, false, d, true⟩ (c :: cs) =
      nlI lp iu (d + 1) ++ c :: indentGo lp iu ⟨false, false, d + 1, false⟩ cs := by
  simp only [safeC, Bool.and_eq_true, bne_iff_ne, ne_eq, Bool.not_eq_true'] at hc
  obtain ⟨⟨⟨⟨⟨⟨⟨hws, h1⟩, h2⟩, h3⟩, h4⟩, h5⟩, h6⟩, h7⟩ := hc
  rw [indentGo]
  simp [hws, h1, h2, h3, h4, h5, h6, h7]

theorem iOpenF (lp iu : List Char) (d : Nat) (c : Char) (cs : List Char)
    (hc : c = '[' ∨ c = '{') :
    indentGo lp iu ⟨false, false, d, false⟩ (c :: cs) =
      c :: indentGo lp iu ⟨false, false, d, true⟩ cs := by
  rcases hc with rfl | rfl <;> (rw [indentGo]; simp [isWS])

theorem iOpenT (lp iu : List Char) (d : Nat) (c : Char) (cs : List Char)
    (hc : c = '[' ∨ c = '{') :
    indentGo lp iu ⟨false, false, d, true⟩ (c :: cs) =
      nlI lp iu (d + 1) ++ c :: indentGo lp iu ⟨false, false, d + 1, true⟩ cs := by
  rcases hc with rfl | rfl <;> (rw [indentGo]; simp [isWS])

theorem iCloseF (lp iu : List Char) (d : Nat) (c : Char) (cs : List Char)
    (hc : c = ']' ∨ c = '}') :
    indentGo lp iu ⟨false, false, d + 1, false⟩ (c :: cs) =
      nlI lp iu d ++ c :: indentGo lp iu ⟨false, false, d, false⟩ cs := by
  rcases hc with rfl | rfl <;> (rw [indentGo]; simp [isWS])

theorem iCloseT (lp iu : List Char) (d : Nat) (c : Char) (cs : List Char)
    (hc : c = ']' ∨ c = '}') :
    indentGo lp iu ⟨false, false, d, true⟩ (c :: cs) =
      c :: indentGo lp iu ⟨false, false, d, false⟩ cs := by
  rcases hc with rfl | rfl <;> (rw [indentGo]; simp [isWS])

theorem iComma (lp iu : List Char) (d : Nat) (cs : List Char) :
    indentGo lp iu ⟨false, false, d, false⟩ (',' :: cs) =
      ',' :: nlI lp iu d ++ indentGo lp iu ⟨false, false, d, false⟩ cs := by
  rw [indentGo]
  simp [isWS]

theorem iColon (lp iu : List Char) (d : Nat) (cs : List Char) :
    indentGo lp iu ⟨false, false, d, false⟩ (':' :: cs) =
      ':' :: ' ' :: indentGo lp iu ⟨false, false, d, false⟩ cs := by
  rw [indentGo]
  simp [isWS]

theorem iQuoteF (lp iu : List Char) (d : Nat) (cs : List Char) :
    indentGo lp iu ⟨false, false, d, false⟩ ('"' :: cs) =
      '"' :: indentGo lp iu ⟨true, false, d, false⟩ cs := by
  rw [indentGo]
  simp [isWS]

theorem iQuoteT (lp iu : List Char) (d : Nat) (cs : List Char) :
    indentGo lp iu ⟨false, false, d, true⟩ ('"' :: cs) =
      nlI lp iu (d + 1) ++ '"' :: indentGo lp iu ⟨true, false, d + 1, false⟩ cs := by
  rw [indentGo]
  simp [isWS]

theorem indent_plain (lp iu : List Char) (d : Nat) (l t : List Char)
    (hl : ∀ c ∈ l, safeC c = true) :
    indentGo lp iu ⟨false, false, d, false⟩ (l ++ t) =
      l ++ indentGo lp iu ⟨false, false, d, false⟩ t := by
  induction l with
  | nil => simp
  | cons c cs ih =>
    rw [List.cons_append, iStep lp iu d c _ (hl c (by simp))]
    rw [ih (fun e he => hl e (by simp [he]))]
    simp

theorem indent_sbody (lp iu : List Char) (d : Nat) (ni : Bool) (b : List Char)
    (hb : SBody b) : ∀ t,
    indentGo lp iu ⟨true, false, d, ni⟩ (b ++ '"' :: t) =
      b ++ '"' :: indentGo lp iu ⟨false, false, d, ni⟩ t := by
  induction hb with
  | nil =>
    intro t
    rw [List.nil_append, indentGo]
    simp
  | plain c b2 hq hbs hctrl hb2 ih =>
    intro t
    rw [List.cons_append, indentGo]
    simp only [hq, hbs, reduceIte]
    rw [ih t]
    rfl
  | esc e b2 hu hesc hb2 ih =>
    intro t
    show '\\' :: indentGo lp iu ⟨true, true, d, ni⟩ (e :: (b2 ++ '"' :: t)) = _
    rw [show indentGo lp iu ⟨true, true, d, ni⟩ (e :: (b2 ++ '"' :: t)) =
      e :: indentGo lp iu ⟨true, false, d, ni⟩ (b2 ++ '"' :: t) from rfl]
    rw [ih t]
    simp
  | escU h1 h2 h3 h4 b2 x1 x2 x3 x4 hb2 ih =>
    intro t
    have step : ∀ (c : Char) (rest : List Char), isHex c = true →
        indentGo lp iu ⟨true, false, d, ni⟩ (c :: rest) =
          c :: indentGo lp iu ⟨true, false, d, ni⟩ rest := by
      intro c rest hc
      have hb1 : ¬(c = '\\') := fun he => by rw [he] at hc; exact absurd hc (by decide)
      have hb2 : ¬(c = '"') := fun he => by rw [he] at hc; exact absurd hc (by decide)
      rw [indentGo]
      simp [hb1, hb2]
    show '\\' :: indentGo lp iu ⟨true, true, d, ni⟩
      ('u' :: (h1 :: h2 :: h3 :: h4 :: (b2 ++ '"' :: t))) = _
    rw [show indentGo lp iu ⟨true, true, d, ni⟩
        ('u' :: (h1 :: h2 :: h3 :: h4 :: (b2 ++ '"' :: t))) =
      'u' :: indentGo lp iu ⟨true, false, d, ni⟩
        (h1 :: h2 :: h3 :: h4 :: (b2 ++ '"' :: t)) from rfl]
    rw [step h1 _ x1, step h2 _ x2, step h3 _ x3, step h4 _ x4, ih t]
    simp

theorem numExt_safe (c : Char) (h : numExtChar c = true) : safeC c = true := by
  simp only [numExtChar, Bool.or_eq_true, decide_eq_true_eq] at h
  simp only [safeC, Bool.and_eq_true, bne_iff_ne, ne_eq, Bool.not_eq_true']
  rcases h with ⟨⟨⟨⟨h | h⟩ | h⟩ | h⟩ | h⟩ | h
  · refine ⟨⟨⟨⟨⟨⟨⟨?_, ne_of_isDigit c '{' h (by decide)⟩,
      ne_of_isDigit c '}' h (by decide)⟩, ne_of_isDigit c '[' h (by decide)⟩,
      ne_of_isDigit c ']' h (by decide)⟩, ne_of_isDigit c ',' h (by decide)⟩,
      ne_of_isDigit c ':' h (by decide)⟩, ne_of_isDigit c '"' h (by decide)⟩
    simp only [isWS, Bool.or_eq_false_iff, decide_eq_false_iff_not]
    exact ⟨⟨⟨ne_of_isDigit c ' ' h (by decide), ne_of_isDigit c '\t' h (by decide)⟩,
      ne_of_isDigit c '\n' h (by decide)⟩, ne_of_isDigit c '\r' h (by decide)⟩
  all_goals subst h
  all_goals decide

theorem prettyRenderL_cons (lp iu : List Char) (d : Nat) (x : Jval) (xs : List Jval)
    (h : xs ≠ []) :
    prettyRenderL lp iu d (x :: xs) =
      prettyRender lp iu d x ++ ',' :: (nlI lp iu d ++ prettyRenderL lp iu d xs) := by
  cases xs with
  | nil => exact absurd rfl h
  | cons y ys => rfl

theorem prettyRenderM_cons (lp iu : List Char) (d : Nat) (k : List Char) (v : Jval)
    (ms : List (List Char × Jval)) (h : ms ≠ []) :
    prettyRenderM lp iu d ((k, v) :: ms) =
      ('"' :: k ++ '"' :: ':' :: ' ' :: prettyRender lp iu d v) ++
        ',' :: (nlI lp iu d ++ prettyRenderM lp iu d ms) := by
  cases ms with
  | nil => exact absurd rfl h
  | cons m ms2 => rfl

theorem prettyRender_arr_ne (lp iu : List Char) (d : Nat) (xs : List Jval) (h : xs ≠ []) :
    prettyRender lp iu d (.arr xs) =
      '[' :: (nlI lp iu (d + 1) ++ prettyRenderL lp iu (d + 1) xs) ++
        nlI lp iu d ++ [']'] := by
  cases xs with
  | nil => exact absurd rfl h
  | cons x xs2 => rfl

theorem prettyRender_obj_ne (lp iu : List Char) (d : Nat)
    (ms : List (List Char × Jval)) (h : ms ≠ []) :
    prettyRender lp iu d (.obj ms) =
      '{' :: (nlI lp iu (d + 1) ++ prettyRenderM lp iu (d + 1) ms) ++
        nlI lp iu d ++ ['}'] := by
  cases ms with
  | nil => exact absurd rfl h
  | cons m ms2 => rfl

mutual
theorem indent_wsr (lp iu : List Char) : ∀ (v : Jval) (u : List Char), WSRender v u →
    ∀ d t, indentGo lp iu ⟨false, false, d, false⟩ (u ++ t) =
      prettyRender lp iu d v ++ indentGo lp iu ⟨false, false, d, false⟩ t
  | _, _, .null => by
    intro d t
    rw [indent_plain lp iu d _ t (by decide)]
    rfl
  | _, _, .tru => by
    intro d t
    rw [indent_plain lp iu d _ t (by decide)]
    rfl
  | _, _, .fls => by
    intro d t
    rw [indent_plain lp iu d _ t (by decide)]
    rfl
  | _, _, .num lit hlit => by
    intro d t
    obtain ⟨-, hshape⟩ := parseNum_sound lit lit [] (by simpa using hlit)
    rw [indent_plain lp iu d lit t
      (fun c hc => numExt_safe c ((numShape_chars lit hshape).2 c hc))]
    rfl
  | _, _, .str b hb => by
    intro d t
    have heq : ('"' :: b ++ ['"']) ++ t = '"' :: (b ++ '"' :: t) := by simp
    rw [heq, iQuoteF, indent_sbody lp iu d false b hb t]
    simp [prettyRender]
  | _, _, .arrNil w hw => by
    intro d t
    have heq : ('[' :: w ++ [']']) ++ t = '[' :: (w ++ ']' :: t) := by simp
    rw [heq, iOpenF lp iu d '[' _ (Or.inl rfl),
      indentGo_ws lp iu w ⟨false, false, d, true⟩ rfl hw,
      iCloseT lp iu d ']' _ (Or.inl rfl)]
    simp [prettyRender]
  | _, _, .arr w u2 xs hw hu => by
    intro d t
    have heq : ('[' :: w ++ u2) ++ t = '[' :: (w ++ (u2 ++ t)) := by simp
    rw [heq, iOpenF lp iu d '[' _ (Or.inl rfl),
      indentGo_ws lp iu w ⟨false, false, d, true⟩ rfl hw,
      indent_wseT lp iu xs u2 hu d t]
    rw [prettyRender_arr_ne lp iu d xs (wselems_ne_nil xs u2 hu)]
    simp
  | _, _, .objNil w hw => by
    intro d t
    have heq : ('{' :: w ++ ['}']) ++ t = '{' :: (w ++ '}' :: t) := by simp
    rw [heq, iOpenF lp iu d '{' _ (Or.inr rfl),
      indentGo_ws lp iu w ⟨false, false, d, true⟩ rfl hw,
      iCloseT lp iu d '}' _ (Or.inr rfl)]
    simp [prettyRender]
  | _, _, .obj w u2 ms hw hm => by
    intro d t
    have heq : ('{' :: w ++ u2) ++ t = '{' :: (w ++ (u2 ++ t)) := by simp
    rw [heq, iOpenF lp iu d '{' _ (Or.inr rfl),
      indentGo_ws lp iu w ⟨false, false, d, true⟩ rfl hw,
      indent_wsmT lp iu ms u2 hm d t]
    rw [prettyRender_obj_ne lp iu d ms (wsmembers_ne_nil ms u2 hm)]
    simp

theorem indent_wsrNI (lp iu : List Char) : ∀ (v : Jval) (u : List Char), WSRender v u →
    ∀ d t, indentGo lp iu ⟨false, false, d, true⟩ (u ++ t) =
      nlI lp iu (d + 1) ++ prettyRender lp iu (d + 1) v ++
        indentGo lp iu ⟨false, false, d + 1, false⟩ t
  | _, _, .null => by
    intro d t
    rw [show (['n', 'u', 'l', 'l'] : List Char) ++ t = 'n' :: (['u', 'l', 'l'] ++ t) from rfl,
      iStepNI lp iu d 'n' _ (by decide),
      indent_plain lp iu (d + 1) ['u', 'l', 'l'] t (by decide)]
    simp [prettyRender]
  | _, _, .tru => by
    intro d t
    rw [show (['t', 'r', 'u', 'e'] : List Char) ++ t = 't' :: (['r', 'u', 'e'] ++ t) from rfl,
      iStepNI lp iu d 't' _ (by decide),
      indent_plain lp iu (d + 1) ['r', 'u', 'e'] t (by decide)]
    simp [prettyRender]
  | _, _, .fls => by
    intro d t
    rw [show (['f', 'a', 'l', 's', 'e'] : List Char) ++ t =
        'f' :: (['a', 'l', 's', 'e'] ++ t) from rfl,
      iStepNI lp iu d 'f' _ (by decide),
      indent_plain lp iu (d + 1) ['a', 'l', 's', 'e'] t (by decide)]
    simp [prettyRender]
  | _, _, .num lit hlit => by
    intro d t
    obtain ⟨-, hshape⟩ := parseNum_sound lit lit [] (by simpa using hlit)
    obtain ⟨hne, hchars⟩ := numShape_chars lit hshape
    cases lit with
    | nil => exact absurd rfl hne
    | cons c cs =>
      rw [List.cons_append, iStepNI lp iu d c _ (numExt_safe c (hchars c (by simp))),
        indent_plain lp iu (d + 1) cs t
          (fun e he => numExt_safe e (hchars e (by simp [he])))]
      simp [prettyRender]
  | _, _, .str b hb => by
    intro d t
    have heq : ('"' :: b ++ ['"']) ++ t = '"' :: (b ++ '"' :: t) := by simp
    rw [heq, iQuoteT, indent_sbody lp iu (d + 1) false b hb t]
    simp [prettyRender]
  | _, _, .arrNil w hw => by
    intro d t
    have heq : ('[' :: w ++ [']']) ++ t = '[' :: (w ++ ']' :: t) := by simp
    rw [heq, iOpenT lp iu d '[' _ (Or.inl rfl),
      indentGo_ws lp iu w ⟨false, false, d + 1, true⟩ rfl hw,
      iCloseT lp iu (d + 1) ']' _ (Or.inl rfl)]
    simp [prettyRender]
  | _, _, .arr w u2 xs hw hu => by
    intro d t
    have heq : ('[' :: w ++ u2) ++ t = '[' :: (w ++ (u2 ++ t)) := by simp
    rw [heq, iOpenT lp iu d '[' _ (Or.inl rfl),
      indentGo_ws lp iu w ⟨false, false, d + 1, true⟩ rfl hw,
      indent_wseT lp iu xs u2 hu (d + 1) t]
    rw [prettyRender_arr_ne lp iu (d + 1) xs (wselems_ne_nil xs u2 hu)]
    simp
  | _, _, .objNil w hw => by
    intro d t
    have heq : ('{' :: w ++ ['}']) ++ t = '{' :: (w ++ '}' :: t) := by simp
    rw [heq, iOpenT lp iu d '{' _ (Or.inr rfl),
      indentGo_ws lp iu w ⟨false, false, d + 1, true⟩ rfl hw,
      iCloseT lp iu (d + 1) '}' _ (Or.inr rfl)]
    simp [prettyRender]
  | _, _, .obj w u2 ms hw hm => by
    intro d t
    have heq : ('{' :: w ++ u2) ++ t = '{' :: (w ++ (u2 ++ t)) := by simp
    rw [heq, iOpenT lp iu d '{' _ (Or.inr rfl),
      indentGo_ws lp iu w ⟨false, false, d + 1, true⟩ rfl hw,
      indent_wsmT lp iu ms u2 hm (d + 1) t]
    rw [prettyRender_obj_ne lp iu (d + 1) ms (wsmembers_ne_nil ms u2 hm)]
    simp

theorem indent_wseT (lp iu : List Char) : ∀ (xs : List Jval) (u : List Char),
    WSElems xs u → ∀ d t, indentGo lp iu ⟨false, false, d, true⟩ (u ++ t) =
      nlI lp iu (d + 1) ++ prettyRenderL lp iu (d + 1) xs ++ nlI lp iu d ++ ']' ::
        indentGo lp iu ⟨false, false, d, false⟩ t
  | _, _, .last x r w hx hw => by
    intro d t
    have heq : (r ++ w ++ [']']) ++ t = r ++ (w ++ ']' :: t) := by simp
    rw [heq, indent_wsrNI lp iu x r hx d _,
      indentGo_ws lp iu w ⟨false, false, d + 1, false⟩ rfl hw,
      iCloseF lp iu d ']' _ (Or.inl rfl)]
    simp [prettyRenderL]
  | _, _, .cons x r w w2 xs u hx hw hw2 hu => by
    intro d t
    have heq : (r ++ w ++ ',' :: w2 ++ u) ++ t = r ++ (w ++ ',' :: (w2 ++ (u ++ t))) := by
      simp
    rw [heq, indent_wsrNI lp iu x r hx d _,
      indentGo_ws lp iu w ⟨false, false, d + 1, false⟩ rfl hw,
      iComma lp iu (d + 1), indentGo_ws lp iu w2 ⟨false, false, d + 1, false⟩ rfl hw2,
      indent_wseF lp iu xs u hu d t]
    rw [prettyRenderL_cons lp iu (d + 1) x xs (wselems_ne_nil xs u hu)]
    simp

theorem indent_wseF (lp iu : List Char) : ∀ (xs : List Jval) (u : List Char),
    WSElems xs u → ∀ d t, indentGo lp iu ⟨false, false, d + 1, false⟩ (u ++ t) =
      prettyRenderL lp iu (d + 1) xs ++ nlI lp iu d ++ ']' ::
        indentGo lp iu ⟨false, false, d, false⟩ t
  | _, _, .last x r w hx hw => by
    intro d t
    have heq : (r ++ w ++ [']']) ++ t = r ++ (w ++ ']' :: t) := by simp
    rw [heq, indent_wsr lp iu x r hx (d + 1) _,
      indentGo_ws lp iu w ⟨false, false, d + 1, false⟩ rfl hw,
      iCloseF lp iu d ']' _ (Or.inl rfl)]
    simp [prettyRenderL]
  | _, _, .cons x r w w2 xs u hx hw hw2 hu => by
    intro d t
    have heq : (r ++ w ++ ',' :: w2 ++ u) ++ t = r ++ (w ++ ',' :: (w2 ++ (u ++ t))) := by
      simp
    rw [heq, indent_wsr lp iu x r hx (d + 1) _,
      indentGo_ws lp iu w ⟨false, false, d + 1, false⟩ rfl hw,
      iComma lp iu (d + 1), indentGo_ws lp iu w2 ⟨false, false, d + 1, false⟩ rfl hw2,
      indent_wseF lp iu xs u hu d t]
    rw [prettyRenderL_cons lp iu (d + 1) x xs (wselems_ne_nil xs u hu)]
    simp

theorem indent_wsmT (lp iu : List Char) : ∀ (ms : List (List Char × Jval)) (u : List Char),
    WSMembers ms u → ∀ d t, indentGo lp iu ⟨false, false, d, true⟩ (u ++ t) =
      nlI lp iu (d + 1) ++ prettyRenderM lp iu (d + 1) ms ++ nlI lp iu d ++ '}' ::
        indentGo lp iu ⟨false, false, d, false⟩ t
  | _, _, .last k w1 w2 v r w3 hk hw1 hw2 hv hw3 => by
    intro d t
    have heq : ('"' :: k ++ '"' :: w1 ++ ':' :: w2 ++ r ++ w3 ++ ['}']) ++ t =
        '"' :: (k ++ '"' :: (w1 ++ ':' :: (w2 ++ (r ++ (w3 ++ '}' :: t))))) := by simp
    rw [heq, iQuoteT, indent_sbody lp iu (d + 1) false k hk,
      indentGo_ws lp iu w1 ⟨false, false, d + 1, false⟩ rfl hw1,
      iColon lp iu (d + 1),
      indentGo_ws lp iu w2 ⟨false, false, d + 1, false⟩ rfl hw2,
      indent_wsr lp iu v r hv (d + 1) _,
      indentGo_ws lp iu w3 ⟨false, false, d + 1, false⟩ rfl hw3,
      iCloseF lp iu d '}' _ (Or.inr rfl)]
    simp [prettyRenderM]
  | _, _, .cons k w1 w2 v r w3 w4 ms u hk hw1 hw2 hv hw3 hw4 hm => by
    intro d t
    have heq : ('"' :: k ++ '"' :: w1 ++ ':' :: w2 ++ r ++ w3 ++ ',' :: w4 ++ u) ++ t =
        '"' :: (k ++ '"' :: (w1 ++ ':' :: (w2 ++ (r ++ (w3 ++ ',' :: (w4 ++ (u ++ t))))))) := by
      simp
    rw [heq, iQuoteT, indent_sbody lp iu (d + 1) false k hk,
      indentGo_ws lp iu w1 ⟨false, false, d + 1, false⟩ rfl hw1,
      iColon lp iu (d + 1),
      indentGo_ws lp iu w2 ⟨false, false, d + 1, false⟩ rfl hw2,
      indent_wsr lp iu v r hv (d + 1) _,
      indentGo_ws lp iu w3 ⟨false, false, d + 1, false⟩ rfl hw3,
      iComma lp iu (d + 1),
      indentGo_ws lp iu w4 ⟨false, false, d + 1, false⟩ rfl hw4,
      indent_wsmF lp iu ms u hm d t]
    rw [prettyRenderM_cons lp iu (d + 1) k v ms (wsmembers_ne_nil ms u hm)]
    simp

theorem indent_wsmF (lp iu : List Char) : ∀ (ms : List (List Char × Jval)) (u : List Char),
    WSMembers ms u → ∀ d t, indentGo lp iu ⟨false, false, d + 1, false⟩ (u ++ t) =
      prettyRenderM lp iu (d + 1) ms ++ nlI lp iu d ++ '}' ::
        indentGo lp iu ⟨false, false, d, false⟩ t
  | _, _, .last k w1 w2 v r w3 hk hw1 hw2 hv hw3 => by
    intro d t
    have heq : ('"' :: k ++ '"' :: w1 ++ ':' :: w2 ++ r ++ w3 ++ ['}']) ++ t =
        '"' :: (k ++ '"' :: (w1 ++ ':' :: (w2 ++ (r ++ (w3 ++ '}' :: t))))) := by simp
    rw [heq, iQuoteF, indent_sbody lp iu (d + 1) false k hk,
      indentGo_ws lp iu w1 ⟨false, false, d + 1, false⟩ rfl hw1,
      iColon lp iu (d + 1),
      indentGo_ws lp iu w2 ⟨false, false, d + 1, false⟩ rfl hw2,
      indent_wsr lp iu v r hv (d + 1) _,
      indentGo_ws lp iu w3 ⟨false, false, d + 1, false⟩ rfl hw3,
      iCloseF lp iu d '}' _ (Or.inr rfl)]
    simp [prettyRenderM]
  | _, _, .cons k w1 w2 v r w3 w4 ms u hk hw1 hw2 hv hw3 hw4 hm => by
    intro d t
    have heq : ('"' :: k ++ '"' :: w1 ++ ':' :: w2 ++ r ++ w3 ++ ',' :: w4 ++ u) ++ t =
        '"' :: (k ++ '"' :: (w1 ++ ':' :: (w2 ++ (r ++ (w3 ++ ',' :: (w4 ++ (u ++ t))))))) := by
      simp
    rw [heq, iQuoteF, indent_sbody lp iu (d + 1) false k hk,
      indentGo_ws lp iu w1 ⟨false, false, d + 1, false⟩ rfl hw1,
      iColon lp iu (d + 1),
      indentGo_ws lp iu w2 ⟨false, false, d + 1, false⟩ rfl hw2,
      indent_wsr lp iu v r hv (d + 1) _,
      indentGo_ws lp iu w3 ⟨false, false, d + 1, false⟩ rfl hw3,
      iComma lp iu (d + 1),
      indentGo_ws lp iu w4 ⟨false, false, d + 1, false⟩ rfl hw4,
      indent_wsmF lp iu ms u hm d t]
    rw [prettyRenderM_cons lp iu (d + 1) k v ms (wsmembers_ne_nil ms u hm)]
    simp
end

/-! ### Well-formedness infrastructure -/

theorem wfm_mem : ∀ (ms : List (List Char × Jval)), WFM ms → ∀ (p : List Char × Jval),
    p ∈ ms → SBody p.1 ∧ WFv p.2
  | _, .nil, p, hp => by simp at hp
  | _, .cons k v rest hk hv hrest, p, hp => by
    rcases List.mem_cons.mp hp with h1 | h1
    · subst h1
      exact ⟨hk, hv⟩
    · exact wfm_mem rest hrest p h1

theorem wfm_of_mem (ms : List (List Char × Jval))
    (h : ∀ p ∈ ms, SBody p.1 ∧ WFv p.2) : WFM ms := by
  induction ms with
  | nil => exact .nil
  | cons p rest ih =>
    obtain ⟨hk, hv⟩ := h p (by simp)
    exact .cons p.1 p.2 rest hk hv (ih (fun q hq => h q (by simp [hq])))

mutual
theorem wsr_wf : ∀ (v : Jval) (u : List Char), WSRender v u → WFv v
  | _, _, .null => .null
  | _, _, .tru => .boolean true
  | _, _, .fls => .boolean false
  | _, _, .num lit hlit => .num lit hlit
  | _, _, .str b hb => .str b hb
  | _, _, .arrNil w hw => .arr [] .nil
  | _, _, .arr w u xs hw hu => .arr xs (wse_wf xs u hu)
  | _, _, .objNil w hw => .obj [] .nil
  | _, _, .obj w u ms hw hm => .obj ms (wsm_wf ms u hm)

theorem wse_wf : ∀ (xs : List Jval) (u : List Char), WSElems xs u → WFL xs
  | _, _, .last x r w hx hw => .cons x [] (wsr_wf x r hx) .nil
  | _, _, .cons x r w w2 xs u hx hw hw2 hu =>
    .cons x xs (wsr_wf x r hx) (wse_wf xs u hu)

theorem wsm_wf : ∀ (ms : List (List Char × Jval)) (u : List Char), WSMembers ms u → WFM ms
  | _, _, .last k w1 w2 v r w3 hk hw1 hw2 hv hw3 =>
    .cons k v [] hk (wsr_wf v r hv) .nil
  | _, _, .cons k w1 w2 v r w3 w4 ms u hk hw1 hw2 hv hw3 hw4 hm =>
    .cons k v ms hk (wsr_wf v r hv) (wsm_wf ms u hm)
end

theorem allWS_nil : AllWS [] := by
  intro c hc
  simp at hc

mutual
theorem wf_compact_wsr : ∀ (v : Jval), WFv v → WSRender v (compactRender v)
  | _, .null => .null
  | _, .boolean true => .tru
  | _, .boolean false => .fls
  | _, .num lit h => .num lit h
  | _, .str b hb => .str b hb
  | _, .arr [] hL => by
    show WSRender (.arr []) ('[' :: ([] ++ [']']))
    exact .arrNil [] allWS_nil
  | _, .arr (x :: xs) hL => by
    show WSRender (.arr (x :: xs)) ('[' :: compactRenderL (x :: xs) ++ [']'])
    have := WSRender.arr [] (compactRenderL (x :: xs) ++ [']']) (x :: xs) allWS_nil
      (wf_compact_wse (x :: xs) hL (by simp))
    simpa using this
  | _, .obj [] hM => by
    show WSRender (.obj []) ('{' :: ([] ++ ['}']))
    exact .objNil [] allWS_nil
  | _, .obj (m :: ms) hM => by
    show WSRender (.obj (m :: ms)) ('{' :: compactRenderM (m :: ms) ++ ['}'])
    have := WSRender.obj [] (compactRenderM (m :: ms) ++ ['}']) (m :: ms) allWS_nil
      (wf_compact_wsm (m :: ms) hM (by simp))
    simpa using this

theorem wf_compact_wse : ∀ (xs : List Jval), WFL xs → xs ≠ [] →
    WSElems xs (compactRenderL xs ++ [']'])
  | _, .cons x _ hx .nil, _ => by
    have := WSElems.last x (compactRender x) [] (wf_compact_wsr x hx) allWS_nil
    simpa [compactRenderL] using this
  | _, .cons x _ hx (.cons y ys hy hys), _ => by
    have hrec := wf_compact_wse (y :: ys) (.cons y ys hy hys) (by simp)
    have := WSElems.cons x (compactRender x) [] [] (y :: ys)
      (compactRenderL (y :: ys) ++ [']']) (wf_compact_wsr x hx) allWS_nil allWS_nil hrec
    simpa [compactRenderL] using this

theorem wf_compact_wsm : ∀ (ms : List (List Char × Jval)), WFM ms → ms ≠ [] →
    WSMembers ms (compactRenderM ms ++ ['}'])
  | _, .cons k v _ hk hv .nil, _ => by
    have := WSMembers.last k [] [] v (compactRender v) [] hk allWS_nil allWS_nil
      (wf_compact_wsr v hv) allWS_nil
    simpa [compactRenderM] using this
  | _, .cons k v _ hk hv (.cons k2 v2 ms2 hk2 hv2 hms2), _ => by
    have hrec := wf_compact_wsm ((k2, v2) :: ms2) (.cons k2 v2 ms2 hk2 hv2 hms2) (by simp)
    have := WSMembers.cons k [] [] v (compactRender v) [] [] ((k2, v2) :: ms2)
      (compactRenderM ((k2, v2) :: ms2) ++ ['}']) hk allWS_nil allWS_nil
      (wf_compact_wsr v hv) allWS_nil allWS_nil hrec
    simpa [compactRenderM] using this
end

theorem copies_allWS (iu : List Char) (hiu : AllWS iu) (n : Nat) : AllWS (copies n iu) := by
  induction n with
  | zero => exact allWS_nil
  | succ n ih =>
    intro c hc
    rw [copies] at hc
    rcases List.mem_append.mp hc with h1 | h1
    · exact hiu c h1
    · exact ih c h1

theorem nlI_allWS (lp iu : List Char) (hlp : AllWS lp) (hiu : AllWS iu) (d : Nat) :
    AllWS (nlI lp iu d) := by
  intro c hc
  rw [nlI] at hc
  rcases List.mem_cons.mp hc with rfl | h1
  · decide
  · rcases List.mem_append.mp h1 with h2 | h2
    · exact hlp c h2
    · exact copies_allWS iu hiu d c h2

theorem allWS_space : AllWS [' '] := by
  intro c hc
  simp at hc
  subst hc
  decide

mutual
theorem wf_pretty_wsr (lp iu : List Char) (hlp : AllWS lp) (hiu : AllWS iu) :
    ∀ (v : Jval), WFv v → ∀ d, WSRender v (prettyRender lp iu d v)
  | _, .null => fun d => .null
  | _, .boolean true => fun d => .tru
  | _, .boolean false => fun d => .fls
  | _, .num lit h => fun d => .num lit h
  | _, .str b hb => fun d => .str b hb
  | _, .arr [] hL => fun d => by
    show WSRender (.arr []) ('[' :: ([] ++ [']']))
    exact .arrNil [] allWS_nil
  | _, .arr (x :: xs) hL => fun d => by
    rw [prettyRender_arr_ne lp iu d (x :: xs) (by simp)]
    have := WSRender.arr (nlI lp iu (d + 1))
      (prettyRenderL lp iu (d + 1) (x :: xs) ++ nlI lp iu d ++ [']']) (x :: xs)
      (nlI_allWS lp iu hlp hiu (d + 1))
      (wf_pretty_wse lp iu hlp hiu (x :: xs) hL (by simp) (d + 1) d)
    simpa using this
  | _, .obj [] hM => fun d => by
    show WSRender (.obj []) ('{' :: ([] ++ ['}']))
    exact .objNil [] allWS_nil
  | _, .obj (m :: ms) hM => fun d => by
    rw [prettyRender_obj_ne lp iu d (m :: ms) (by simp)]
    have := WSRender.obj (nlI lp iu (d + 1))
      (prettyRenderM lp iu (d + 1) (m :: ms) ++ nlI lp iu d ++ ['}']) (m :: ms)
      (nlI_allWS lp iu hlp hiu (d + 1))
      (wf_pretty_wsm lp iu hlp hiu (m :: ms) hM (by simp) (d + 1) d)
    simpa using this

theorem wf_pretty_wse (lp iu : List Char) (hlp : AllWS lp) (hiu : AllWS iu) :
    ∀ (xs : List Jval), WFL xs → xs ≠ [] → ∀ d e,
      WSElems xs (prettyRenderL lp iu d xs ++ nlI lp iu e ++ [']'])
  | _, .cons x _ hx .nil, _ => fun d e => by
    have := WSElems.last x (prettyRender lp iu d x) (nlI lp iu e)
      (wf_pretty_wsr lp iu hlp hiu x hx d) (nlI_allWS lp iu hlp hiu e)
    simpa [prettyRenderL] using this
  | _, .cons x _ hx (.cons y ys hy hys), _ => fun d e => by
    have hrec := wf_pretty_wse lp iu hlp hiu (y :: ys) (.cons y ys hy hys) (by simp) d e
    have := WSElems.cons x (prettyRender lp iu d x) [] (nlI lp iu d) (y :: ys)
      (prettyRenderL lp iu d (y :: ys) ++ nlI lp iu e ++ [']'])
      (wf_pretty_wsr lp iu hlp hiu x hx d) allWS_nil
      (nlI_allWS lp iu hlp hiu d) hrec
    rw [prettyRenderL_cons lp iu d x (y :: ys) (by simp)]
    simpa using this

theorem wf_pretty_wsm (lp iu : List Char) (hlp : AllWS lp) (hiu : AllWS iu) :
    ∀ (ms : List (List Char × Jval)), WFM ms → ms ≠ [] → ∀ d e,
      WSMembers ms (prettyRenderM lp iu d ms ++ nlI lp iu e ++ ['}'])
  | _, .cons k v _ hk hv .nil, _ => fun d e => by
    have := WSMembers.last k [] [' '] v (prettyRender lp iu d v) (nlI lp iu e)
      hk allWS_nil allWS_space (wf_pretty_wsr lp iu hlp hiu v hv d)
      (nlI_allWS lp iu hlp hiu e)
    simpa [prettyRenderM] using this
  | _, .cons k v _ hk hv (.cons k2 v2 ms2 hk2 hv2 hms2), _ => fun d e => by
    have hrec := wf_pretty_wsm lp iu hlp hiu ((k2, v2) :: ms2)
      (.cons k2 v2 ms2 hk2 hv2 hms2) (by simp) d e
    have := WSMembers.cons k [] [' '] v (prettyRender lp iu d v) [] (nlI lp iu d)
      ((k2, v2) :: ms2) (prettyRenderM lp iu d ((k2, v2) :: ms2) ++ nlI lp iu e ++ ['}'])
      hk allWS_nil allWS_space (wf_pretty_wsr lp iu hlp hiu v hv d) allWS_nil
      (nlI_allWS lp iu hlp hiu d) hrec
    rw [prettyRenderM_cons lp iu d k v ((k2, v2) :: ms2) (by simp)]
    simpa using this
end

mutual
theorem wf_mapify : ∀ (v : Jval), WFv v → WFv (mapify v)
  | _, .null => .null
  | _, .boolean b => .boolean b
  | _, .num lit h => .num lit h
  | _, .str b hb => .str b hb
  | _, .arr xs hL => by
    show WFv (.arr (mapifyL xs))
    exact .arr _ (wf_mapifyL xs hL)
  | _, .obj ms hM => by
    show WFv (.obj (buildMap (mapifyM ms)))
    refine .obj _ (wfm_of_mem _ (fun q hq => ?_))
    rcases mapifyM_mem ms q (buildMap_mem _ _ hq) with ⟨v0, hv0, he⟩
    refine ⟨(wfm_mem ms hM (q.1, v0) hv0).1, ?_⟩
    rw [he]
    exact wf_mapify_mem ms hM v0 q.1 hv0

theorem wf_mapifyL : ∀ (xs : List Jval), WFL xs → WFL (mapifyL xs)
  | _, .nil => .nil
  | _, .cons x xs hx hxs => by
    show WFL (mapify x :: mapifyL xs)
    exact .cons _ _ (wf_mapify x hx) (wf_mapifyL xs hxs)

theorem wf_mapify_mem : ∀ (ms : List (List Char × Jval)), WFM ms → ∀ (v : Jval)
    (k : List Char), (k, v) ∈ ms → WFv (mapify v)
  | _, .nil, v, k, h => by simp at h
  | _, .cons k0 v0 rest hk0 hv0 hrest, v, k, h => by
    rcases List.mem_cons.mp h with h1 | h1
    · injection h1 with h2 h3
      subst h3
      exact wf_mapify v hv0
    · exact wf_mapify_mem rest hrest v k h1
end

mutual
theorem wf_marshal : ∀ (v : Jval), WFv v → WFv (marshalSort v)
  | _, .null => .null
  | _, .boolean b => .boolean b
  | _, .num lit h => .num lit h
  | _, .str b hb => .str b hb
  | _, .arr xs hL => by
    show WFv (.arr (marshalSortWithL id xs))
    exact .arr _ (wf_marshalL xs hL)
  | _, .obj ms hM => by
    show WFv (.obj (insSortKeys (id (marshalSortWithM id ms))))
    refine .obj _ (wfm_of_mem _ (fun q hq => ?_))
    rcases marshalSortWithM_mem id ms q (insSortKeys_mem q _ (by simpa using hq)) with
      ⟨v0, hv0, he⟩
    refine ⟨(wfm_mem ms hM (q.1, v0) hv0).1, ?_⟩
    rw [he]
    exact wf_marshal_mem ms hM v0 q.1 hv0

theorem wf_marshalL : ∀ (xs : List Jval), WFL xs → WFL (marshalSortWithL id xs)
  | _, .nil => .nil
  | _, .cons x xs hx hxs => by
    show WFL (marshalSortWith id x :: marshalSortWithL id xs)
    exact .cons _ _ (wf_marshal x hx) (wf_marshalL xs hxs)

theorem wf_marshal_mem : ∀ (ms : List (List Char × Jval)), WFM ms → ∀ (v : Jval)
    (k : List Char), (k, v) ∈ ms → WFv (marshalSort v)
  | _, .nil, v, k, h => by simp at h
  | _, .cons k0 v0 rest hk0 hv0 hrest, v, k, h => by
    rcases List.mem_cons.mp h with h1 | h1
    · injection h1 with h2 h3
      subst h3
      exact wf_marshal v hv0
    · exact wf_marshal_mem rest hrest v k h1
end

theorem wf_sortPath (v : Jval) (h : WFv v) : WFv (sortPath v) :=
  wf_marshal _ (wf_mapify v h)

/-! ### Bridges: spans, the document parser and the byte machines -/

theorem valStop_nil (v : Jval) : valStop v [] := by
  cases v <;> trivial

theorem parseDoc_wsr (v : Jval) (u : List Char) (h : WSRender v u) : parseDoc u = some v := by
  obtain ⟨c, cs, heq, hws, -, -, -⟩ := wsrender_head v u h
  have ht : takeWS u = ([], u) := by
    rw [takeWS_eq, heq]
    simp [List.takeWhile_cons, List.dropWhile_cons, hws]
  have hpv := parseVal_complete v u h (u.length + 1) [] (by simp) (valStop_nil v)
  rw [List.append_nil] at hpv
  rw [parseDoc, ht]
  dsimp only
  rw [hpv]
  simp [skipWS]

theorem goCompact_wsr (v : Jval) (u : List Char) (h : WSRender v u) :
    goCompact u = some (compactRender v) := by
  have hc := compact_wsr v u h []
  rw [List.append_nil] at hc
  rw [goCompact, parseDoc_wsr v u h]
  dsimp only
  rw [hc]
  simp [compactGo]

theorem goIndent_wsr (lp iu : List Char) (v : Jval) (u : List Char) (h : WSRender v u) :
    goIndent lp iu u = some (prettyRender lp iu 0 v) := by
  have hi := indent_wsr lp iu v u h 0 []
  rw [List.append_nil] at hi
  rw [goIndent, parseDoc_wsr v u h]
  dsimp only
  rw [hi]
  simp [indentGo]

theorem decodeOne_val (s : List Char) (v : Jval) (sp rest : List Char)
    (h : decodeOne s = .val v sp rest) :
    WSRender v sp ∧ skipWS s = sp ++ rest := by
  rw [decodeOne] at h
  cases hsk : skipWS s with
  | nil => rw [hsk] at h; simp at h
  | cons c cs =>
    rw [hsk] at h
    dsimp only at h
    cases hp : parseVal ((c :: cs).length + 1) (c :: cs) with
    | none => rw [hp] at h; simp at h
    | some r =>
      match r with
      | (v2, sp2, rest2) =>
        rw [hp] at h
        dsimp only at h
        injection h with hv hsp hrest
        subst hv hsp hrest
        obtain ⟨hs, hr⟩ := (parse_sound ((c :: cs).length + 1)).1 (c :: cs) v2 sp2 rest2 hp
        exact ⟨hr, hs⟩

/-! ### Last characters of renderings -/

theorem getLast?_mem (l : List Char) (c : Char) (h : l.getLast? = some c) : c ∈ l := by
  induction l with
  | nil => simp at h
  | cons a as ih =>
    cases as with
    | nil =>
      simp [List.getLast?] at h
      simp [h]
    | cons b bs =>
      rw [List.getLast?_cons_cons] at h
      simp [ih h]

theorem compactRender_last (v : Jval) (h : WFv v) :
    compactRender v ≠ [] ∧ ∀ c, (compactRender v).getLast? = some c → c ≠ '\n' := by
  cases h with
  | null => refine ⟨by simp [compactRender], ?_⟩; intro c hc; simp [compactRender] at hc; subst hc; decide
  | boolean b =>
    cases b with
    | true => refine ⟨by simp [compactRender], ?_⟩; intro c hc; simp [compactRender] at hc; subst hc; decide
    | false => refine ⟨by simp [compactRender], ?_⟩; intro c hc; simp [compactRender] at hc; subst hc; decide
  | num lit hl =>
    obtain ⟨-, hshape⟩ := parseNum_sound lit lit [] (by simpa using hl)
    obtain ⟨hne, hchars⟩ := numShape_chars lit hshape
    refine ⟨hne, fun c hc he => ?_⟩
    have hmem : c ∈ lit := getLast?_mem lit c hc
    have hplain := numExt_plain c (hchars c hmem)
    rw [he] at hplain
    exact absurd hplain.1 (by decide)
  | str b hb =>
    rw [show compactRender (Jval.str b) = '"' :: b ++ ['"'] from rfl]
    refine ⟨by simp, fun c hc => ?_⟩
    rw [getLast?_app_of_ne_nil ('"' :: b) ['"'] (by simp)] at hc
    simp at hc
    subst hc
    decide
  | arr xs hL =>
    rw [show compactRender (Jval.arr xs) = '[' :: compactRenderL xs ++ [']'] from rfl]
    refine ⟨by simp, fun c hc => ?_⟩
    rw [getLast?_app_of_ne_nil ('[' :: compactRenderL xs) [']'] (by simp)] at hc
    simp at hc
    subst hc
    decide
  | obj ms hM =>
    rw [show compactRender (Jval.obj ms) = '{' :: compactRenderM ms ++ ['}'] from rfl]
    refine ⟨by simp, fun c hc => ?_⟩
    rw [getLast?_app_of_ne_nil ('{' :: compactRenderM ms) ['}'] (by simp)] at hc
    simp at hc
    subst hc
    decide

theorem prettyRender_last (lp iu : List Char) (d : Nat) (v : Jval) (h : WFv v) :
    prettyRender lp iu d v ≠ [] ∧
      ∀ c, (prettyRender lp iu d v).getLast? = some c → c ≠ '\n' := by
  cases h with
  | null => refine ⟨by simp [prettyRender], ?_⟩; intro c hc; simp [prettyRender] at hc; subst hc; decide
  | boolean b =>
    cases b with
    | true => refine ⟨by simp [prettyRender], ?_⟩; intro c hc; simp [prettyRender] at hc; subst hc; decide
    | false => refine ⟨by simp [prettyRender], ?_⟩; intro c hc; simp [prettyRender] at hc; subst hc; decide
  | num lit hl =>
    obtain ⟨-, hshape⟩ := parseNum_sound lit lit [] (by simpa using hl)
    obtain ⟨hne, hchars⟩ := numShape_chars lit hshape
    refine ⟨hne, fun c hc he => ?_⟩
    have hmem : c ∈ lit := getLast?_mem lit c hc
    have hplain := numExt_plain c (hchars c hmem)
    rw [he] at hplain
    exact absurd hplain.1 (by decide)
  | str b hb =>
    rw [show prettyRender lp iu d (Jval.str b) = '"' :: b ++ ['"'] from rfl]
    refine ⟨by simp, fun c hc => ?_⟩
    rw [getLast?_app_of_ne_nil ('"' :: b) ['"'] (by simp)] at hc
    simp at hc
    subst hc
    decide
  | arr xs hL =>
    cases xs with
    | nil =>
      refine ⟨by simp [prettyRender], ?_⟩
      intro c hc
      simp [prettyRender] at hc
      subst hc
      decide
    | cons x xs2 =>
      rw [prettyRender_arr_ne lp iu d (x :: xs2) (by simp)]
      refine ⟨by simp, fun c hc => ?_⟩
      rw [show '[' :: (nlI lp iu (d + 1) ++ prettyRenderL lp iu (d + 1) (x :: xs2)) ++
          nlI lp iu d ++ [']'] =
        ('[' :: (nlI lp iu (d + 1) ++ prettyRenderL lp iu (d + 1) (x :: xs2)) ++
          nlI lp iu d) ++ [']'] from by simp,
        getLast?_app_of_ne_nil _ [']'] (by simp)] at hc
      simp at hc
      subst hc
      decide
  | obj ms hM =>
    cases ms with
    | nil =>
      refine ⟨by simp [prettyRender], ?_⟩
      intro c hc
      simp [prettyRender] at hc
      subst hc
      decide
    | cons m ms2 =>
      rw [prettyRender_obj_ne lp iu d (m :: ms2) (by simp)]
      refine ⟨by simp, fun c hc => ?_⟩
      rw [show '{' :: (nlI lp iu (d + 1) ++ prettyRenderM lp iu (d + 1) (m :: ms2)) ++
          nlI lp iu d ++ ['}'] =
        ('{' :: (nlI lp iu (d + 1) ++ prettyRenderM lp iu (d + 1) (m :: ms2)) ++
          nlI lp iu d) ++ ['}'] from by simp,
        getLast?_app_of_ne_nil _ ['}'] (by simp)] at hc
      simp at hc
      subst hc
      decide

/-! ### Highlighter matcher specifications -/

theorem hlFrac_spec (s fr r : List Char) (h : hlFrac s = (fr, r)) : s = fr ++ r := by
  rw [hlFrac.eq_def] at h
  split at h
  · rename_i cs
    split at h
    · rename_i htw
      injection h with h1 h2
      subst h1 h2
      simp
    · rename_i ds htw
      injection h with h1 h2
      subst h1 h2
      rw [List.cons_append, List.takeWhile_append_dropWhile]
  · injection h with h1 h2
    subst h1 h2
    simp

theorem hlExp_spec (s ex r : List Char) (h : hlExp s = (ex, r)) : s = ex ++ r := by
  rw [hlExp.eq_def] at h
  split at h
  · rename_i c cs
    split at h
    · rename_i hce
      cases cs with
      | nil =>
        dsimp only at h
        injection h with h1 h2
        subst h1 h2
        simp
      | cons s2 cs2 =>
        dsimp only at h
        split at h
        · rename_i hs2
          split at h
          · rename_i htw
            injection h with h1 h2
            subst h1 h2
            simp
          · rename_i ds htw
            injection h with h1 h2
            subst h1 h2
            simp only [List.cons_append]
            rw [List.takeWhile_append_dropWhile]
        · rename_i hs2
          split at h
          · rename_i htw
            injection h with h1 h2
            subst h1 h2
            simp
          · rename_i ds htw
            injection h with h1 h2
            subst h1 h2
            simp only [List.cons_append]
            rw [List.takeWhile_append_dropWhile]
    · injection h with h1 h2
      subst h1 h2
      simp
  · injection h with h1 h2
    subst h1 h2
    simp

theorem matchKey_spec (s out rest : List Char) (h : matchKey s = some (out, rest)) :
    (∃ pre, pre ≠ [] ∧ s = pre ++ rest) ∧ out ≠ [] ∧
      ∀ c, out.getLast? = some c → c ≠ '\n' := by
  rw [matchKey.eq_def] at h
  split at h
  · rename_i cs
    dsimp only at h
    cases hdw : cs.dropWhile (· != '"') with
    | nil => rw [hdw] at h; simp at h
    | cons d ds =>
      rw [hdw] at h
      by_cases hd : d = '"'
      · subst hd
        rw [show (match ('"' :: ds : List Char) with
            | '"' :: cs2 =>
              if cs.takeWhile (· != '"') = [] then none
              else
                match cs2.dropWhile isWS with
                | ':' :: cs3 => some (keyColor ++ '"' :: cs.takeWhile (· != '"') ++ '"' ::
                    colorReset ++ [':'], cs3)
                | _ => none
            | _ => none) =
          (if cs.takeWhile (· != '"') = [] then none
           else
             match ds.dropWhile isWS with
             | ':' :: cs3 => some (keyColor ++ '"' :: cs.takeWhile (· != '"') ++ '"' ::
                 colorReset ++ [':'], cs3)
             | _ => none) from rfl] at h
        split at h
        · simp at h
        · rename_i hk
          cases hdw2 : ds.dropWhile isWS with
          | nil => rw [hdw2] at h; simp at h
          | cons e es =>
            rw [hdw2] at h
            by_cases he : e = ':'
            · subst he
              rw [show (match (':' :: es : List Char) with
                  | ':' :: cs3 => some (keyColor ++ '"' :: cs.takeWhile (· != '"') ++ '"' ::
                      colorReset ++ [':'], cs3)
                  | _ => none) =
                some (keyColor ++ '"' :: cs.takeWhile (· != '"') ++ '"' ::
                  colorReset ++ [':'], es) from rfl] at h
              injection h with h1
              injection h1 with hout hrest
              subst hout hrest
              constructor
              · refine ⟨'"' :: cs.takeWhile (· != '"') ++ '"' ::
                  ds.takeWhile isWS ++ [':'], by simp, ?_⟩
                have hcs : cs = cs.takeWhile (· != '"') ++ '"' :: ds := by
                  conv_lhs => rw [← List.takeWhile_append_dropWhile (p := (· != '"')) (l := cs)]
                  rw [hdw]
                have hds : ds = ds.takeWhile isWS ++ ':' :: es := by
                  conv_lhs => rw [← List.takeWhile_append_dropWhile (p := isWS) (l := ds)]
                  rw [hdw2]
                rw [List.cons_append]
                conv_lhs => rw [hcs]
                conv_lhs => rw [hds]
                simp
              · constructor
                · simp [keyColor, colorBlue, colorBold]
                · intro c hc
                  rw [show keyColor ++ '"' :: cs.takeWhile (· != '"') ++ '"' ::
                      colorReset ++ [':'] =
                    (keyColor ++ '"' :: cs.takeWhile (· != '"') ++ '"' ::
                      colorReset) ++ [':'] from by simp] at hc
                  rw [getLast?_app_of_ne_nil _ [':'] (by simp)] at hc
                  simp at hc
                  subst hc
                  decide
            · rw [show (match (e :: es : List Char) with
                  | ':' :: cs3 => some (keyColor ++ '"' :: cs.takeWhile (· != '"') ++ '"' ::
                      colorReset ++ [':'], cs3)
                  | _ => none) = (none : Option (List Char × List Char)) from by
                rw [show (e :: es : List Char) = e :: es from rfl]
                split
                · rename_i heq
                  injection heq with he1
                  exact absurd he1 he
                · rfl] at h
              simp at h
      · rw [show (match (d :: ds : List Char) with
            | '"' :: cs2 =>
              if cs.takeWhile (· != '"') = [] then none
              else
                match cs2.dropWhile isWS with
                | ':' :: cs3 => some (keyColor ++ '"' :: cs.takeWhile (· != '"') ++ '"' ::
                    colorReset ++ [':'], cs3)
                | _ => none
            | _ => none) = (none : Option (List Char × List Char)) from by
          split
          · rename_i heq
            injection heq with he1
            exact absurd he1 hd
          · rfl] at h
        simp at h
  · simp at h

theorem lastne_app (o A B : List Char) (hB : B ≠ []) (he : o = A ++ B)
    (hb : ∀ c, B.getLast? = some c → c ≠ '\n') :
    ∀ c, o.getLast? = some c → c ≠ '\n' := by
  intro c hc
  rw [he, getLast?_app_of_ne_nil A B hB] at hc
  exact hb c hc

theorem reset_last : ∀ c, colorReset.getLast? = some c → c ≠ '\n' := by
  intro c hc
  simp [colorReset] at hc
  subst hc
  decide

theorem matchStr_spec (s out rest : List Char) (h : matchStr s = some (out, rest)) :
    (∃ pre, pre ≠ [] ∧ s = pre ++ rest) ∧ out ≠ [] ∧
      ∀ c, out.getLast? = some c → c ≠ '\n' := by
  rw [matchStr.eq_def] at h
  split at h
  · rename_i cs
    dsimp only at h
    split at h
    · rename_i cs2 heq
      split at h
      · rename_i cs3 heq2
        injection h with h1
        injection h1 with hout hrest
        subst hout hrest
        refine ⟨⟨':' :: cs.takeWhile isWS ++ '"' :: cs2.takeWhile (· != '"') ++ ['"'],
          by simp, ?_⟩, by simp, ?_⟩
        · have hcs : cs = cs.takeWhile isWS ++ '"' :: cs2 := by
            conv_lhs => rw [← List.takeWhile_append_dropWhile (p := isWS) (l := cs)]
            rw [heq]
          have hcs2 : cs2 = cs2.takeWhile (· != '"') ++ '"' :: cs3 := by
            conv_lhs => rw [← List.takeWhile_append_dropWhile (p := (· != '"')) (l := cs2)]
            rw [heq2]
          rw [List.cons_append]
          conv_lhs => rw [hcs]
          conv_lhs => rw [hcs2]
          simp
        · exact lastne_app _ (':' :: cs.takeWhile isWS ++ stringColor ++ '"' ::
            cs2.takeWhile (· != '"') ++ ['"']) colorReset (by simp [colorReset])
            (by simp) reset_last
      · simp at h
    · simp at h
  · simp at h

theorem matchNum_spec (s out rest : List Char) (h : matchNum s = some (out, rest)) :
    (∃ pre, pre ≠ [] ∧ s = pre ++ rest) ∧ out ≠ [] ∧
      ∀ c, out.getLast? = some c → c ≠ '\n' := by
  rw [matchNum.eq_def] at h
  split at h
  · rename_i cs
    dsimp only at h
    split at h
    · simp at h
    · rename_i ds hds
      injection h with h1
      injection h1 with hout hrest
      subst hout hrest
      refine ⟨⟨':' :: cs.takeWhile isWS ++
        ((cs.dropWhile isWS).takeWhile Char.isDigit ++
          (hlFrac ((cs.dropWhile isWS).dropWhile Char.isDigit)).1 ++
          (hlExp (hlFrac ((cs.dropWhile isWS).dropWhile Char.isDigit)).2).1),
        by simp, ?_⟩, by simp, ?_⟩
      · have hcs : cs = cs.takeWhile isWS ++ cs.dropWhile isWS :=
          (List.takeWhile_append_dropWhile isWS cs).symm
        have ht : cs.dropWhile isWS = (cs.dropWhile isWS).takeWhile Char.isDigit ++
            (cs.dropWhile isWS).dropWhile Char.isDigit :=
          (List.takeWhile_append_dropWhile Char.isDigit (cs.dropWhile isWS)).symm
        have h2 := hlFrac_spec ((cs.dropWhile isWS).dropWhile Char.isDigit)
          (hlFrac ((cs.dropWhile isWS).dropWhile Char.isDigit)).1
          (hlFrac ((cs.dropWhile isWS).dropWhile Char.isDigit)).2 rfl
        have h3 := hlExp_spec (hlFrac ((cs.dropWhile isWS).dropWhile Char.isDigit)).2
          (hlExp (hlFrac ((cs.dropWhile isWS).dropWhile Char.isDigit)).2).1
          (hlExp (hlFrac ((cs.dropWhile isWS).dropWhile Char.isDigit)).2).2 rfl
        rw [List.cons_append]
        conv_lhs => rw [hcs, ht, h2, h3]
        simp
      · exact lastne_app _ (':' :: cs.takeWhile isWS ++ numberColor ++
          ((cs.dropWhile isWS).takeWhile Char.isDigit ++
            (hlFrac ((cs.dropWhile isWS).dropWhile Char.isDigit)).1 ++
            (hlExp (hlFrac ((cs.dropWhile isWS).dropWhile Char.isDigit)).2).1))
          colorReset (by simp [colorReset]) (by simp) reset_last
  · simp at h

theorem matchBool_spec (s out rest : List Char) (h : matchBool s = some (out, rest)) :
    (∃ pre, pre ≠ [] ∧ s = pre ++ rest) ∧ out ≠ [] ∧
      ∀ c, out.getLast? = some c → c ≠ '\n' := by
  rw [matchBool.eq_def] at h
  split at h
  · rename_i cs
    dsimp only at h
    split at h
    · rename_i rest2 heq
      injection h with h1
      injection h1 with hout hrest
      subst hout hrest
      refine ⟨⟨':' :: cs.takeWhile isWS ++ ['t', 'r', 'u', 'e'], by simp, ?_⟩, by simp, ?_⟩
      · have hcs : cs = cs.takeWhile isWS ++ cs.dropWhile isWS :=
          (List.takeWhile_append_dropWhile isWS cs).symm
        rw [List.cons_append]
        conv_lhs => rw [hcs, heq]
        simp
      · intro c hc
        rw [show ':' :: cs.takeWhile isWS ++ boolColor ++ ['t', 'r', 'u', 'e'] ++ colorReset =
          (':' :: cs.takeWhile isWS ++ boolColor ++ ['t', 'r', 'u', 'e']) ++ colorReset
            from by simp] at hc
        rw [getLast?_app_of_ne_nil _ colorReset (by simp [colorReset])] at hc
        simp [colorReset] at hc
        subst hc
        decide
    · rename_i rest2 heq
      injection h with h1
      injection h1 with hout hrest
      subst hout hrest
      refine ⟨⟨':' :: cs.takeWhile isWS ++ ['f', 'a', 'l', 's', 'e'], by simp, ?_⟩,
        by simp, ?_⟩
      · have hcs : cs = cs.takeWhile isWS ++ cs.dropWhile isWS :=
          (List.takeWhile_append_dropWhile isWS cs).symm
        rw [List.cons_append]
        conv_lhs => rw [hcs, heq]
        simp
      · intro c hc
        rw [show ':' :: cs.takeWhile isWS ++ boolColor ++ ['f', 'a', 'l', 's', 'e'] ++
            colorReset =
          (':' :: cs.takeWhile isWS ++ boolColor ++ ['f', 'a', 'l', 's', 'e']) ++ colorReset
            from by simp] at hc
        rw [getLast?_app_of_ne_nil _ colorReset (by simp [colorReset])] at hc
        simp [colorReset] at hc
        subst hc
        decide
    · simp at h
  · simp at h

theorem matchNull_spec (s out rest : List Char) (h : matchNull s = some (out, rest)) :
    (∃ pre, pre ≠ [] ∧ s = pre ++ rest) ∧ out ≠ [] ∧
      ∀ c, out.getLast? = some c → c ≠ '\n' := by
  rw [matchNull.eq_def] at h
  split at h
  · rename_i cs
    dsimp only at h
    split at h
    · rename_i rest2 heq
      injection h with h1
      injection h1 with hout hrest
      subst hout hrest
      refine ⟨⟨':' :: cs.takeWhile isWS ++ ['n', 'u', 'l', 'l'], by simp, ?_⟩, by simp, ?_⟩
      · have hcs : cs = cs.takeWhile isWS ++ cs.dropWhile isWS :=
          (List.takeWhile_append_dropWhile isWS cs).symm
        rw [List.cons_append]
        conv_lhs => rw [hcs, heq]
        simp
      · intro c hc
        rw [show ':' :: cs.takeWhile isWS ++ nullColor ++ ['n', 'u', 'l', 'l'] ++ colorReset =
          (':' :: cs.takeWhile isWS ++ nullColor ++ ['n', 'u', 'l', 'l']) ++ colorReset
            from by simp] at hc
        rw [getLast?_app_of_ne_nil _ colorReset (by simp [colorReset])] at hc
        simp [colorReset] at hc
        subst hc
        decide
    · simp at h
  · simp at h

/-! ### Generic pass lemmas -/

theorem passGen_nil (m : List Char → Option (List Char × List Char)) (fuel : Nat) :
    passGen m fuel [] = [] := by
  cases fuel <;> rfl

theorem mspec_rest_len (m : List Char → Option (List Char × List Char)) (hm : MSpec m)
    (s out rest : List Char) (h : m s = some (out, rest)) : rest.length < s.length := by
  obtain ⟨⟨pre, hpre, hsplit⟩, -, -⟩ := hm s out rest h
  rw [hsplit, List.length_append]
  cases pre with
  | nil => exact absurd rfl hpre
  | cons p ps => simp

theorem passGen_fuel (m : List Char → Option (List Char × List Char)) (hm : MSpec m) :
    ∀ (n : Nat) (s : List Char) (fuel1 fuel2 : Nat), s.length ≤ n → s.length ≤ fuel1 →
      s.length ≤ fuel2 → passGen m fuel1 s = passGen m fuel2 s := by
  intro n
  induction n with
  | zero =>
    intro s fuel1 fuel2 hn h1 h2
    have : s = [] := List.length_eq_zero.mp (Nat.le_antisymm hn (Nat.zero_le _))
    subst this
    rw [passGen_nil, passGen_nil]
  | succ n ih =>
    intro s fuel1 fuel2 hn h1 h2
    cases s with
    | nil => rw [passGen_nil, passGen_nil]
    | cons c cs =>
      simp only [List.length_cons] at hn h1 h2
      match fuel1, h1 with
      | f1 + 1, _ =>
        match fuel2, h2 with
        | f2 + 1, _ =>
          rw [passGen, passGen]
          cases hmc : m (c :: cs) with
          | none =>
            dsimp only
            rw [ih cs f1 f2 (by omega) (by omega) (by omega)]
          | some p =>
            match p with
            | (out, rest) =>
              dsimp only
              have hlen := mspec_rest_len m hm (c :: cs) out rest hmc
              simp only [List.length_cons] at hlen
              rw [ih rest f1 f2 (by omega) (by omega) (by omega)]

theorem passGen_last (m : List Char → Option (List Char × List Char)) (hm : MSpec m) :
    ∀ (n : Nat) (s : List Char) (fuel : Nat), s.length ≤ n → s.length ≤ fuel → s ≠ [] →
      (∀ c, s.getLast? = some c → c ≠ '\n') →
      passGen m fuel s ≠ [] ∧ ∀ c, (passGen m fuel s).getLast? = some c → c ≠ '\n' := by
  intro n
  induction n with
  | zero =>
    intro s fuel hn h1 hne hl
    cases s with
    | nil => exact absurd rfl hne
    | cons c cs => simp at hn
  | succ n ih =>
    intro s fuel hn h1 hne hl
    cases s with
    | nil => exact absurd rfl hne
    | cons c cs =>
      simp only [List.length_cons] at hn h1
      match fuel, h1 with
      | f + 1, _ =>
        rw [passGen]
        cases hmc : m (c :: cs) with
        | none =>
          dsimp only
          by_cases hcs : cs = []
          · subst hcs
            rw [passGen_nil]
            refine ⟨by simp, fun e he => ?_⟩
            simp at he
            subst he
            exact hl c (by simp [List.getLast?])
          · have hlast : cs.getLast? = (c :: cs).getLast? := by
              rw [show (c :: cs) = [c] ++ cs from rfl,
                getLast?_app_of_ne_nil [c] cs hcs]
            obtain ⟨hne2, hl2⟩ := ih cs f (by omega) (by omega) hcs
              (fun e he => hl e (by rw [← hlast]; exact he))
            refine ⟨by simp, fun e he => ?_⟩
            rw [show c :: passGen m f cs = [c] ++ passGen m f cs from rfl,
              getLast?_app_of_ne_nil [c] _ hne2] at he
            exact hl2 e he
        | some p =>
          match p with
          | (out, rest) =>
            dsimp only
            obtain ⟨⟨pre, hpre, hsplit⟩, houtne, houtlast⟩ := hm (c :: cs) out rest hmc
            have hlen := mspec_rest_len m hm (c :: cs) out rest hmc
            simp only [List.length_cons] at hlen
            by_cases hrest : rest = []
            · subst hrest
              rw [passGen_nil]
              refine ⟨by simp [houtne], fun e he => ?_⟩
              rw [List.append_nil] at he
              exact houtlast e he
            · have hlast : rest.getLast? = (c :: cs).getLast? := by
                rw [hsplit, getLast?_app_of_ne_nil pre rest hrest]
              obtain ⟨hne2, hl2⟩ := ih rest f (by omega) (by omega) hrest
                (fun e he => hl e (by rw [← hlast]; exact he))
              refine ⟨by simp [hne2], fun e he => ?_⟩
              rw [getLast?_app_of_ne_nil out _ hne2] at he
              exact hl2 e he

theorem highlight_last (s : List Char) (hne : s ≠ [])
    (hl : ∀ c, s.getLast? = some c → c ≠ '\n') :
    syntaxHighlight s ≠ [] ∧
      ∀ c, (syntaxHighlight s).getLast? = some c → c ≠ '\n' := by
  have mk : MSpec matchKey := fun s o r h => matchKey_spec s o r h
  have ms : MSpec matchStr := fun s o r h => matchStr_spec s o r h
  have mn : MSpec matchNum := fun s o r h => matchNum_spec s o r h
  have mb : MSpec matchBool := fun s o r h => matchBool_spec s o r h
  have mnu : MSpec matchNull := fun s o r h => matchNull_spec s o r h
  have h1 := passGen_last matchKey mk s.length s s.length (le_refl _) (le_refl _) hne hl
  have h2 := passGen_last matchStr ms (passKeyF s).length (passKeyF s) (passKeyF s).length
    (le_refl _) (le_refl _) h1.1 h1.2
  have h3 := passGen_last matchNum mn (passStrF (passKeyF s)).length (passStrF (passKeyF s))
    (passStrF (passKeyF s)).length (le_refl _) (le_refl _) h2.1 h2.2
  have h4 := passGen_last matchBool mb (passNumF (passStrF (passKeyF s))).length
    (passNumF (passStrF (passKeyF s))) (passNumF (passStrF (passKeyF s))).length
    (le_refl _) (le_refl _) h3.1 h3.2
  have h5 := passGen_last matchNull mnu
    (passBoolF (passNumF (passStrF (passKeyF s)))).length
    (passBoolF (passNumF (passStrF (passKeyF s))))
    (passBoolF (passNumF (passStrF (passKeyF s)))).length
    (le_refl _) (le_refl _) h4.1 h4.2
  exact h5

/-! ### The stream loop -/

theorem renderValue_some (cfg : Config) (v : Jval) (span : List Char) (h : WSRender v span) :
    ∃ body, renderValue cfg v span = some body ∧ body ≠ [] ∧
      ∀ c, body.getLast? = some c → c ≠ '\n' := by
  have hwf := wsr_wf v span h
  rw [renderValue]
  by_cases hs : cfg.sortKeys = true
  · by_cases hc : cfg.compact = true
    · refine ⟨compactRender (sortPath v), by simp [hs, hc], ?_, ?_⟩
      · exact (compactRender_last _ (wf_sortPath v hwf)).1
      · exact (compactRender_last _ (wf_sortPath v hwf)).2
    · refine ⟨prettyRender cfg.linePrefix cfg.indentUnit 0 (sortPath v),
        by simp [hs, hc], ?_, ?_⟩
      · exact (prettyRender_last _ _ 0 _ (wf_sortPath v hwf)).1
      · exact (prettyRender_last _ _ 0 _ (wf_sortPath v hwf)).2
  · by_cases hc : cfg.compact = true
    · refine ⟨compactRender v, ?_, (compactRender_last v hwf).1, (compactRender_last v hwf).2⟩
      simp [hs, hc, goCompact_wsr v span h]
    · refine ⟨prettyRender cfg.linePrefix cfg.indentUnit 0 v, ?_,
        (prettyRender_last _ _ 0 v hwf).1, (prettyRender_last _ _ 0 v hwf).2⟩
      simp [hs, hc, goIndent_wsr cfg.linePrefix cfg.indentUnit v span h]

theorem runLoop_spec (cfg : Config) (hval : cfg.validate = false) :
    ∀ (fuel : Nat) (s : List Char) (count : Nat),
      (runLoop cfg fuel s count).chunks.length = (decodeList fuel s).1.length ∧
      (runLoop cfg fuel s count).ok = (decodeList fuel s).2 ∧
      (∀ ch ∈ (runLoop cfg fuel s count).chunks,
        ∃ body, ch = body ++ ['\n'] ∧ body ≠ [] ∧
          ∀ c, body.getLast? = some c → c ≠ '\n') := by
  intro fuel
  induction fuel with
  | zero =>
    intro s count
    refine ⟨by simp [runLoop, decodeList], by simp [runLoop, decodeList], ?_⟩
    intro ch hch
    simp [runLoop] at hch
  | succ f ih =>
    intro s count
    rw [runLoop, decodeList]
    cases hd : decodeOne s with
    | eof => exact ⟨by simp, by simp, by intro ch hch; simp at hch⟩
    | err => exact ⟨by simp, by simp, by intro ch hch; simp at hch⟩
    | val v sp rest =>
      dsimp only
      rw [hval]
      simp only [Bool.false_eq_true, if_false]
      obtain ⟨hr, -⟩ := decodeOne_val s v sp rest hd
      obtain ⟨body, hbody, hbne, hblast⟩ := renderValue_some cfg v sp hr
      rw [hbody]
      dsimp only
      obtain ⟨h1, h2, h3⟩ := ih rest (count + 1)
      have hout : (if cfg.colorize then syntaxHighlight body else body) ≠ [] ∧
          ∀ c, ((if cfg.colorize then syntaxHighlight body else body)).getLast? = some c →
            c ≠ '\n' := by
        by_cases hcol : cfg.colorize = true
        · simp only [hcol, if_true]
          exact highlight_last body hbne hblast
        · simp only [hcol, Bool.false_eq_true, if_false]
          exact ⟨hbne, hblast⟩
      refine ⟨?_, ?_, ?_⟩
      · cases hdl : decodeList f rest with
        | mk l ok =>
          rw [hdl] at h1
          simp [h1]
      · cases hdl : decodeList f rest with
        | mk l ok =>
          rw [hdl] at h2
          simp [h2]
      · intro ch hch
        simp only [List.mem_cons] at hch
        rcases hch with rfl | hch2
        · exact ⟨_, rfl, hout.1, hout.2⟩
        · exact h3 ch hch2

theorem runLoop_validate (cfg : Config) (hval : cfg.validate = true) :
    ∀ (fuel : Nat) (s : List Char) (count : Nat),
      (runLoop cfg fuel s count).chunks = [] ∧
      (runLoop cfg fuel s count).ok = (decodeList fuel s).2 ∧
      (runLoop cfg fuel s count).summary =
        (if (decodeList fuel s).2 then some (count + (decodeList fuel s).1.length)
         else none) := by
  intro fuel
  induction fuel with
  | zero =>
    intro s count
    exact ⟨by simp [runLoop], by simp [runLoop, decodeList], by simp [runLoop, decodeList]⟩
  | succ f ih =>
    intro s count
    rw [runLoop, decodeList]
    cases hd : decodeOne s with
    | eof => exact ⟨by simp, by simp, by simp [hval]⟩
    | err => exact ⟨by simp, by simp, by simp⟩
    | val v sp rest =>
      dsimp only
      rw [hval]
      simp only [if_true]
      obtain ⟨hc, hok, hsum⟩ := ih rest (count + 1)
      cases hdl : decodeList f rest with
      | mk l ok =>
        rw [hdl] at hok hsum
        refine ⟨hc, by simp [hok], ?_⟩
        rw [hsum]
        cases ok with
        | true => simp [Nat.add_comm, Nat.add_assoc, Nat.add_left_comm]
        | false => simp

/-! ### Claim theorems -/

/-- C1: with sort-keys enabled, the rendered tree is `sortPath` of the decoded
value: every object's member keys are in non-decreasing byte-wise lexicographic
order at every nesting depth, and every array's element order is unchanged from
the input. -/
theorem c1_sort_keys_order (v : Jval) :
    sortedB (sortPath v) = true ∧ arrPresB v (sortPath v) = true :=
  ⟨sortedB_marshalSort (mapify v), arrPres_sortPath v⟩

/-- C9: the output of the run does not depend on Go's randomized map iteration
order: marshalling a decoded map tree through any two iteration orders (any
permutations of the member lists) produces the same tree, because the keys are
sorted at marshal time.  With the configuration and input fixed, the rest of
the pipeline is a pure function, so two runs emit identical bytes. -/
theorem c9_deterministic
    (σ1 σ2 : List (List Char × Jval) → List (List Char × Jval))
    (hσ1 : ∀ l, List.Perm (σ1 l) l) (hσ2 : ∀ l, List.Perm (σ2 l) l) (v : Jval) :
    marshalSortWith σ1 (mapify v) = marshalSortWith σ2 (mapify v) :=
  marshalSortWith_det σ1 σ2 hσ1 hσ2 (mapify v) (mapify_mapTree v)

theorem c9_deterministic_witness :
    marshalSortWith List.reverse (mapify (.obj [(['b'], .num ['2']), (['a'], .null)])) =
      marshalSortWith id (mapify (.obj [(['b'], .num ['2']), (['a'], .null)])) :=
  c9_deterministic List.reverse id (fun l => List.reverse_perm l)
    (fun l => List.Perm.refl l) (.obj [(['b'], .num ['2']), (['a'], .null)])

/-- C10: every raw span the decoder returns is a complete well-formed JSON
value, on which `json.Compact` and `json.Indent` always succeed: the fatal
"Compact error" / "Encoding error" exits of the order-preserving path are
unreachable. -/
theorem c10_rerender_total (s : List Char) (v : Jval) (span rest : List Char)
    (h : decodeOne s = .val v span rest) :
    (goCompact span).isSome = true ∧
      ∀ lp iu, (goIndent lp iu span).isSome = true := by
  obtain ⟨hr, -⟩ := decodeOne_val s v span rest h
  refine ⟨?_, fun lp iu => ?_⟩
  · rw [goCompact_wsr v span hr]
    rfl
  · rw [goIndent_wsr lp iu v span hr]
    rfl

theorem c10_rerender_total_witness :
    (goCompact (toL "\x7b\"a\":1\x7d")).isSome = true ∧
      ∀ lp iu, (goIndent lp iu (toL "\x7b\"a\":1\x7d")).isSome = true :=
  c10_rerender_total (toL "\x7b\"a\":1\x7d") (.obj [(['a'], .num ['1'])])
    (toL "\x7b\"a\":1\x7d") [] (by rfl)

/-- C5: on the order-preserving path with compact mode, the output for a
decoded span is its compact rendering: the same token sequence with the
inter-token whitespace removed, string bodies and number literal texts carried
over byte-for-byte (`WSRender v span` and `WSRender v (compactRender v)` hold
for the same tree `v`, whose leaves store the raw literal text). -/
theorem c5_compact_preserves (s : List Char) (v : Jval) (span rest : List Char)
    (h : decodeOne s = .val v span rest) :
    goCompact span = some (compactRender v) ∧ WSRender v span ∧
      WSRender v (compactRender v) := by
  obtain ⟨hr, -⟩ := decodeOne_val s v span rest h
  exact ⟨goCompact_wsr v span hr, hr, wf_compact_wsr v (wsr_wf v span hr)⟩

theorem c5_compact_preserves_witness :
    goCompact (toL "\x7b\"a\": 1\x7d") =
        some (compactRender (.obj [(['a'], .num ['1'])])) ∧
      WSRender (.obj [(['a'], .num ['1'])]) (toL "\x7b\"a\": 1\x7d") ∧
      WSRender (.obj [(['a'], .num ['1'])])
        (compactRender (.obj [(['a'], .num ['1'])])) :=
  c5_compact_preserves (toL "\x7b\"a\": 1\x7d") (.obj [(['a'], .num ['1'])])
    (toL "\x7b\"a\": 1\x7d") [] (by rfl)

/-- C3: compacting a decoded span, pretty-printing the compacted bytes, and
compacting again round-trips: both compactions produce exactly the compact
rendering of the value (whitespace-insensitively equal byte forms), for any
all-whitespace line prefix and indent unit. -/
theorem c3_compact_idempotent (s : List Char) (v : Jval) (span rest : List Char)
    (lp iu : List Char) (hlp : AllWS lp) (hiu : AllWS iu)
    (h : decodeOne s = .val v span rest) :
    goCompact span = some (compactRender v) ∧
      goIndent lp iu (compactRender v) = some (prettyRender lp iu 0 v) ∧
      goCompact (prettyRender lp iu 0 v) = some (compactRender v) := by
  obtain ⟨hr, -⟩ := decodeOne_val s v span rest h
  have hwf := wsr_wf v span hr
  refine ⟨goCompact_wsr v span hr, ?_, ?_⟩
  · exact goIndent_wsr lp iu v _ (wf_compact_wsr v hwf)
  · exact goCompact_wsr v _ (wf_pretty_wsr lp iu hlp hiu v hwf 0)

theorem c3_compact_idempotent_witness :
    goCompact (toL "[1, \x7b\"k\": \"v\"\x7d ]") =
        some (compactRender (.arr [.num ['1'], .obj [(['k'], .str ['v'])]])) ∧
      goIndent [] [' ', ' ']
          (compactRender (.arr [.num ['1'], .obj [(['k'], .str ['v'])]])) =
        some (prettyRender [] [' ', ' '] 0
          (.arr [.num ['1'], .obj [(['k'], .str ['v'])]])) ∧
      goCompact (prettyRender [] [' ', ' '] 0
          (.arr [.num ['1'], .obj [(['k'], .str ['v'])]])) =
        some (compactRender (.arr [.num ['1'], .obj [(['k'], .str ['v'])]])) :=
  c3_compact_idempotent (toL "[1, \x7b\"k\": \"v\"\x7d ]")
    (.arr [.num ['1'], .obj [(['k'], .str ['v'])]])
    (toL "[1, \x7b\"k\": \"v\"\x7d ]") [] [] [' ', ' '] allWS_nil
    (by intro c hc; simp at hc; subst hc; decide) (by rfl)

/-- C2: with validation off, a stream of K whitespace-separated valid values
produces exactly K output chunks, one per value, each of the form
`body ++ "\n"` where the body itself does not end in a newline (exactly one
trailing newline, regardless of the input separators); on a malformed stream
the loop stops at the first error, keeping exactly the chunks of the values
decoded before it. -/
theorem c2_stream_chunks (cfg : Config) (hval : cfg.validate = false)
    (input : List Char) :
    (runMain cfg input).chunks.length = (decodeStream input).1.length ∧
      (runMain cfg input).ok = (decodeStream input).2 ∧
      ∀ ch ∈ (runMain cfg input).chunks, ∃ body, ch = body ++ ['\n'] ∧ body ≠ [] ∧
        ∀ c, body.getLast? = some c → c ≠ '\n' :=
  runLoop_spec cfg hval (input.length + 1) input 0

theorem c2_stream_chunks_witness :
    (runMain ⟨true, false, false, false, [], []⟩ (toL "\x7b\"a\":1\x7d\n\n5")).chunks.length =
        (decodeStream (toL "\x7b\"a\":1\x7d\n\n5")).1.length ∧
      (runMain ⟨true, false, false, false, [], []⟩ (toL "\x7b\"a\":1\x7d\n\n5")).ok =
        (decodeStream (toL "\x7b\"a\":1\x7d\n\n5")).2 ∧
      ∀ ch ∈ (runMain ⟨true, false, false, false, [], []⟩
          (toL "\x7b\"a\":1\x7d\n\n5")).chunks,
        ∃ body, ch = body ++ ['\n'] ∧ body ≠ [] ∧
          ∀ c, body.getLast? = some c → c ≠ '\n' :=
  c2_stream_chunks ⟨true, false, false, false, [], []⟩ rfl (toL "\x7b\"a\":1\x7d\n\n5")

/-- C6: with validate-only enabled no JSON output is written (the chunk list
is empty); a clean stream reports a success summary holding the count of
decoded values, and a malformed stream reports no summary and ends not-ok. -/
theorem c6_validate_mode (cfg : Config) (hval : cfg.validate = true)
    (input : List Char) :
    (runMain cfg input).chunks = [] ∧
      ((decodeStream input).2 = true →
        (runMain cfg input).summary = some (decodeStream input).1.length ∧
          (runMain cfg input).ok = true) ∧
      ((decodeStream input).2 = false →
        (runMain cfg input).summary = none ∧ (runMain cfg input).ok = false) := by
  obtain ⟨h1, h2, h3⟩ := runLoop_validate cfg hval (input.length + 1) input 0
  rw [runMain, decodeStream]
  refine ⟨h1, fun hok => ?_, fun hok => ?_⟩
  · rw [hok] at h3
    simp only [if_true] at h3
    rw [h3, h2, hok]
    simp
  · rw [hok] at h3
    simp only [Bool.false_eq_true, if_false] at h3
    rw [h3, h2, hok]
    simp

theorem c6_validate_mode_witness :
    (runMain ⟨false, false, true, false, [], [' ', ' ']⟩
        (toL "\x7b\"a\":1\x7d\n\x7b\"b\":2\x7d")).chunks = [] ∧
      ((decodeStream (toL "\x7b\"a\":1\x7d\n\x7b\"b\":2\x7d")).2 = true →
        (runMain ⟨false, false, true, false, [], [' ', ' ']⟩
            (toL "\x7b\"a\":1\x7d\n\x7b\"b\":2\x7d")).summary =
          some (decodeStream (toL "\x7b\"a\":1\x7d\n\x7b\"b\":2\x7d")).1.length ∧
          (runMain ⟨false, false, true, false, [], [' ', ' ']⟩
            (toL "\x7b\"a\":1\x7d\n\x7b\"b\":2\x7d")).ok = true) ∧
      ((decodeStream (toL "\x7b\"a\":1\x7d\n\x7b\"b\":2\x7d")).2 = false →
        (runMain ⟨false, false, true, false, [], [' ', ' ']⟩
            (toL "\x7b\"a\":1\x7d\n\x7b\"b\":2\x7d")).summary = none ∧
          (runMain ⟨false, false, true, false, [], [' ', ' ']⟩
            (toL "\x7b\"a\":1\x7d\n\x7b\"b\":2\x7d")).ok = false) :=
  c6_validate_mode ⟨false, false, true, false, [], [' ', ' ']⟩ rfl
    (toL "\x7b\"a\":1\x7d\n\x7b\"b\":2\x7d")

/-! ### Stripping ANSI codes -/

theorem dropToM_len (s : List Char) : (dropToM s).length ≤ s.length := by
  induction s with
  | nil => simp [dropToM]
  | cons c cs ih =>
    rw [dropToM]
    by_cases hc : c = 'm'
    · simp [hc]
    · simp only [hc, Bool.false_eq_true, if_false]
      exact Nat.le_trans ih (by simp)

theorem stripAnsiA_fuel : ∀ (n : Nat) (s : List Char) (f1 f2 : Nat), s.length ≤ n →
    s.length ≤ f1 → s.length ≤ f2 → stripAnsiA f1 s = stripAnsiA f2 s := by
  intro n
  induction n with
  | zero =>
    intro s f1 f2 hn h1 h2
    have : s = [] := List.length_eq_zero.mp (Nat.le_antisymm hn (Nat.zero_le _))
    subst this
    cases f1 <;> cases f2 <;> rfl
  | succ n ih =>
    intro s f1 f2 hn h1 h2
    cases s with
    | nil => cases f1 <;> cases f2 <;> rfl
    | cons c cs =>
      simp only [List.length_cons] at hn h1 h2
      match f1, h1 with
      | g1 + 1, _ =>
        match f2, h2 with
        | g2 + 1, _ =>
          rw [stripAnsiA, stripAnsiA]
          by_cases hc : c = escChar
          · simp only [hc, reduceIte, if_true]
            have hd := dropToM_len cs
            exact ih (dropToM cs) g1 g2 (by omega) (by omega) (by omega)
          · simp only [hc, Bool.false_eq_true, if_false]
            rw [ih cs g1 g2 (by omega) (by omega) (by omega)]

theorem stripAnsi_cons (c : Char) (s : List Char) (hc : ¬(c = escChar)) :
    stripAnsi (c :: s) = c :: stripAnsi s := by
  rw [stripAnsi, stripAnsi]
  simp only [List.length_cons]
  rw [stripAnsiA]
  simp only [hc, Bool.false_eq_true, if_false]

theorem stripAnsi_plain (a s : List Char) (ha : ∀ c ∈ a, ¬(c = escChar)) :
    stripAnsi (a ++ s) = a ++ stripAnsi s := by
  induction a with
  | nil => simp
  | cons c cs ih =>
    rw [List.cons_append, stripAnsi_cons c _ (ha c (by simp)),
      ih (fun e he => ha e (by simp [he]))]
    simp

theorem stripAnsi_nil : stripAnsi [] = [] := rfl

theorem stripAnsi_id (s : List Char) (hs : hasEsc s = false) : stripAnsi s = s := by
  have ha : ∀ c ∈ s, ¬(c = escChar) := by
    intro c hc he
    rw [hasEsc] at hs
    rw [List.any_eq_false] at hs
    exact absurd (by simp [he]) (hs c hc)
  have := stripAnsi_plain s [] ha
  rw [List.append_nil, stripAnsi_nil, List.append_nil] at this
  exact this

theorem stripA_esc (f : Nat) (cs : List Char) :
    stripAnsiA (f + 1) (escChar :: cs) = stripAnsiA f (dropToM cs) := by
  rw [stripAnsiA]
  simp

theorem strip_code4 (c1 c2 : Char) (h1 : ¬(c1 = 'm')) (h2 : ¬(c2 = 'm'))
    (s : List Char) :
    stripAnsi (escChar :: c1 :: c2 :: 'm' :: s) = stripAnsi s := by
  rw [stripAnsi]
  simp only [List.length_cons]
  rw [stripA_esc]
  rw [show dropToM (c1 :: c2 :: 'm' :: s) = s from by
    rw [dropToM]
    simp only [h1, Bool.false_eq_true, if_false]
    rw [dropToM]
    simp only [h2, Bool.false_eq_true, if_false]
    rw [dropToM]
    simp]
  rw [stripAnsi]
  exact stripAnsiA_fuel (s.length + 3) s _ _ (by omega) (by omega) (le_refl _)

theorem strip_code5 (c1 c2 c3 : Char) (h1 : ¬(c1 = 'm')) (h2 : ¬(c2 = 'm'))
    (h3 : ¬(c3 = 'm')) (s : List Char) :
    stripAnsi (escChar :: c1 :: c2 :: c3 :: 'm' :: s) = stripAnsi s := by
  rw [stripAnsi]
  simp only [List.length_cons]
  rw [stripA_esc]
  rw [show dropToM (c1 :: c2 :: c3 :: 'm' :: s) = s from by
    rw [dropToM]
    simp only [h1, Bool.false_eq_true, if_false]
    rw [dropToM]
    simp only [h2, Bool.false_eq_true, if_false]
    rw [dropToM]
    simp only [h3, Bool.false_eq_true, if_false]
    rw [dropToM]
    simp]
  rw [stripAnsi]
  exact stripAnsiA_fuel (s.length + 4) s _ _ (by omega) (by omega) (le_refl _)

theorem stripAnsi_code (a s : List Char) (ha : isColorCode a) :
    stripAnsi (a ++ s) = stripAnsi s := by
  rcases ha with h | h | h | h | h | h | h <;> subst h
  · rw [show colorReset ++ s = escChar :: '[' :: '0' :: 'm' :: s from rfl]
    exact strip_code4 '[' '0' (by decide) (by decide) s
  · rw [show colorRed ++ s = escChar :: '[' :: '3' :: '1' :: 'm' :: s from rfl]
    exact strip_code5 '[' '3' '1' (by decide) (by decide) (by decide) s
  · rw [show colorGreen ++ s = escChar :: '[' :: '3' :: '2' :: 'm' :: s from rfl]
    exact strip_code5 '[' '3' '2' (by decide) (by decide) (by decide) s
  · rw [show colorYellow ++ s = escChar :: '[' :: '3' :: '3' :: 'm' :: s from rfl]
    exact strip_code5 '[' '3' '3' (by decide) (by decide) (by decide) s
  · rw [show colorBlue ++ s = escChar :: '[' :: '3' :: '4' :: 'm' :: s from rfl]
    exact strip_code5 '[' '3' '4' (by decide) (by decide) (by decide) s
  · rw [show colorPurple ++ s = escChar :: '[' :: '3' :: '5' :: 'm' :: s from rfl]
    exact strip_code5 '[' '3' '5' (by decide) (by decide) (by decide) s
  · rw [show colorBold ++ s = escChar :: '[' :: '1' :: 'm' :: s from rfl]
    exact strip_code4 '[' '1' (by decide) (by decide) s

/-! ### Matcher hit and miss lemmas -/

theorem matchKey_none (c : Char) (cs : List Char) (hc : ¬(c = '"')) :
    matchKey (c :: cs) = none := by
  rw [matchKey.eq_def]
  split
  · rename_i cs2 heq
    injection heq with h1 h2
    exact absurd h1 hc
  · rfl

theorem matchStr_none (c : Char) (cs : List Char) (hc : ¬(c = ':')) :
    matchStr (c :: cs) = none := by
  rw [matchStr.eq_def]
  split
  · rename_i cs2 heq
    injection heq with h1 h2
    exact absurd h1 hc
  · rfl

theorem matchNum_none (c : Char) (cs : List Char) (hc : ¬(c = ':')) :
    matchNum (c :: cs) = none := by
  rw [matchNum.eq_def]
  split
  · rename_i cs2 heq
    injection heq with h1 h2
    exact absurd h1 hc
  · rfl

theorem matchBool_none (c : Char) (cs : List Char) (hc : ¬(c = ':')) :
    matchBool (c :: cs) = none := by
  rw [matchBool.eq_def]
  split
  · rename_i cs2 heq
    injection heq with h1 h2
    exact absurd h1 hc
  · rfl

theorem matchNull_none (c : Char) (cs : List Char) (hc : ¬(c = ':')) :
    matchNull (c :: cs) = none := by
  rw [matchNull.eq_def]
  split
  · rename_i cs2 heq
    injection heq with h1 h2
    exact absurd h1 hc
  · rfl

theorem hlFrac_dot (fd rest : List Char) (hfd : fd ≠ [])
    (hfdd : ∀ c ∈ fd, c.isDigit = true)
    (hrest : ∀ c, rest.head? = some c → c.isDigit = false) :
    hlFrac ('.' :: (fd ++ rest)) = ('.' :: fd, rest) := by
  have htw := takeWhile_app Char.isDigit fd rest hfdd hrest
  cases fd with
  | nil => exact absurd rfl hfd
  | cons d dd =>
    rw [show hlFrac ('.' :: (d :: dd ++ rest)) =
      (match (d :: dd ++ rest).takeWhile Char.isDigit with
       | [] => ([], '.' :: (d :: dd ++ rest))
       | ds => ('.' :: ds, (d :: dd ++ rest).dropWhile Char.isDigit)) from rfl]
    rw [htw.1, htw.2]

theorem hlFrac_nodot (s : List Char) (hs : ∀ c, s.head? = some c → ¬(c = '.')) :
    hlFrac s = ([], s) := by
  cases s with
  | nil => rfl
  | cons c cs =>
    rw [hlFrac.eq_def]
    split
    · rename_i cs2 heq
      injection heq with h1 h2
      exact absurd h1 (hs c (by simp))
    · rfl

theorem hlExp_hit (e : Char) (sg ed rest : List Char) (he : e = 'e' ∨ e = 'E')
    (hsg : sg = [] ∨ sg = ['+'] ∨ sg = ['-']) (hed : ed ≠ [])
    (hedd : ∀ c ∈ ed, c.isDigit = true)
    (hrest : ∀ c, rest.head? = some c → c.isDigit = false) :
    hlExp (e :: (sg ++ ed ++ rest)) = (e :: sg ++ ed, rest) := by
  have hee : (e = 'e' || e = 'E') = true := by
    rcases he with rfl | rfl <;> simp
  cases ed with
  | nil => exact absurd rfl hed
  | cons d dd =>
    have hd : d.isDigit = true := hedd d (by simp)
    have htw := takeWhile_app Char.isDigit (d :: dd) rest hedd hrest
    have htw1 : (d :: (dd ++ rest)).takeWhile Char.isDigit = d :: dd := by
      simpa using htw.1
    have htw2 : (d :: (dd ++ rest)).dropWhile Char.isDigit = rest := by
      simpa using htw.2
    have hd1 : ¬(d = '+') := fun h2 => absurd hd (by rw [h2]; decide)
    have hd2 : ¬(d = '-') := fun h2 => absurd hd (by rw [h2]; decide)
    rcases hsg with rfl | rfl | rfl
    · rw [show ([] ++ d :: dd ++ rest : List Char) = d :: (dd ++ rest) from by simp]
      rw [hlExp.eq_def]
      simp only [hee, if_true]
      simp [hd1, hd2, htw1, htw2]
    · rw [show (['+'] ++ d :: dd ++ rest : List Char) = '+' :: (d :: (dd ++ rest)) from by
        simp]
      rw [hlExp.eq_def]
      simp only [hee, if_true]
      simp [htw1, htw2]
    · rw [show (['-'] ++ d :: dd ++ rest : List Char) = '-' :: (d :: (dd ++ rest)) from by
        simp]
      rw [hlExp.eq_def]
      simp only [hee, if_true]
      simp [htw1, htw2]

theorem hlExp_noe (s : List Char)
    (hs : ∀ c, s.head? = some c → ¬(c = 'e') ∧ ¬(c = 'E')) : hlExp s = ([], s) := by
  cases s with
  | nil => rfl
  | cons c cs =>
    have h1 := hs c (by simp)
    have hcf : (c = 'e' || c = 'E') = false := by simp [h1.1, h1.2]
    rw [hlExp.eq_def]
    simp [hcf]

theorem matchKey_hit (k ws post : List Char) (hk : k ≠ [])
    (hkq : ∀ c ∈ k, ¬(c = '"')) (hws : AllWS ws) :
    matchKey ('"' :: (k ++ '"' :: (ws ++ ':' :: post))) =
      some (keyColor ++ '"' :: k ++ '"' :: colorReset ++ [':'], post) := by
  have htk := takeWhile_app (fun x => x != '"') k ('"' :: (ws ++ ':' :: post))
    (fun c hc => by simp [hkq c hc]) (fun c hc => by simp at hc; subst hc; simp)
  have htw := takeWhile_app isWS ws (':' :: post) hws
    (fun c hc => by simp at hc; subst hc; decide)
  rw [matchKey.eq_def]
  split
  · rename_i cs heq
    injection heq with h1 h2
    subst h2
    dsimp only
    rw [htk.1, htk.2]
    split
    · rename_i cs2 heq2
      injection heq2 with h3 h4
      subst h4
      rw [if_neg hk, htw.2]
      split
      · rename_i cs3 heq3
        injection heq3 with h5 h6
        subst h6
        rfl
      · rename_i hno
        exact False.elim (by simpa using hno post)
    · rename_i hno
      exact False.elim (by simpa using hno (ws ++ ':' :: post))
  · rename_i hno
    exact False.elim (by simpa using hno (k ++ '"' :: (ws ++ ':' :: post)))

theorem matchStr_hit (w b post : List Char) (hw : AllWS w)
    (hb : ∀ c ∈ b, ¬(c = '"')) :
    matchStr (':' :: (w ++ '"' :: (b ++ '"' :: post))) =
      some (':' :: w ++ stringColor ++ '"' :: b ++ '"' :: colorReset, post) := by
  have htw := takeWhile_app isWS w ('"' :: (b ++ '"' :: post)) hw
    (fun c hc => by simp at hc; subst hc; decide)
  have htb := takeWhile_app (fun x => x != '"') b ('"' :: post)
    (fun c hc => by simp [hb c hc]) (fun c hc => by simp at hc; subst hc; simp)
  rw [matchStr.eq_def]
  split
  · rename_i cs heq
    injection heq with h1 h2
    subst h2
    dsimp only
    rw [htw.1, htw.2]
    split
    · rename_i cs2 heq2
      injection heq2 with h3 h4
      subst h4
      rw [htb.1, htb.2]
      split
      · rename_i cs3 heq3
        injection heq3 with h5 h6
        subst h6
        rfl
      · rename_i hno
        exact False.elim (by simpa using hno post)
    · rename_i hno
      exact False.elim (by simpa using hno (b ++ '"' :: post))
  · rename_i hno
    exact False.elim (by simpa using hno (w ++ '"' :: (b ++ '"' :: post)))

theorem matchBool_hit (w post : List Char) (hw : AllWS w) :
    matchBool (':' :: (w ++ 't' :: 'r' :: 'u' :: 'e' :: post)) =
      some (':' :: w ++ boolColor ++ ['t', 'r', 'u', 'e'] ++ colorReset, post) ∧
    matchBool (':' :: (w ++ 'f' :: 'a' :: 'l' :: 's' :: 'e' :: post)) =
      some (':' :: w ++ boolColor ++ ['f', 'a', 'l', 's', 'e'] ++ colorReset, post) := by
  have htw1 := takeWhile_app isWS w ('t' :: 'r' :: 'u' :: 'e' :: post) hw
    (fun c hc => by simp at hc; subst hc; decide)
  have htw2 := takeWhile_app isWS w ('f' :: 'a' :: 'l' :: 's' :: 'e' :: post) hw
    (fun c hc => by simp at hc; subst hc; decide)
  constructor
  · rw [matchBool.eq_def]
    split
    · rename_i cs heq
      injection heq with h1 h2
      subst h2
      dsimp only
      rw [htw1.1, htw1.2]
      rfl
    · rename_i hno
      exact False.elim (by simpa using hno (w ++ 't' :: 'r' :: 'u' :: 'e' :: post))
  · rw [matchBool.eq_def]
    split
    · rename_i cs heq
      injection heq with h1 h2
      subst h2
      dsimp only
      rw [htw2.1, htw2.2]
      rfl
    · rename_i hno
      exact False.elim (by simpa using hno (w ++ 'f' :: 'a' :: 'l' :: 's' :: 'e' :: post))

theorem matchNull_hit (w post : List Char) (hw : AllWS w) :
    matchNull (':' :: (w ++ 'n' :: 'u' :: 'l' :: 'l' :: post)) =
      some (':' :: w ++ nullColor ++ ['n', 'u', 'l', 'l'] ++ colorReset, post) := by
  have htw := takeWhile_app isWS w ('n' :: 'u' :: 'l' :: 'l' :: post) hw
    (fun c hc => by simp at hc; subst hc; decide)
  rw [matchNull.eq_def]
  split
  · rename_i cs heq
    injection heq with h1 h2
    subst h2
    dsimp only
    rw [htw.1, htw.2]
    rfl
  · rename_i hno
    exact False.elim (by simpa using hno (w ++ 'n' :: 'u' :: 'l' :: 'l' :: post))

theorem numExt_false_parts (c : Char) (h : numExtChar c = false) :
    c.isDigit = false ∧ ¬(c = '.') ∧ ¬(c = 'e') ∧ ¬(c = 'E') := by
  simp only [numExtChar, Bool.or_eq_false_iff, decide_eq_false_iff_not] at h
  exact ⟨h.1.1.1.1.1, h.1.1.1.1.2, h.1.1.1.2, h.1.1.2⟩

theorem matchNum_hit (w ds fr ex post : List Char) (hw : AllWS w) (hds : ds ≠ [])
    (hdsd : ∀ c ∈ ds, c.isDigit = true)
    (hfr : fr = [] ∨ ∃ fd, fr = '.' :: fd ∧ fd ≠ [] ∧ ∀ c ∈ fd, c.isDigit = true)
    (hex : ex = [] ∨ ∃ e sg ed, (e = 'e' ∨ e = 'E') ∧
      (sg = [] ∨ sg = ['+'] ∨ sg = ['-']) ∧
      ex = e :: sg ++ ed ∧ ed ≠ [] ∧ ∀ c ∈ ed, c.isDigit = true)
    (hpost : ∀ c, post.head? = some c → numExtChar c = false) :
    matchNum (':' :: (w ++ (ds ++ (fr ++ (ex ++ post))))) =
      some (':' :: w ++ numberColor ++ (ds ++ fr ++ ex) ++ colorReset, post) := by
  have hpost_nd : ∀ c, post.head? = some c → c.isDigit = false :=
    fun c hc => (numExt_false_parts c (hpost c hc)).1
  have hexpost_nd : ∀ c, (ex ++ post).head? = some c → c.isDigit = false := by
    intro c hc
    rcases hex with rfl | ⟨e, sg, ed, he, hsg, rfl, hed, hedd⟩
    · exact hpost_nd c (by simpa using hc)
    · simp at hc
      subst hc
      rcases he with rfl | rfl <;> decide
  have hexv : hlExp (ex ++ post) = (ex, post) := by
    rcases hex with rfl | ⟨e, sg, ed, he, hsg, rfl, hed, hedd⟩
    · rw [List.nil_append]
      refine hlExp_noe post (fun c hc => ?_)
      have := numExt_false_parts c (hpost c hc)
      exact ⟨this.2.2.1, this.2.2.2⟩
    · rw [show (e :: sg ++ ed) ++ post = e :: (sg ++ ed ++ post) from by simp]
      exact hlExp_hit e sg ed post he hsg hed hedd hpost_nd
  have hA_head_nd : ∀ c, (fr ++ (ex ++ post)).head? = some c → c.isDigit = false := by
    intro c hc
    rcases hfr with rfl | ⟨fd, rfl, hfd, hfdd⟩
    · exact hexpost_nd c (by simpa using hc)
    · simp at hc
      subst hc
      decide
  have hfrv : hlFrac (fr ++ (ex ++ post)) = (fr, ex ++ post) := by
    rcases hfr with rfl | ⟨fd, rfl, hfd, hfdd⟩
    · rw [List.nil_append]
      refine hlFrac_nodot (ex ++ post) (fun c hc => ?_)
      rcases hex with rfl | ⟨e, sg, ed, he, hsg, rfl, hed, hedd⟩
      · exact (numExt_false_parts c (hpost c (by simpa using hc))).2.1
      · simp at hc
        subst hc
        rcases he with rfl | rfl <;> decide
    · rw [show ('.' :: fd) ++ (ex ++ post) = '.' :: (fd ++ (ex ++ post)) from rfl]
      rw [hlFrac_dot fd (ex ++ post) hfd hfdd hexpost_nd]
  have htds := takeWhile_app Char.isDigit ds (fr ++ (ex ++ post)) hdsd hA_head_nd
  cases ds with
  | nil => exact absurd rfl hds
  | cons d dd =>
    have hd : d.isDigit = true := hdsd d (by simp)
    have hdws : isWS d = false := by
      simp only [isWS, Bool.or_eq_false_iff, decide_eq_false_iff_not]
      exact ⟨⟨⟨ne_of_isDigit d ' ' hd (by decide), ne_of_isDigit d '\t' hd (by decide)⟩,
        ne_of_isDigit d '\n' hd (by decide)⟩, ne_of_isDigit d '\r' hd (by decide)⟩
    have htw := takeWhile_app isWS w (d :: dd ++ (fr ++ (ex ++ post))) hw
      (fun c hc => by simp at hc; subst hc; exact hdws)
    rw [matchNum.eq_def]
    split
    · rename_i cs heq
      injection heq with h1 h2
      subst h2
      dsimp only
      rw [htw.1, htw.2, htds.1, htds.2]
      dsimp only
      rw [hfrv]
      dsimp only
      rw [hexv]
    · rename_i hno
      exact False.elim (by simpa using hno (w ++ (d :: dd ++ (fr ++ (ex ++ post)))))

theorem passGen_skip (m : List Char → Option (List Char × List Char))
    (trig : Char → Bool) (hm : ∀ c cs, trig c = false → m (c :: cs) = none) :
    ∀ (a rest : List Char) (fuel : Nat), (∀ c ∈ a, trig c = false) →
      passGen m (a.length + fuel) (a ++ rest) = a ++ passGen m fuel rest := by
  intro a
  induction a with
  | nil => simp
  | cons c cs ih =>
    intro rest fuel ha
    rw [show (c :: cs).length + fuel = (cs.length + fuel) + 1 from by
      simp [List.length_cons]
      omega]
    rw [List.cons_append, passGen, hm c _ (ha c (by simp))]
    dsimp only
    rw [ih rest fuel (fun e he => ha e (by simp [he]))]
    simp

/-- C7 counterexample: an empty object key is not wrapped by the key pass —
the key pattern requires a nonempty quoted body, so on `{"":1}` the key stays
uncolored and only the value `1` is wrapped (by the number pass). -/
theorem c7_counterexample :
    passKeyF (toL "\x7b\"\":1\x7d") = toL "\x7b\"\":1\x7d" ∧
    syntaxHighlight (toL "\x7b\"\":1\x7d") =
      toL "\x7b\"\":" ++ numberColor ++ ['1'] ++ colorReset ++ ['}'] := ⟨rfl, rfl⟩

/-- C7 (amended): every quoted string with a nonempty, quote-free body that is
followed, after optional whitespace, by a colon is wrapped in the key color
plus a reset (the matched whitespace before the colon is consumed by the
replacement); the scan copies any quote-free prefix unchanged.  The key pass
runs first in `syntaxHighlight`, and a wrapped key cannot be re-matched by the
string-value pass, whose pattern requires a quote right after the
colon-and-whitespace, while a wrapped key starts with the inserted escape
code. -/
theorem c7_amended (pre k ws post : List Char) (hpre : ∀ c ∈ pre, ¬(c = '"'))
    (hk : k ≠ []) (hkq : ∀ c ∈ k, ¬(c = '"')) (hws : AllWS ws) :
    passKeyF (pre ++ '"' :: (k ++ '"' :: (ws ++ ':' :: post))) =
      pre ++ keyColor ++ '"' :: k ++ '"' :: colorReset ++ ':' ::
        passGen matchKey post.length post ∧
    (∀ w2 t, AllWS w2 → matchStr (':' :: (w2 ++ (keyColor ++ t))) = none) ∧
    syntaxHighlight = fun s => passNullF (passBoolF (passNumF (passStrF (passKeyF s)))) := by
  refine ⟨?_, ?_, rfl⟩
  · rw [passKeyF]
    rw [show (pre ++ '"' :: (k ++ '"' :: (ws ++ ':' :: post))).length =
      pre.length + ('"' :: (k ++ '"' :: (ws ++ ':' :: post))).length from by simp]
    rw [passGen_skip matchKey (fun c => c = '"')
      (fun c cs h => matchKey_none c cs (by simpa using h)) pre _ _
      (fun c hc => by simpa using hpre c hc)]
    rw [show ('"' :: (k ++ '"' :: (ws ++ ':' :: post))).length =
      (k ++ '"' :: (ws ++ ':' :: post)).length + 1 from by simp]
    rw [passGen, matchKey_hit k ws post hk hkq hws]
    dsimp only
    have hmk : MSpec matchKey := fun s o r h => matchKey_spec s o r h
    rw [passGen_fuel matchKey hmk (k ++ '"' :: (ws ++ ':' :: post)).length post
      (k ++ '"' :: (ws ++ ':' :: post)).length post.length (by simp; omega)
      (by simp; omega) (le_refl _)]
    simp
  · intro w2 t hw2
    rw [matchStr.eq_def]
    split
    · rename_i cs heq
      injection heq with h1 h2
      subst h2
      dsimp only
      have htw := takeWhile_app isWS w2 (keyColor ++ t) hw2
        (fun c hc => by
          rw [show (keyColor ++ t : List Char) = escChar :: ('[' :: '3' :: '4' :: 'm' ::
            (colorBold ++ t)) from rfl] at hc
          simp at hc
          subst hc
          decide)
      rw [htw.2]
      rw [show (keyColor ++ t : List Char) = escChar :: ('[' :: '3' :: '4' :: 'm' ::
        (colorBold ++ t)) from rfl]
      split
      · rename_i cs2 heq2
        injection heq2 with h3 h4
        exact absurd h3 (by decide)
      · rfl
    · rfl

/-- C8 counterexample: the number pattern has no minus sign, so a negative
value such as `-5` is not wrapped: on `{"a":-5}` only the key is colored and
the text `:-5}` passes through unchanged. -/
theorem c8_counterexample :
    syntaxHighlight (toL "\x7b\"a\":-5\x7d") =
      '{' :: (keyColor ++ toL "\"a\"" ++ colorReset) ++ toL ":-5\x7d" ∧
    matchNum (toL ":-5\x7d") = none := ⟨rfl, rfl⟩

/-- C8 (amended): the number pass matches a colon, optional whitespace, then an
unsigned numeric literal — digits, optional fraction, optional signed exponent,
but no leading minus — and wraps only the literal; the boolean and null passes
match `true`/`false`/`null` after a colon and optional whitespace and wrap only
the literal.  In every case the colon and the whitespace are emitted
unchanged before the color code. -/
theorem c8_amended (w ds fr ex post : List Char) (hw : AllWS w) (hds : ds ≠ [])
    (hdsd : ∀ c ∈ ds, c.isDigit = true)
    (hfr : fr = [] ∨ ∃ fd, fr = '.' :: fd ∧ fd ≠ [] ∧ ∀ c ∈ fd, c.isDigit = true)
    (hex : ex = [] ∨ ∃ e sg ed, (e = 'e' ∨ e = 'E') ∧
      (sg = [] ∨ sg = ['+'] ∨ sg = ['-']) ∧
      ex = e :: sg ++ ed ∧ ed ≠ [] ∧ ∀ c ∈ ed, c.isDigit = true)
    (hpost : ∀ c, post.head? = some c → numExtChar c = false) :
    matchNum (':' :: (w ++ (ds ++ (fr ++ (ex ++ post))))) =
      some (':' :: w ++ numberColor ++ (ds ++ fr ++ ex) ++ colorReset, post) ∧
    matchBool (':' :: (w ++ 't' :: 'r' :: 'u' :: 'e' :: post)) =
      some (':' :: w ++ boolColor ++ ['t', 'r', 'u', 'e'] ++ colorReset, post) ∧
    matchBool (':' :: (w ++ 'f' :: 'a' :: 'l' :: 's' :: 'e' :: post)) =
      some (':' :: w ++ boolColor ++ ['f', 'a', 'l', 's', 'e'] ++ colorReset, post) ∧
    matchNull (':' :: (w ++ 'n' :: 'u' :: 'l' :: 'l' :: post)) =
      some (':' :: w ++ nullColor ++ ['n', 'u', 'l', 'l'] ++ colorReset, post) :=
  ⟨matchNum_hit w ds fr ex post hw hds hdsd hfr hex hpost,
    (matchBool_hit w post hw).1, (matchBool_hit w post hw).2, matchNull_hit w post hw⟩

theorem c7_amended_witness :
    passKeyF (['\x7b'] ++ '"' :: (['a'] ++ '"' :: ([' '] ++ ':' :: toL "1\x7d"))) =
      ['\x7b'] ++ keyColor ++ '"' :: ['a'] ++ '"' :: colorReset ++ ':' ::
        passGen matchKey (toL "1\x7d").length (toL "1\x7d") ∧
    (∀ w2 t, AllWS w2 → matchStr (':' :: (w2 ++ (keyColor ++ t))) = none) ∧
    syntaxHighlight = fun s => passNullF (passBoolF (passNumF (passStrF (passKeyF s)))) :=
  c7_amended ['\x7b'] ['a'] [' '] (toL "1\x7d") (by decide) (by decide) (by decide)
    (by intro c hc; simp at hc; subst hc; decide)

theorem c8_amended_witness :
    matchNum (':' :: ([' '] ++ (['4', '2'] ++ (['.', '5'] ++ (['e', '+', '7'] ++ [',']))))) =
      some (':' :: [' '] ++ numberColor ++ (['4', '2'] ++ ['.', '5'] ++ ['e', '+', '7']) ++
        colorReset, [',']) ∧
    matchBool (':' :: ([' '] ++ 't' :: 'r' :: 'u' :: 'e' :: [','])) =
      some (':' :: [' '] ++ boolColor ++ ['t', 'r', 'u', 'e'] ++ colorReset, [',']) ∧
    matchBool (':' :: ([' '] ++ 'f' :: 'a' :: 'l' :: 's' :: 'e' :: [','])) =
      some (':' :: [' '] ++ boolColor ++ ['f', 'a', 'l', 's', 'e'] ++ colorReset, [',']) ∧
    matchNull (':' :: ([' '] ++ 'n' :: 'u' :: 'l' :: 'l' :: [','])) =
      some (':' :: [' '] ++ nullColor ++ ['n', 'u', 'l', 'l'] ++ colorReset, [',']) :=
  c8_amended [' '] ['4', '2'] ['.', '5'] ['e', '+', '7'] [',']
    (by intro c hc; simp at hc; subst hc; decide) (by decide) (by decide)
    (Or.inr ⟨['5'], rfl, by decide, by decide⟩)
    (Or.inr ⟨'e', ['+'], ['7'], Or.inl rfl, Or.inr (Or.inl rfl), rfl, by decide, by decide⟩)
    (by intro c hc; simp at hc; subst hc; decide)

/-! ### Segment-structured texts: the highlighter's strip round trip -/

theorem code_head (a : List Char) (h : isColorCode a) : ∃ t, a = escChar :: t := by
  rcases h with h | h | h | h | h | h | h <;> subst h <;> exact ⟨_, rfl⟩

theorem code_chars (a : List Char) (h : isColorCode a) :
    ∀ c ∈ a, ¬(c = '"') ∧ ¬(c = ':') ∧ isWS c = false := by
  rcases h with h | h | h | h | h | h | h <;> subst h <;> decide

theorem seg_inv : ∀ (t : List Char), Seg t → ∀ (c : Char) (z : List Char), t = c :: z →
    (¬(c = escChar) ∧ ¬(c = '"') ∧ Seg z) ∨
    (c = '"' ∧ ∃ b z2, z = b ++ '"' :: z2 ∧
      (∀ e ∈ b, ¬(e = escChar) ∧ ¬(e = '"') ∧ ¬(e = ':')) ∧ Seg z2) ∨
    (c = escChar ∧ ∃ a z2, c :: z = a ++ z2 ∧ isColorCode a ∧ Seg z2)
  | _, .nil, c, z, heq => by simp at heq
  | _, .plain c2 s h1 h2 hs, c, z, heq => by
    injection heq with he1 he2
    subst he1 he2
    exact Or.inl ⟨h1, h2, hs⟩
  | _, .quoted b s hb hs, c, z, heq => by
    injection heq with he1 he2
    subst he1 he2
    exact Or.inr (Or.inl ⟨rfl, b, s, rfl, hb, hs⟩)
  | _, .code a s ha hs, c, z, heq => by
    obtain ⟨t2, rfl⟩ := code_head a ha
    rw [List.cons_append] at heq
    injection heq with he1 he2
    subst he1 he2
    exact Or.inr (Or.inr ⟨rfl, escChar :: t2, s, by simp, ha, hs⟩)

theorem seg_tail (c : Char) (z : List Char) (h : Seg (c :: z)) (h1 : ¬(c = '"'))
    (h2 : ¬(c = escChar)) : Seg z := by
  rcases seg_inv (c :: z) h c z rfl with ⟨-, -, hz⟩ | ⟨hc, -⟩ | ⟨hc, -⟩
  · exact hz
  · exact absurd hc h1
  · exact absurd hc h2

theorem seg_suffix : ∀ (a z : List Char), Seg (a ++ z) →
    (∀ c ∈ a, ¬(c = '"') ∧ ¬(c = escChar)) → Seg z := by
  intro a
  induction a with
  | nil => intro z h ha; simpa using h
  | cons c cs ih =>
    intro z h ha
    rw [List.cons_append] at h
    have := seg_tail c (cs ++ z) h (ha c (by simp)).1 (ha c (by simp)).2
    exact ih z this (fun e he => ha e (by simp [he]))

theorem seg_quote_inv (z : List Char) (h : Seg ('"' :: z)) :
    ∃ b z2, z = b ++ '"' :: z2 ∧ (∀ c ∈ b, ¬(c = escChar) ∧ ¬(c = '"') ∧ ¬(c = ':')) ∧
      Seg z2 := by
  rcases seg_inv ('"' :: z) h '"' z rfl with ⟨-, hq, -⟩ | ⟨-, hres⟩ | ⟨hc, -⟩
  · exact absurd rfl hq
  · exact hres
  · exact absurd hc (by decide)

theorem seg_esc_inv (z : List Char) (h : Seg (escChar :: z)) :
    ∃ a z2, escChar :: z = a ++ z2 ∧ isColorCode a ∧ Seg z2 := by
  rcases seg_inv (escChar :: z) h escChar z rfl with ⟨he, -⟩ | ⟨hc, -⟩ | ⟨-, hres⟩
  · exact absurd rfl he
  · exact absurd hc (by decide)
  · exact hres

theorem dropWhile_app_all (p : Char → Bool) (a s : List Char)
    (ha : ∀ c ∈ a, p c = true) :
    (a ++ s).dropWhile p = s.dropWhile p := by
  induction a with
  | nil => simp
  | cons c cs ih =>
    rw [List.cons_append, List.dropWhile_cons]
    simp only [ha c (by simp), if_true]
    exact ih (fun e he => ha e (by simp [he]))

theorem dropWhile_head_false (p : Char → Bool) : ∀ (l : List Char) (d : Char)
    (ds : List Char), l.dropWhile p = d :: ds → p d = false := by
  intro l
  induction l with
  | nil => intro d ds h; simp at h
  | cons c cs ih =>
    intro d ds h
    rw [List.dropWhile_cons] at h
    by_cases hc : p c = true
    · rw [if_pos hc] at h
      exact ih d ds h
    · rw [if_neg hc] at h
      injection h with h1 h2
      subst h1
      simpa using hc

theorem seg_dropQuote : ∀ (t : List Char), Seg t →
    ∀ cs2, t.dropWhile (fun x => x != '"') = '"' :: cs2 →
    ∃ b z2, cs2 = b ++ '"' :: z2 ∧
      (∀ c ∈ b, ¬(c = escChar) ∧ ¬(c = '"') ∧ ¬(c = ':')) ∧ Seg z2
  | _, .nil, cs2, h => by simp at h
  | _, .plain c s h1 h2 hs, cs2, h => by
    rw [List.dropWhile_cons] at h
    rw [if_pos (by simp [h2])] at h
    exact seg_dropQuote s hs cs2 h
  | _, .quoted b s hb hs, cs2, h => by
    rw [List.dropWhile_cons] at h
    rw [if_neg (by simp)] at h
    injection h with h1 h2
    exact ⟨b, s, h2.symm, hb, hs⟩
  | _, .code a s ha hs, cs2, h => by
    rw [dropWhile_app_all _ a s (fun c hc => by simp [(code_chars a ha c hc).1])] at h
    exact seg_dropQuote s hs cs2 h

theorem seg_dropWS : ∀ (t : List Char), Seg t →
    ∀ cs2, t.dropWhile isWS = '"' :: cs2 →
    ∃ b z2, cs2 = b ++ '"' :: z2 ∧
      (∀ c ∈ b, ¬(c = escChar) ∧ ¬(c = '"') ∧ ¬(c = ':')) ∧ Seg z2
  | _, .nil, cs2, h => by simp at h
  | _, .plain c s h1 h2 hs, cs2, h => by
    rw [List.dropWhile_cons] at h
    by_cases hc : isWS c = true
    · rw [if_pos hc] at h
      exact seg_dropWS s hs cs2 h
    · rw [if_neg hc] at h
      injection h with hh1 hh2
      exact absurd hh1 h2
  | _, .quoted b s hb hs, cs2, h => by
    rw [List.dropWhile_cons] at h
    rw [if_neg (by decide)] at h
    injection h with h1 h2
    exact ⟨b, s, h2.symm, hb, hs⟩
  | _, .code a s ha hs, cs2, h => by
    obtain ⟨t2, rfl⟩ := code_head a ha
    rw [List.cons_append, List.dropWhile_cons] at h
    rw [if_neg (by decide)] at h
    injection h with h1 h2
    exact absurd h1 (by decide)

theorem ws_plain (c : Char) (h : isWS c = true) : ¬(c = escChar) ∧ ¬(c = '"') := by
  simp only [isWS, Bool.or_eq_true, decide_eq_true_eq] at h
  rcases h with ((rfl | rfl) | rfl) | rfl <;> exact ⟨by decide, by decide⟩

theorem takeWhile_chars (p : Char → Bool) : ∀ (l : List Char), ∀ c ∈ l.takeWhile p,
    p c = true := by
  intro l
  induction l with
  | nil => intro c hc; simp at hc
  | cons a as ih =>
    intro c hc
    rw [List.takeWhile_cons] at hc
    by_cases ha : p a = true
    · rw [if_pos ha] at hc
      rcases List.mem_cons.mp hc with rfl | hc2
      · exact ha
      · exact ih c hc2
    · rw [if_neg ha] at hc
      simp at hc

theorem takeWhile_dropWhile_split (p : Char → Bool) (l d : List Char)
    (h : l.dropWhile p = d) : l = l.takeWhile p ++ d := by
  conv_lhs => rw [← List.takeWhile_append_dropWhile (p := p) (l := l)]
  rw [h]

theorem bodyOK_dropWS_not_colon (b z2 : List Char)
    (hb : ∀ c ∈ b, ¬(c = escChar) ∧ ¬(c = '"') ∧ ¬(c = ':')) :
    ∀ e es, (b ++ '"' :: z2).dropWhile isWS = e :: es → ¬(e = ':') := by
  induction b with
  | nil =>
    intro e es h
    rw [List.nil_append, List.dropWhile_cons, if_neg (by decide)] at h
    injection h with h1 h2
    subst h1
    decide
  | cons c cs ih =>
    intro e es h
    rw [List.cons_append, List.dropWhile_cons] at h
    by_cases hc : isWS c = true
    · rw [if_pos hc] at h
      exact ih (fun x hx => hb x (by simp [hx])) e es h
    · rw [if_neg hc] at h
      injection h with h1 h2
      subst h1
      exact (hb c (by simp)).2.2

theorem matchKey_at_close (z : List Char) (hz : Seg z) : matchKey ('"' :: z) = none := by
  rw [matchKey.eq_def]
  split
  · rename_i cs heq
    injection heq with h1 h2
    subst h2
    dsimp only
    cases hdw : z.dropWhile (fun x => x != '"') with
    | nil => rfl
    | cons d ds =>
      have hd : (d != '"') = false := dropWhile_head_false _ z d ds hdw
      have hdq : d = '"' := by simpa using hd
      subst hdq
      obtain ⟨b, z2, rfl, hb, hz2⟩ := seg_dropQuote z hz ds hdw
      split
      · rename_i cs2 heq2
        injection heq2 with h3 h4
        subst h4
        split
        · rfl
        · cases hdw2 : (b ++ '"' :: z2).dropWhile isWS with
          | nil => rfl
          | cons e es =>
            have hne := bodyOK_dropWS_not_colon b z2 hb e es hdw2
            split
            · rename_i cs3 heq3
              injection heq3 with h5 h6
              exact absurd h5 hne
            · rfl
      · rename_i hno
        exact False.elim (by simpa using hno (b ++ '"' :: z2))
  · rfl

theorem seg_plains (a z : List Char) (ha : ∀ c ∈ a, ¬(c = escChar) ∧ ¬(c = '"'))
    (hz : Seg z) : Seg (a ++ z) := by
  induction a with
  | nil => simpa using hz
  | cons c cs ih =>
    rw [List.cons_append]
    exact .plain c _ (ha c (by simp)).1 (ha c (by simp)).2
      (ih (fun e he => ha e (by simp [he])))

theorem hlFrac_shape (s fr r : List Char) (h : hlFrac s = (fr, r)) :
    ∀ c ∈ fr, ¬(c = escChar) ∧ ¬(c = '"') := by
  rw [hlFrac.eq_def] at h
  split at h
  · rename_i cs
    split at h
    · injection h with h1 h2
      subst h1
      intro c hc
      simp at hc
    · rename_i ds htw
      injection h with h1 h2
      subst h1
      intro c hc
      rcases List.mem_cons.mp hc with rfl | hc2
      · exact ⟨by decide, by decide⟩
      · have hd : c.isDigit = true := by
          have := takeWhile_chars Char.isDigit cs
          exact this c hc2
        exact ⟨ne_of_isDigit c escChar hd (by decide), ne_of_isDigit c '"' hd (by decide)⟩
  · injection h with h1 h2
    subst h1
    intro c hc
    simp at hc

theorem hlExp_shape (s ex r : List Char) (h : hlExp s = (ex, r)) :
    ∀ c ∈ ex, ¬(c = escChar) ∧ ¬(c = '"') := by
  have hdig : ∀ (l : List Char) (c : Char), c ∈ l.takeWhile Char.isDigit →
      ¬(c = escChar) ∧ ¬(c = '"') := by
    intro l c hc
    have hd := takeWhile_chars Char.isDigit l c hc
    exact ⟨ne_of_isDigit c escChar hd (by decide), ne_of_isDigit c '"' hd (by decide)⟩
  rw [hlExp.eq_def] at h
  split at h
  · rename_i c0 cs
    split at h
    · rename_i hce
      cases cs with
      | nil =>
        dsimp only at h
        injection h with h1 h2
        subst h1
        intro c hc
        simp at hc
      | cons s2 cs2 =>
        dsimp only at h
        have hc0 : ¬(c0 = escChar) ∧ ¬(c0 = '"') := by
          simp only [Bool.or_eq_true, decide_eq_true_eq] at hce
          rcases hce with rfl | rfl <;> exact ⟨by decide, by decide⟩
        split at h
        · rename_i hs2
          have hs2p : ¬(s2 = escChar) ∧ ¬(s2 = '"') := by
            simp only [Bool.or_eq_true, decide_eq_true_eq] at hs2
            rcases hs2 with rfl | rfl <;> exact ⟨by decide, by decide⟩
          split at h
          · injection h with h1 h2
            subst h1
            intro c hc
            simp at hc
          · rename_i ds htw
            injection h with h1 h2
            subst h1
            intro c hc
            rcases List.mem_cons.mp hc with rfl | hc2
            · exact hc0
            · rcases List.mem_cons.mp hc2 with rfl | hc3
              · exact hs2p
              · exact hdig cs2 c hc3
        · split at h
          · injection h with h1 h2
            subst h1
            intro c hc
            simp at hc
          · rename_i ds htw
            injection h with h1 h2
            subst h1
            intro c hc
            rcases List.mem_cons.mp hc with rfl | hc2
            · exact hc0
            · exact hdig (s2 :: cs2) c hc2
    · injection h with h1 h2
      subst h1
      intro c hc
      simp at hc
  · injection h with h1 h2
    subst h1
    intro c hc
    simp at hc

theorem hasQWC_tail (c : Char) (cs : List Char) (h : hasQWC (c :: cs) = false) :
    hasQWC cs = false := by
  rw [hasQWC] at h
  simp only [Bool.or_eq_false_iff] at h
  exact h.2

theorem hasQWC_suffix : ∀ (a z : List Char), hasQWC (a ++ z) = false → hasQWC z = false := by
  intro a
  induction a with
  | nil => intro z h; simpa using h
  | cons c cs ih =>
    intro z h
    rw [List.cons_append] at h
    exact ih z (hasQWC_tail c _ h)

theorem hasQWC_head (cs : List Char) (h : hasQWC ('"' :: cs) = false) :
    wsColon cs = false := by
  rw [hasQWC] at h
  simp only [Bool.or_eq_false_iff, Bool.and_eq_false_iff] at h
  rcases h.1 with h1 | h1
  · exact absurd h1 (by simp)
  · exact h1

theorem wsColon_false_colon (z cs3 : List Char) (hws : wsColon z = false)
    (hdw : z.dropWhile isWS = ':' :: cs3) : z = ':' :: cs3 := by
  rw [wsColon] at hws
  cases htw : z.takeWhile isWS with
  | nil =>
    have := takeWhile_dropWhile_split isWS z (':' :: cs3) hdw
    rw [htw, List.nil_append] at this
    exact this
  | cons w ws2 =>
    rw [htw] at hws
    dsimp only at hws
    rw [hdw] at hws
    simp at hws

theorem matchStr_seg (rest out rest2 : List Char) (hseg : Seg rest)
    (h : matchStr (':' :: rest) = some (out, rest2)) : SegHit out rest rest2 := by
  rw [matchStr.eq_def] at h
  split at h
  · rename_i cs heq
    injection heq with h1 h2
    subst h2
    dsimp only at h
    split at h
    · rename_i cs2 heq2
      split at h
      · rename_i cs3 heq3
        injection h with h1
        injection h1 with hout hrest
        subst hout hrest
        obtain ⟨b, z2, hbz, hb, hz2⟩ := seg_dropWS rest hseg cs2 heq2
        subst hbz
        have htb := takeWhile_app (fun x => x != '"') b ('"' :: z2)
          (fun c hc => by simp [(hb c hc).2.1]) (fun c hc => by simp at hc; subst hc; simp)
        have hz2r : z2 = cs3 := by
          rw [htb.2] at heq3
          injection heq3
        subst hz2r
        have hw : ∀ c ∈ rest.takeWhile isWS, ¬(c = escChar) ∧ ¬(c = '"') :=
          fun c hc => ws_plain c (takeWhile_chars isWS rest c hc)
        have hbp : ∀ c ∈ b, ¬(c = escChar) := fun c hc => (hb c hc).1
        have hpre : ∀ c ∈ rest.takeWhile isWS ++ '"' :: (b ++ ['"']), ¬(c = escChar) := by
          intro c hc
          rw [List.mem_append] at hc
          rcases hc with hc | hc
          · exact (hw c hc).1
          · rw [List.mem_cons] at hc
            rcases hc with rfl | hc
            · decide
            · rw [List.mem_append] at hc
              rcases hc with hc | hc
              · exact hbp c hc
              · rw [List.mem_singleton] at hc
                subst hc
                decide
        refine ⟨rest.takeWhile isWS ++ '"' :: (b ++ ['"']), ?_, hpre, hz2, ?_, ?_⟩
        · have := takeWhile_dropWhile_split isWS rest _ heq2
          conv_lhs => rw [this]
          simp
        · intro X
          rw [htb.1]
          have e1 : (':' :: rest.takeWhile isWS ++ stringColor ++
              '"' :: b ++ '"' :: colorReset) ++ X =
              ':' :: (rest.takeWhile isWS ++ (stringColor ++
                ('"' :: (b ++ ('"' :: (colorReset ++ X)))))) := by simp
          rw [e1, stripAnsi_cons _ _ (by decide),
            stripAnsi_plain _ _ (fun c hc => (hw c hc).1),
            stripAnsi_code _ _ (by simp [isColorCode, stringColor]),
            stripAnsi_cons _ _ (by decide), stripAnsi_plain b _ hbp,
            stripAnsi_cons _ _ (by decide),
            stripAnsi_code _ _ (by simp [isColorCode])]
          simp
        · intro z hz
          rw [htb.1]
          have e1 : (':' :: rest.takeWhile isWS ++ stringColor ++
              '"' :: b ++ '"' :: colorReset) ++ z =
              ':' :: (rest.takeWhile isWS ++ (stringColor ++
                ('"' :: (b ++ '"' :: (colorReset ++ z))))) := by simp
          rw [e1]
          exact .plain ':' _ (by decide) (by decide)
            (seg_plains _ _ hw (.code stringColor _ (by simp [isColorCode, stringColor])
              (.quoted b _ hb (.code colorReset _ (by simp [isColorCode]) hz))))
      · simp at h
    · simp at h
  · simp at h

theorem matchNum_seg (rest out rest2 : List Char) (hseg : Seg rest)
    (h : matchNum (':' :: rest) = some (out, rest2)) : SegHit out rest rest2 := by
  rw [matchNum.eq_def] at h
  split at h
  · rename_i cs heq
    injection heq with h1 h2
    subst h2
    dsimp only at h
    split at h
    · simp at h
    · rename_i ds hds
      injection h with h1
      injection h1 with hout hrest
      subst hout hrest
      obtain ⟨fr, t2, hfr⟩ : ∃ p q,
          hlFrac ((rest.dropWhile isWS).dropWhile Char.isDigit) = (p, q) := ⟨_, _, rfl⟩
      obtain ⟨ex, t3, hex⟩ : ∃ p q, hlExp t2 = (p, q) := ⟨_, _, rfl⟩
      rw [hfr]
      dsimp only
      rw [hex]
      dsimp only
      have hw : ∀ c ∈ rest.takeWhile isWS, ¬(c = escChar) ∧ ¬(c = '"') :=
        fun c hc => ws_plain c (takeWhile_chars isWS rest c hc)
      have hdsc : ∀ c ∈ (rest.dropWhile isWS).takeWhile Char.isDigit,
          ¬(c = escChar) ∧ ¬(c = '"') := by
        intro c hc
        have hd := takeWhile_chars Char.isDigit _ c hc
        exact ⟨ne_of_isDigit c escChar hd (by decide), ne_of_isDigit c '"' hd (by decide)⟩
      have hfrc := hlFrac_shape _ fr t2 hfr
      have hexc := hlExp_shape t2 ex t3 hex
      have hlit : ∀ c ∈ (rest.dropWhile isWS).takeWhile Char.isDigit ++ fr ++ ex,
          ¬(c = escChar) ∧ ¬(c = '"') := by
        intro c hc
        simp only [List.append_assoc, List.mem_append] at hc
        rcases hc with hc | hc | hc
        · exact hdsc c hc
        · exact hfrc c hc
        · exact hexc c hc
      have h0 : rest.takeWhile isWS ++ rest.dropWhile isWS = rest :=
        List.takeWhile_append_dropWhile isWS rest
      have h1 : (rest.dropWhile isWS).takeWhile Char.isDigit ++
          (rest.dropWhile isWS).dropWhile Char.isDigit = rest.dropWhile isWS :=
        List.takeWhile_append_dropWhile Char.isDigit (rest.dropWhile isWS)
      have hsplit : rest = (rest.takeWhile isWS ++
          ((rest.dropWhile isWS).takeWhile Char.isDigit ++ fr ++ ex)) ++ t3 := by
        conv_lhs => rw [← h0, ← h1, hlFrac_spec _ fr t2 hfr, hlExp_spec t2 ex t3 hex]
        simp
      refine ⟨rest.takeWhile isWS ++
        ((rest.dropWhile isWS).takeWhile Char.isDigit ++ fr ++ ex), hsplit, ?_, ?_, ?_, ?_⟩
      · intro c hc
        rw [List.mem_append] at hc
        rcases hc with hc | hc
        · exact (hw c hc).1
        · exact (hlit c hc).1
      · refine seg_suffix _ t3 (hsplit ▸ hseg) ?_
        intro c hc
        rw [List.mem_append] at hc
        rcases hc with hc | hc
        · exact ⟨(hw c hc).2, (hw c hc).1⟩
        · exact ⟨(hlit c hc).2, (hlit c hc).1⟩
      · intro X
        have e1 : (':' :: rest.takeWhile isWS ++ numberColor ++
            ((rest.dropWhile isWS).takeWhile Char.isDigit ++ fr ++ ex) ++ colorReset) ++ X =
            ':' :: (rest.takeWhile isWS ++ (numberColor ++
              (((rest.dropWhile isWS).takeWhile Char.isDigit ++ fr ++ ex) ++
                (colorReset ++ X)))) := by simp
        rw [e1, stripAnsi_cons _ _ (by decide),
          stripAnsi_plain _ _ (fun c hc => (hw c hc).1),
          stripAnsi_code _ _ (by simp [isColorCode, numberColor]),
          stripAnsi_plain _ _ (fun c hc => (hlit c hc).1),
          stripAnsi_code _ _ (by simp [isColorCode])]
        simp
      · intro z hz
        have e1 : (':' :: rest.takeWhile isWS ++ numberColor ++
            ((rest.dropWhile isWS).takeWhile Char.isDigit ++ fr ++ ex) ++ colorReset) ++ z =
            ':' :: (rest.takeWhile isWS ++ (numberColor ++
              (((rest.dropWhile isWS).takeWhile Char.isDigit ++ fr ++ ex) ++
                (colorReset ++ z)))) := by simp
        rw [e1]
        exact .plain ':' _ (by decide) (by decide)
          (seg_plains _ _ hw (.code numberColor _ (by simp [isColorCode, numberColor])
            (seg_plains _ _ hlit (.code colorReset _ (by simp [isColorCode]) hz))))
  · simp at h

theorem matchBool_seg (rest out rest2 : List Char) (hseg : Seg rest)
    (h : matchBool (':' :: rest) = some (out, rest2)) : SegHit out rest rest2 := by
  rw [matchBool.eq_def] at h
  split at h
  · rename_i cs heq
    injection heq with h1 h2
    subst h2
    dsimp only at h
    have hw : ∀ c ∈ rest.takeWhile isWS, ¬(c = escChar) ∧ ¬(c = '"') :=
      fun c hc => ws_plain c (takeWhile_chars isWS rest c hc)
    split at h
    · rename_i r2 heq2
      injection h with h1
      injection h1 with hout hrest
      subst hout hrest
      have hlit : ∀ c ∈ ['t', 'r', 'u', 'e'], ¬(c = escChar) ∧ ¬(c = '"') := by decide
      have hsplit : rest = (rest.takeWhile isWS ++ ['t', 'r', 'u', 'e']) ++ r2 := by
        have h0 : rest.takeWhile isWS ++ rest.dropWhile isWS = rest :=
          List.takeWhile_append_dropWhile isWS rest
        conv_lhs => rw [← h0, heq2]
        simp
      refine ⟨rest.takeWhile isWS ++ ['t', 'r', 'u', 'e'], hsplit, ?_, ?_, ?_, ?_⟩
      · intro c hc
        rw [List.mem_append] at hc
        rcases hc with hc | hc
        · exact (hw c hc).1
        · exact (hlit c hc).1
      · refine seg_suffix _ r2 (hsplit ▸ hseg) ?_
        intro c hc
        rw [List.mem_append] at hc
        rcases hc with hc | hc
        · exact ⟨(hw c hc).2, (hw c hc).1⟩
        · exact ⟨(hlit c hc).2, (hlit c hc).1⟩
      · intro X
        have e1 : (':' :: rest.takeWhile isWS ++ boolColor ++ ['t', 'r', 'u', 'e'] ++
            colorReset) ++ X = ':' :: (rest.takeWhile isWS ++ (boolColor ++
              (['t', 'r', 'u', 'e'] ++ (colorReset ++ X)))) := by simp
        rw [e1, stripAnsi_cons _ _ (by decide),
          stripAnsi_plain _ _ (fun c hc => (hw c hc).1),
          stripAnsi_code _ _ (by simp [isColorCode, boolColor]),
          stripAnsi_plain _ _ (fun c hc => (hlit c hc).1),
          stripAnsi_code _ _ (by simp [isColorCode])]
        simp
      · intro z hz
        have e1 : (':' :: rest.takeWhile isWS ++ boolColor ++ ['t', 'r', 'u', 'e'] ++
            colorReset) ++ z = ':' :: (rest.takeWhile isWS ++ (boolColor ++
              (['t', 'r', 'u', 'e'] ++ (colorReset ++ z)))) := by simp
        rw [e1]
        exact .plain ':' _ (by decide) (by decide)
          (seg_plains _ _ hw (.code boolColor _ (by simp [isColorCode, boolColor])
            (seg_plains _ _ hlit (.code colorReset _ (by simp [isColorCode]) hz))))
    · rename_i r2 heq2
      injection h with h1
      injection h1 with hout hrest
      subst hout hrest
      have hlit : ∀ c ∈ ['f', 'a', 'l', 's', 'e'], ¬(c = escChar) ∧ ¬(c = '"') := by decide
      have hsplit : rest = (rest.takeWhile isWS ++ ['f', 'a', 'l', 's', 'e']) ++ r2 := by
        have h0 : rest.takeWhile isWS ++ rest.dropWhile isWS = rest :=
          List.takeWhile_append_dropWhile isWS rest
        conv_lhs => rw [← h0, heq2]
        simp
      refine ⟨rest.takeWhile isWS ++ ['f', 'a', 'l', 's', 'e'], hsplit, ?_, ?_, ?_, ?_⟩
      · intro c hc
        rw [List.mem_append] at hc
        rcases hc with hc | hc
        · exact (hw c hc).1
        · exact (hlit c hc).1
      · refine seg_suffix _ r2 (hsplit ▸ hseg) ?_
        intro c hc
        rw [List.mem_append] at hc
        rcases hc with hc | hc
        · exact ⟨(hw c hc).2, (hw c hc).1⟩
        · exact ⟨(hlit c hc).2, (hlit c hc).1⟩
      · intro X
        have e1 : (':' :: rest.takeWhile isWS ++ boolColor ++ ['f', 'a', 'l', 's', 'e'] ++
            colorReset) ++ X = ':' :: (rest.takeWhile isWS ++ (boolColor ++
              (['f', 'a', 'l', 's', 'e'] ++ (colorReset ++ X)))) := by simp
        rw [e1, stripAnsi_cons _ _ (by decide),
          stripAnsi_plain _ _ (fun c hc => (hw c hc).1),
          stripAnsi_code _ _ (by simp [isColorCode, boolColor]),
          stripAnsi_plain _ _ (fun c hc => (hlit c hc).1),
          stripAnsi_code _ _ (by simp [isColorCode])]
        simp
      · intro z hz
        have e1 : (':' :: rest.takeWhile isWS ++ boolColor ++ ['f', 'a', 'l', 's', 'e'] ++
            colorReset) ++ z = ':' :: (rest.takeWhile isWS ++ (boolColor ++
              (['f', 'a', 'l', 's', 'e'] ++ (colorReset ++ z)))) := by simp
        rw [e1]
        exact .plain ':' _ (by decide) (by decide)
          (seg_plains _ _ hw (.code boolColor _ (by simp [isColorCode, boolColor])
            (seg_plains _ _ hlit (.code colorReset _ (by simp [isColorCode]) hz))))
    · simp at h
  · simp at h

theorem matchNull_seg (rest out rest2 : List Char) (hseg : Seg rest)
    (h : matchNull (':' :: rest) = some (out, rest2)) : SegHit out rest rest2 := by
  rw [matchNull.eq_def] at h
  split at h
  · rename_i cs heq
    injection heq with h1 h2
    subst h2
    dsimp only at h
    have hw : ∀ c ∈ rest.takeWhile isWS, ¬(c = escChar) ∧ ¬(c = '"') :=
      fun c hc => ws_plain c (takeWhile_chars isWS rest c hc)
    split at h
    · rename_i r2 heq2
      injection h with h1
      injection h1 with hout hrest
      subst hout hrest
      have hlit : ∀ c ∈ ['n', 'u', 'l', 'l'], ¬(c = escChar) ∧ ¬(c = '"') := by decide
      have hsplit : rest = (rest.takeWhile isWS ++ ['n', 'u', 'l', 'l']) ++ r2 := by
        have h0 : rest.takeWhile isWS ++ rest.dropWhile isWS = rest :=
          List.takeWhile_append_dropWhile isWS rest
        conv_lhs => rw [← h0, heq2]
        simp
      refine ⟨rest.takeWhile isWS ++ ['n', 'u', 'l', 'l'], hsplit, ?_, ?_, ?_, ?_⟩
      · intro c hc
        rw [List.mem_append] at hc
        rcases hc with hc | hc
        · exact (hw c hc).1
        · exact (hlit c hc).1
      · refine seg_suffix _ r2 (hsplit ▸ hseg) ?_
        intro c hc
        rw [List.mem_append] at hc
        rcases hc with hc | hc
        · exact ⟨(hw c hc).2, (hw c hc).1⟩
        · exact ⟨(hlit c hc).2, (hlit c hc).1⟩
      · intro X
        have e1 : (':' :: rest.takeWhile isWS ++ nullColor ++ ['n', 'u', 'l', 'l'] ++
            colorReset) ++ X = ':' :: (rest.takeWhile isWS ++ (nullColor ++
              (['n', 'u', 'l', 'l'] ++ (colorReset ++ X)))) := by simp
        rw [e1, stripAnsi_cons _ _ (by decide),
          stripAnsi_plain _ _ (fun c hc => (hw c hc).1),
          stripAnsi_code _ _ (by simp [isColorCode, nullColor]),
          stripAnsi_plain _ _ (fun c hc => (hlit c hc).1),
          stripAnsi_code _ _ (by simp [isColorCode])]
        simp
      · intro z hz
        have e1 : (':' :: rest.takeWhile isWS ++ nullColor ++ ['n', 'u', 'l', 'l'] ++
            colorReset) ++ z = ':' :: (rest.takeWhile isWS ++ (nullColor ++
              (['n', 'u', 'l', 'l'] ++ (colorReset ++ z)))) := by simp
        rw [e1]
        exact .plain ':' _ (by decide) (by decide)
          (seg_plains _ _ hw (.code nullColor _ (by simp [isColorCode, nullColor])
            (seg_plains _ _ hlit (.code colorReset _ (by simp [isColorCode]) hz))))
    · simp at h
  · simp at h

theorem passColon_seg (m : List Char → Option (List Char × List Char)) (hms : MSpec m)
    (hmiss : ∀ c cs, ¬(c = ':') → m (c :: cs) = none)
    (hhit : ∀ rest out rest2, Seg rest → m (':' :: rest) = some (out, rest2) →
      SegHit out rest rest2) :
    ∀ (n : Nat) (s : List Char) (fuel : Nat), s.length ≤ n → s.length ≤ fuel → Seg s →
      stripAnsi (passGen m fuel s) = stripAnsi s ∧ Seg (passGen m fuel s) := by
  have hmn : ∀ c cs, (decide (c = ':') : Bool) = false → m (c :: cs) = none :=
    fun c cs h => hmiss c cs (by simpa using h)
  intro n
  induction n with
  | zero =>
    intro s fuel hn hf hseg
    have hs : s = [] := List.length_eq_zero.mp (Nat.le_antisymm hn (Nat.zero_le _))
    subst hs
    rw [passGen_nil]
    exact ⟨rfl, .nil⟩
  | succ n ih =>
    intro s fuel hn hf hseg
    cases s with
    | nil =>
      rw [passGen_nil]
      exact ⟨rfl, .nil⟩
    | cons c cs =>
      simp only [List.length_cons] at hn hf
      match fuel, hf with
      | f + 1, hf =>
        rcases seg_inv (c :: cs) hseg c cs rfl with ⟨hce, hcq, hcs⟩ |
          ⟨hcq, b, z2, hbz, hb, hz2⟩ | ⟨hce, a, z2, haz, ha, hz2⟩
        · cases hm : m (c :: cs) with
          | none =>
            rw [passGen, hm]
            dsimp only
            obtain ⟨ihs, ihseg⟩ := ih cs f (by omega) (by omega) hcs
            constructor
            · rw [stripAnsi_cons c _ hce, stripAnsi_cons c _ hce, ihs]
            · exact .plain c _ hce hcq ihseg
          | some pr =>
            obtain ⟨out, rest2⟩ := pr
            by_cases hc : c = ':'
            · subst hc
              obtain ⟨pre, hpre_eq, hpre, hseg2, hstrip, hsegout⟩ :=
                hhit cs out rest2 hcs hm
              have hlen : rest2.length ≤ cs.length := by
                rw [hpre_eq, List.length_append]
                omega
              obtain ⟨ihs, ihseg⟩ := ih rest2 f (by omega) (by omega) hseg2
              rw [passGen, hm]
              dsimp only
              constructor
              · rw [hstrip, ihs, stripAnsi_cons _ _ (by decide), hpre_eq,
                  stripAnsi_plain pre _ hpre]
              · exact hsegout _ ihseg
            · rw [hmiss c cs hc] at hm
              exact absurd hm (by simp)
        · subst hcq
          subst hbz
          have hseq : ('"' :: (b ++ '"' :: z2) : List Char) =
              ('"' :: (b ++ ['"'])) ++ z2 := by simp
          have haq : ∀ e ∈ ('"' :: (b ++ ['"']) : List Char),
              (decide (e = ':') : Bool) = false := by
            intro e he
            rw [List.mem_cons] at he
            rcases he with rfl | he
            · decide
            · rw [List.mem_append] at he
              rcases he with he | he
              · simp [(hb e he).2.2]
              · rw [List.mem_singleton] at he
                subst he
                decide
          have haesc : ∀ e ∈ ('"' :: (b ++ ['"']) : List Char), ¬(e = escChar) := by
            intro e he
            rw [List.mem_cons] at he
            rcases he with rfl | he
            · decide
            · rw [List.mem_append] at he
              rcases he with he | he
              · exact (hb e he).1
              · rw [List.mem_singleton] at he
                subst he
                decide
          rw [hseq]
          have hlen1 : (('"' :: (b ++ ['"'])) ++ z2 : List Char).length =
              (b ++ '"' :: z2 : List Char).length + 1 := by
            rw [← hseq, List.length_cons]
          have hfix : passGen m (f + 1) (('"' :: (b ++ ['"'])) ++ z2) =
              passGen m (('"' :: (b ++ ['"']) : List Char).length + z2.length)
                (('"' :: (b ++ ['"'])) ++ z2) :=
            passGen_fuel m hms ((('"' :: (b ++ ['"'])) ++ z2).length) _ _ _
              (Nat.le_refl _) (by omega) (Nat.le_of_eq (List.length_append _ _))
          rw [hfix, passGen_skip m _ hmn _ z2 z2.length haq]
          have hbl : (b ++ '"' :: z2 : List Char).length = b.length + (z2.length + 1) := by
            simp
          obtain ⟨ihs, ihseg⟩ := ih z2 z2.length (by omega) (Nat.le_refl _) hz2
          constructor
          · rw [stripAnsi_plain _ _ haesc, stripAnsi_plain _ _ haesc, ihs]
          · have hshape : ('"' :: (b ++ ['"'])) ++ passGen m z2.length z2 =
                '"' :: (b ++ '"' :: passGen m z2.length z2) := by simp
            rw [hshape]
            exact .quoted b _ hb ihseg
        · obtain ⟨t2, rfl⟩ := code_head a ha
          rw [haz]
          have haq : ∀ e ∈ (escChar :: t2 : List Char),
              (decide (e = ':') : Bool) = false :=
            fun e he => by simp [(code_chars _ ha e he).2.1]
          have hlen1 : ((escChar :: t2) ++ z2 : List Char).length = cs.length + 1 := by
            rw [← haz, List.length_cons]
          have hlen2 : ((escChar :: t2) ++ z2 : List Char).length =
              t2.length + 1 + z2.length := by
            rw [List.length_append, List.length_cons]
          have hfix : passGen m (f + 1) ((escChar :: t2) ++ z2) =
              passGen m ((escChar :: t2 : List Char).length + z2.length)
                ((escChar :: t2) ++ z2) :=
            passGen_fuel m hms (((escChar :: t2) ++ z2).length) _ _ _
              (Nat.le_refl _) (by omega) (Nat.le_of_eq (List.length_append _ _))
          rw [hfix, passGen_skip m _ hmn _ z2 z2.length haq]
          obtain ⟨ihs, ihseg⟩ := ih z2 z2.length (by omega) (Nat.le_refl _) hz2
          constructor
          · rw [stripAnsi_code _ _ ha, stripAnsi_code _ _ ha, ihs]
          · exact .code _ _ ha ihseg

theorem matchKey_quoted_empty (z2 : List Char) : matchKey ('"' :: '"' :: z2) = none := by
  rw [matchKey.eq_def]
  split
  · rename_i cs heq
    injection heq with h1 h2
    subst h2
    dsimp only
    have htk : (('"' :: z2).takeWhile fun x => x != '"') = [] := by
      rw [List.takeWhile_cons]
      simp
    have hdw : (('"' :: z2).dropWhile fun x => x != '"') = '"' :: z2 := by
      rw [List.dropWhile_cons]
      simp
    rw [htk, hdw]
    split
    · rename_i cs2 heq2
      injection heq2 with h3 h4
      subst h4
      rw [if_pos rfl]
    · rfl
  · rfl

theorem matchKey_quoted_none (b z2 : List Char) (hbq : ∀ c ∈ b, ¬(c = '"'))
    (hno : ∀ cs3, z2.dropWhile isWS ≠ ':' :: cs3) :
    matchKey ('"' :: (b ++ '"' :: z2)) = none := by
  have htb := takeWhile_app (fun x => x != '"') b ('"' :: z2)
    (fun c hc => by simp [hbq c hc]) (fun c hc => by simp at hc; subst hc; simp)
  rw [matchKey.eq_def]
  split
  · rename_i cs heq
    injection heq with h1 h2
    subst h2
    dsimp only
    rw [htb.1, htb.2]
    split
    · rename_i cs2 heq2
      injection heq2 with h3 h4
      subst h4
      by_cases hb0 : b = []
      · rw [if_pos hb0]
      · rw [if_neg hb0]
        split
        · rename_i cs3 heq3
          exact absurd heq3 (hno cs3)
        · rfl
    · rename_i hno2
      exact False.elim (by simpa using hno2 z2)
  · rfl

theorem passKey_miss_step (b z2 : List Char) (f : Nat)
    (hbq : ∀ c ∈ b, ¬(c = '"')) (hz2 : Seg z2)
    (hm : matchKey ('"' :: (b ++ '"' :: z2)) = none)
    (hflen : b.length + z2.length + 2 ≤ f + 1) :
    passGen matchKey (f + 1) ('"' :: (b ++ '"' :: z2)) =
      '"' :: (b ++ '"' :: passGen matchKey z2.length z2) := by
  have hmk : MSpec matchKey := fun s o r h => matchKey_spec s o r h
  have hmn : ∀ c cs, (decide (c = '"') : Bool) = false → matchKey (c :: cs) = none :=
    fun c cs h => matchKey_none c cs (by simpa using h)
  rw [passGen, hm]
  dsimp only
  have hlen : (b ++ '"' :: z2 : List Char).length = b.length + (z2.length + 1) := by
    simp
  have hfix : passGen matchKey f (b ++ '"' :: z2) =
      passGen matchKey (b.length + (z2.length + 1)) (b ++ '"' :: z2) :=
    passGen_fuel matchKey hmk ((b ++ '"' :: z2).length) _ _ _ (Nat.le_refl _)
      (by omega) (Nat.le_of_eq hlen)
  rw [hfix, passGen_skip matchKey _ hmn b ('"' :: z2) (z2.length + 1)
    (fun c hc => by simp [hbq c hc]), passGen, matchKey_at_close z2 hz2]

theorem passKey_seg :
    ∀ (n : Nat) (s : List Char) (fuel : Nat), s.length ≤ n → s.length ≤ fuel → Seg s →
      hasQWC s = false →
      stripAnsi (passGen matchKey fuel s) = stripAnsi s ∧ Seg (passGen matchKey fuel s) := by
  have hmk : MSpec matchKey := fun s o r h => matchKey_spec s o r h
  intro n
  induction n with
  | zero =>
    intro s fuel hn hf hseg hq
    have hs : s = [] := List.length_eq_zero.mp (Nat.le_antisymm hn (Nat.zero_le _))
    subst hs
    rw [passGen_nil]
    exact ⟨rfl, .nil⟩
  | succ n ih =>
    intro s fuel hn hf hseg hq
    cases s with
    | nil =>
      rw [passGen_nil]
      exact ⟨rfl, .nil⟩
    | cons c cs =>
      simp only [List.length_cons] at hn hf
      match fuel, hf with
      | f + 1, hf =>
        rcases seg_inv (c :: cs) hseg c cs rfl with ⟨hce, hcq, hcs⟩ |
          ⟨hcq, b, z2, hbz, hb, hz2⟩ | ⟨hce, a, z2, haz, ha, hz2⟩
        · rw [passGen, matchKey_none c cs hcq]
          dsimp only
          obtain ⟨ihs, ihseg⟩ := ih cs f (by omega) (by omega) hcs (hasQWC_tail c cs hq)
          exact ⟨by rw [stripAnsi_cons c _ hce, stripAnsi_cons c _ hce, ihs],
            .plain c _ hce hcq ihseg⟩
        · subst hcq
          subst hbz
          have hbq : ∀ e ∈ b, ¬(e = '"') := fun e he => (hb e he).2.1
          have hbe : ∀ e ∈ b, ¬(e = escChar) := fun e he => (hb e he).1
          have hqz : hasQWC ('"' :: z2) = false := by
            refine hasQWC_suffix ('"' :: b) ('"' :: z2) ?_
            simpa using hq
          have hqz2 : hasQWC z2 = false := hasQWC_tail '"' z2 hqz
          have hwsc : wsColon z2 = false := hasQWC_head z2 hqz
          have hbl : (b ++ '"' :: z2 : List Char).length = b.length + (z2.length + 1) := by
            simp
          have hmiss_conc : matchKey ('"' :: (b ++ '"' :: z2)) = none →
              stripAnsi (passGen matchKey (f + 1) ('"' :: (b ++ '"' :: z2))) =
                stripAnsi ('"' :: (b ++ '"' :: z2)) ∧
              Seg (passGen matchKey (f + 1) ('"' :: (b ++ '"' :: z2))) := by
            intro hm
            rw [passKey_miss_step b z2 f hbq hz2 hm (by omega)]
            obtain ⟨ihs, ihseg⟩ := ih z2 z2.length (by omega) (Nat.le_refl _) hz2 hqz2
            constructor
            · rw [stripAnsi_cons _ _ (by decide), stripAnsi_cons _ _ (by decide),
                stripAnsi_plain b _ hbe, stripAnsi_plain b _ hbe,
                stripAnsi_cons _ _ (by decide), stripAnsi_cons _ _ (by decide), ihs]
            · exact .quoted b _ hb ihseg
          by_cases hb0 : b = []
          · refine hmiss_conc ?_
            subst hb0
            rw [List.nil_append]
            exact matchKey_quoted_empty z2
          · cases hdw : z2.dropWhile isWS with
            | nil =>
              refine hmiss_conc (matchKey_quoted_none b z2 hbq ?_)
              intro cs3 hcontra
              rw [hdw] at hcontra
              exact absurd hcontra (by simp)
            | cons e es =>
              by_cases hcol : e = ':'
              · subst hcol
                have hz2c : z2 = ':' :: es := wsColon_false_colon z2 es hwsc hdw
                subst hz2c
                have hkhit := matchKey_hit b [] es hb0 hbq allWS_nil
                rw [List.nil_append] at hkhit
                rw [passGen, hkhit]
                dsimp only
                have hlen : (b ++ '"' :: ':' :: es : List Char).length =
                    b.length + (es.length + 2) := by simp
                obtain ⟨ihs, ihseg⟩ := ih es f (by omega) (by omega)
                  (seg_tail ':' es hz2 (by decide) (by decide))
                  (hasQWC_tail ':' es hqz2)
                constructor
                · have e1 : (keyColor ++ '"' :: b ++ '"' :: colorReset ++ [':']) ++
                      passGen matchKey f es =
                      colorBlue ++ (colorBold ++ ('"' :: (b ++ ('"' ::
                        (colorReset ++ (':' :: passGen matchKey f es)))))) := by
                    simp [keyColor]
                  rw [e1, stripAnsi_code _ _ (by simp [isColorCode]),
                    stripAnsi_code _ _ (by simp [isColorCode]),
                    stripAnsi_cons _ _ (by decide), stripAnsi_plain b _ hbe,
                    stripAnsi_cons _ _ (by decide),
                    stripAnsi_code _ _ (by simp [isColorCode]),
                    stripAnsi_cons _ _ (by decide), ihs,
                    stripAnsi_cons _ _ (by decide), stripAnsi_plain b _ hbe,
                    stripAnsi_cons _ _ (by decide), stripAnsi_cons _ _ (by decide)]
                · have e1 : (keyColor ++ '"' :: b ++ '"' :: colorReset ++ [':']) ++
                      passGen matchKey f es =
                      colorBlue ++ (colorBold ++ ('"' :: (b ++ '"' ::
                        (colorReset ++ (':' :: passGen matchKey f es))))) := by
                    simp [keyColor]
                  rw [e1]
                  exact .code colorBlue _ (by simp [isColorCode])
                    (.code colorBold _ (by simp [isColorCode])
                      (.quoted b _ hb (.code colorReset _ (by simp [isColorCode])
                        (.plain ':' _ (by decide) (by decide) ihseg))))
              · refine hmiss_conc (matchKey_quoted_none b z2 hbq ?_)
                intro cs3 hcontra
                rw [hdw] at hcontra
                injection hcontra with hc1 hc2
                exact absurd hc1 hcol
        · obtain ⟨t2, rfl⟩ := code_head a ha
          rw [haz]
          have hmn : ∀ c cs, (decide (c = '"') : Bool) = false →
              matchKey (c :: cs) = none :=
            fun c cs h => matchKey_none c cs (by simpa using h)
          have haq : ∀ e ∈ (escChar :: t2 : List Char),
              (decide (e = '"') : Bool) = false :=
            fun e he => by simp [(code_chars _ ha e he).1]
          have hlen1 : ((escChar :: t2) ++ z2 : List Char).length = cs.length + 1 := by
            rw [← haz, List.length_cons]
          have hlen2 : ((escChar :: t2) ++ z2 : List Char).length =
              t2.length + 1 + z2.length := by
            rw [List.length_append, List.length_cons]
          have hfix : passGen matchKey (f + 1) ((escChar :: t2) ++ z2) =
              passGen matchKey ((escChar :: t2 : List Char).length + z2.length)
                ((escChar :: t2) ++ z2) :=
            passGen_fuel matchKey hmk (((escChar :: t2) ++ z2).length) _ _ _
              (Nat.le_refl _) (by omega) (Nat.le_of_eq (List.length_append _ _))
          have hqz : hasQWC z2 = false := by
            refine hasQWC_suffix (escChar :: t2) z2 ?_
            rw [← haz]
            exact hq
          rw [hfix, passGen_skip matchKey _ hmn _ z2 z2.length haq]
          obtain ⟨ihs, ihseg⟩ := ih z2 z2.length (by omega) (Nat.le_refl _) hz2 hqz
          constructor
          · rw [stripAnsi_code _ _ ha, stripAnsi_code _ _ ha, ihs]
          · exact .code _ _ ha ihseg

theorem passStrF_seg (t : List Char) (hseg : Seg t) :
    stripAnsi (passStrF t) = stripAnsi t ∧ Seg (passStrF t) := by
  rw [passStrF]
  exact passColon_seg matchStr (fun s o r h => matchStr_spec s o r h)
    (fun c cs hc => matchStr_none c cs hc)
    (fun rest out rest2 hs h => matchStr_seg rest out rest2 hs h)
    t.length t t.length (Nat.le_refl _) (Nat.le_refl _) hseg

theorem passNumF_seg (t : List Char) (hseg : Seg t) :
    stripAnsi (passNumF t) = stripAnsi t ∧ Seg (passNumF t) := by
  rw [passNumF]
  exact passColon_seg matchNum (fun s o r h => matchNum_spec s o r h)
    (fun c cs hc => matchNum_none c cs hc)
    (fun rest out rest2 hs h => matchNum_seg rest out rest2 hs h)
    t.length t t.length (Nat.le_refl _) (Nat.le_refl _) hseg

theorem passBoolF_seg (t : List Char) (hseg : Seg t) :
    stripAnsi (passBoolF t) = stripAnsi t ∧ Seg (passBoolF t) := by
  rw [passBoolF]
  exact passColon_seg matchBool (fun s o r h => matchBool_spec s o r h)
    (fun c cs hc => matchBool_none c cs hc)
    (fun rest out rest2 hs h => matchBool_seg rest out rest2 hs h)
    t.length t t.length (Nat.le_refl _) (Nat.le_refl _) hseg

theorem passNullF_seg (t : List Char) (hseg : Seg t) :
    stripAnsi (passNullF t) = stripAnsi t ∧ Seg (passNullF t) := by
  rw [passNullF]
  exact passColon_seg matchNull (fun s o r h => matchNull_spec s o r h)
    (fun c cs hc => matchNull_none c cs hc)
    (fun rest out rest2 hs h => matchNull_seg rest out rest2 hs h)
    t.length t t.length (Nat.le_refl _) (Nat.le_refl _) hseg

theorem passKeyF_seg (t : List Char) (hseg : Seg t) (hq : hasQWC t = false) :
    stripAnsi (passKeyF t) = stripAnsi t ∧ Seg (passKeyF t) := by
  rw [passKeyF]
  exact passKey_seg t.length t t.length (Nat.le_refl _) (Nat.le_refl _) hseg hq

/-- C4 counterexample: the round trip
`stripAnsi (syntaxHighlight t) = t` fails on a formatter-produced text.  The
compact rendering of the object with key `k` and string value whose body is
`v\" :x` is the text `{"k":"v\" :x"}`; inside that string value the content
`\" :x` looks like a quote, whitespace and a colon, so the key pass of the
highlighter matches it as a key and deletes the whitespace before the colon,
and stripping the colors afterwards does not restore it. -/
theorem c4_counterexample :
    compactRender (.obj [(['k'], .str (toL "v\\\" :x"))]) =
      toL "\x7b\"k\":\"v\\\" :x\"\x7d" ∧
    ¬(stripAnsi (syntaxHighlight (toL "\x7b\"k\":\"v\\\" :x\"\x7d")) =
      toL "\x7b\"k\":\"v\\\" :x\"\x7d") := ⟨rfl, by decide⟩

/-! ### Well-formed ANSI texts: the strip round trip on the true boundary -/

theorem takeWhile_app_all (p : Char → Bool) (a s : List Char)
    (ha : ∀ c ∈ a, p c = true) :
    (a ++ s).takeWhile p = a ++ s.takeWhile p := by
  induction a with
  | nil => simp
  | cons c cs ih =>
    rw [List.cons_append, List.takeWhile_cons]
    simp only [ha c (by simp), if_true]
    rw [ih (fun e he => ha e (by simp [he])), List.cons_append]

theorem hasEsc_head (c : Char) (cs : List Char) (h : hasEsc (c :: cs) = false) :
    ¬(c = escChar) := by
  rw [hasEsc, List.any_cons] at h
  simp only [Bool.or_eq_false_iff] at h
  simpa using h.1

theorem hasEsc_tail (c : Char) (cs : List Char) (h : hasEsc (c :: cs) = false) :
    hasEsc cs = false := by
  rw [hasEsc, List.any_cons] at h
  simp only [Bool.or_eq_false_iff] at h
  exact h.2

theorem hasEsc_suffix : ∀ (a z : List Char), hasEsc (a ++ z) = false → hasEsc z = false := by
  intro a
  induction a with
  | nil => intro z h; simpa using h
  | cons c cs ih =>
    intro z h
    rw [List.cons_append] at h
    exact ih z (hasEsc_tail c _ h)

theorem hasEsc_chars (s : List Char) (h : hasEsc s = false) : ∀ c ∈ s, ¬(c = escChar) := by
  intro c hc he
  rw [hasEsc, List.any_eq_false] at h
  exact absurd (by simp [he]) (h c hc)

theorem wa_inv : ∀ (t : List Char), WellAnsi t → ∀ (c : Char) (z : List Char), t = c :: z →
    (¬(c = escChar) ∧ WellAnsi z) ∨
    (c = escChar ∧ ∃ a z2, c :: z = a ++ z2 ∧ isColorCode a ∧ WellAnsi z2)
  | _, .nil, c, z, heq => by simp at heq
  | _, .plain c2 s h1 hs, c, z, heq => by
    injection heq with he1 he2
    subst he1 he2
    exact Or.inl ⟨h1, hs⟩
  | _, .code a s ha hs, c, z, heq => by
    obtain ⟨t2, rfl⟩ := code_head a ha
    rw [List.cons_append] at heq
    injection heq with he1 he2
    subst he1 he2
    exact Or.inr ⟨rfl, escChar :: t2, s, by simp, ha, hs⟩

theorem wa_tail (c : Char) (z : List Char) (h : WellAnsi (c :: z)) (hc : ¬(c = escChar)) :
    WellAnsi z := by
  rcases wa_inv (c :: z) h c z rfl with ⟨-, hz⟩ | ⟨he, -⟩
  · exact hz
  · exact absurd he hc

theorem wa_suffix : ∀ (a z : List Char), WellAnsi (a ++ z) →
    (∀ c ∈ a, ¬(c = escChar)) → WellAnsi z := by
  intro a
  induction a with
  | nil => intro z h ha; simpa using h
  | cons c cs ih =>
    intro z h ha
    rw [List.cons_append] at h
    exact ih z (wa_tail c (cs ++ z) h (ha c (by simp))) (fun e he => ha e (by simp [he]))

theorem wa_plains (a z : List Char) (ha : ∀ c ∈ a, ¬(c = escChar)) (hz : WellAnsi z) :
    WellAnsi (a ++ z) := by
  induction a with
  | nil => simpa using hz
  | cons c cs ih =>
    rw [List.cons_append]
    exact .plain c _ (ha c (by simp)) (ih (fun e he => ha e (by simp [he])))

theorem wa_append : ∀ (a : List Char), WellAnsi a → ∀ (z : List Char), WellAnsi z →
    WellAnsi (a ++ z)
  | _, .nil, z, hz => by simpa using hz
  | _, .plain c s h1 hs, z, hz => by
    rw [List.cons_append]
    exact .plain c _ h1 (wa_append s hs z hz)
  | _, .code a s ha hs, z, hz => by
    rw [List.append_assoc]
    exact .code a _ ha (wa_append s hs z hz)

theorem wa_strip_app : ∀ (a : List Char), WellAnsi a → ∀ (X : List Char),
    stripAnsi (a ++ X) = stripAnsi a ++ stripAnsi X
  | _, .nil, X => by rw [stripAnsi_nil]; simp
  | _, .plain c s h1 hs, X => by
    rw [List.cons_append, stripAnsi_cons c _ h1, stripAnsi_cons c _ h1,
      wa_strip_app s hs X, List.cons_append]
  | _, .code a s ha hs, X => by
    rw [List.append_assoc, stripAnsi_code a _ ha, stripAnsi_code a _ ha,
      wa_strip_app s hs X]

theorem wa_dropWS : ∀ (t : List Char), WellAnsi t →
    ∀ cs2, t.dropWhile isWS = '"' :: cs2 → WellAnsi cs2
  | _, .nil, cs2, h => by simp at h
  | _, .plain c s h1 hs, cs2, h => by
    rw [List.dropWhile_cons] at h
    by_cases hc : isWS c = true
    · rw [if_pos hc] at h
      exact wa_dropWS s hs cs2 h
    · rw [if_neg hc] at h
      injection h with hh1 hh2
      subst hh2
      exact hs
  | _, .code a s ha hs, cs2, h => by
    obtain ⟨t2, rfl⟩ := code_head a ha
    rw [List.cons_append, List.dropWhile_cons] at h
    rw [if_neg (by decide)] at h
    injection h with h1 h2
    exact absurd h1 (by decide)

theorem wa_dropQuote : ∀ (t : List Char), WellAnsi t →
    ∀ cs2, t.dropWhile (fun x => x != '"') = '"' :: cs2 →
    WellAnsi cs2 ∧ WellAnsi (t.takeWhile (fun x => x != '"'))
  | _, .nil, cs2, h => by simp at h
  | _, .plain c s h1 hs, cs2, h => by
    rw [List.dropWhile_cons] at h
    by_cases hc : c = '"'
    · subst hc
      rw [if_neg (by simp)] at h
      injection h with hh1 hh2
      subst hh2
      refine ⟨hs, ?_⟩
      rw [List.takeWhile_cons, if_neg (by simp)]
      exact .nil
    · rw [if_pos (by simp [hc])] at h
      obtain ⟨h2, h3⟩ := wa_dropQuote s hs cs2 h
      refine ⟨h2, ?_⟩
      rw [List.takeWhile_cons, if_pos (by simp [hc])]
      exact .plain c _ h1 h3
  | _, .code a s ha hs, cs2, h => by
    have haq : ∀ c ∈ a, ((c != '"') : Bool) = true :=
      fun c hc => by simp [(code_chars a ha c hc).1]
    rw [dropWhile_app_all _ a s haq] at h
    obtain ⟨h2, h3⟩ := wa_dropQuote s hs cs2 h
    refine ⟨h2, ?_⟩
    rw [takeWhile_app_all _ a s haq]
    exact .code a _ ha h3

theorem matchStr_wa (rest out rest2 : List Char) (hwa : WellAnsi rest)
    (h : matchStr (':' :: rest) = some (out, rest2)) : WAHit out rest rest2 := by
  rw [matchStr.eq_def] at h
  split at h
  · rename_i cs heq
    injection heq with h1 h2
    subst h2
    dsimp only at h
    split at h
    · rename_i cs2 heq2
      split at h
      · rename_i cs3 heq3
        injection h with h1
        injection h1 with hout hrest
        subst hout hrest
        have hcs2 : WellAnsi cs2 := wa_dropWS rest hwa cs2 heq2
        obtain ⟨hcs3, hbody⟩ := wa_dropQuote cs2 hcs2 cs3 heq3
        have hw : ∀ c ∈ rest.takeWhile isWS, ¬(c = escChar) :=
          fun c hc => (ws_plain c (takeWhile_chars isWS rest c hc)).1
        have hsplit : rest = (rest.takeWhile isWS ++
            '"' :: (cs2.takeWhile (fun x => x != '"') ++ ['"'])) ++ cs3 := by
          have e1 := takeWhile_dropWhile_split isWS rest _ heq2
          have e2 := takeWhile_dropWhile_split (fun x => x != '"') cs2 _ heq3
          conv_lhs => rw [e1]
          conv_lhs => rw [e2]
          simp
        refine ⟨rest.takeWhile isWS ++
          '"' :: (cs2.takeWhile (fun x => x != '"') ++ ['"']), hsplit, ?_, hcs3, ?_, ?_⟩
        · exact wa_plains _ _ hw (.plain '"' _ (by decide)
            (wa_append _ hbody ['"'] (.plain '"' [] (by decide) .nil)))
        · intro X
          have e1 : (':' :: rest.takeWhile isWS ++ stringColor ++
              '"' :: cs2.takeWhile (fun x => x != '"') ++ '"' :: colorReset) ++ X =
              ':' :: (rest.takeWhile isWS ++ (stringColor ++
                ('"' :: (cs2.takeWhile (fun x => x != '"') ++
                  ('"' :: (colorReset ++ X)))))) := by simp
          have e2 : (rest.takeWhile isWS ++
              '"' :: (cs2.takeWhile (fun x => x != '"') ++ ['"'])) ++ X =
              rest.takeWhile isWS ++
                ('"' :: (cs2.takeWhile (fun x => x != '"') ++ ('"' :: X))) := by simp
          rw [e1, e2, stripAnsi_cons _ _ (by decide), stripAnsi_plain _ _ hw,
            stripAnsi_plain _ _ hw,
            stripAnsi_code _ _ (by simp [isColorCode, stringColor]),
            stripAnsi_cons _ _ (by decide), stripAnsi_cons _ _ (by decide),
            wa_strip_app _ hbody, wa_strip_app _ hbody,
            stripAnsi_cons _ _ (by decide), stripAnsi_cons _ _ (by decide),
            stripAnsi_code _ _ (by simp [isColorCode])]
        · intro z hz
          have e1 : (':' :: rest.takeWhile isWS ++ stringColor ++
              '"' :: cs2.takeWhile (fun x => x != '"') ++ '"' :: colorReset) ++ z =
              ':' :: (rest.takeWhile isWS ++ (stringColor ++
                ('"' :: (cs2.takeWhile (fun x => x != '"') ++
                  ('"' :: (colorReset ++ z)))))) := by simp
          rw [e1]
          exact .plain ':' _ (by decide)
            (wa_plains _ _ hw (.code stringColor _ (by simp [isColorCode, stringColor])
              (.plain '"' _ (by decide) (wa_append _ hbody _
                (.plain '"' _ (by decide)
                  (.code colorReset _ (by simp [isColorCode]) hz))))))
      · simp at h
    · simp at h
  · simp at h

theorem wa_of_plain (a : List Char) (ha : ∀ c ∈ a, ¬(c = escChar)) : WellAnsi a := by
  have h := wa_plains a [] ha .nil
  simpa using h

theorem matchNum_wa (rest out rest2 : List Char) (hwa : WellAnsi rest)
    (h : matchNum (':' :: rest) = some (out, rest2)) : WAHit out rest rest2 := by
  rw [matchNum.eq_def] at h
  split at h
  · rename_i cs heq
    injection heq with h1 h2
    subst h2
    dsimp only at h
    split at h
    · simp at h
    · rename_i ds hds
      injection h with h1
      injection h1 with hout hrest
      subst hout hrest
      obtain ⟨fr, t2, hfr⟩ : ∃ p q,
          hlFrac ((rest.dropWhile isWS).dropWhile Char.isDigit) = (p, q) := ⟨_, _, rfl⟩
      obtain ⟨ex, t3, hex⟩ : ∃ p q, hlExp t2 = (p, q) := ⟨_, _, rfl⟩
      rw [hfr]
      dsimp only
      rw [hex]
      dsimp only
      have hw : ∀ c ∈ rest.takeWhile isWS, ¬(c = escChar) ∧ ¬(c = '"') :=
        fun c hc => ws_plain c (takeWhile_chars isWS rest c hc)
      have hdsc : ∀ c ∈ (rest.dropWhile isWS).takeWhile Char.isDigit,
          ¬(c = escChar) ∧ ¬(c = '"') := by
        intro c hc
        have hd := takeWhile_chars Char.isDigit _ c hc
        exact ⟨ne_of_isDigit c escChar hd (by decide), ne_of_isDigit c '"' hd (by decide)⟩
      have hfrc := hlFrac_shape _ fr t2 hfr
      have hexc := hlExp_shape t2 ex t3 hex
      have hlit : ∀ c ∈ (rest.dropWhile isWS).takeWhile Char.isDigit ++ fr ++ ex,
          ¬(c = escChar) ∧ ¬(c = '"') := by
        intro c hc
        simp only [List.append_assoc, List.mem_append] at hc
        rcases hc with hc | hc | hc
        · exact hdsc c hc
        · exact hfrc c hc
        · exact hexc c hc
      have h0 : rest.takeWhile isWS ++ rest.dropWhile isWS = rest :=
        List.takeWhile_append_dropWhile isWS rest
      have h1 : (rest.dropWhile isWS).takeWhile Char.isDigit ++
          (rest.dropWhile isWS).dropWhile Char.isDigit = rest.dropWhile isWS :=
        List.takeWhile_append_dropWhile Char.isDigit (rest.dropWhile isWS)
      have hsplit : rest = (rest.takeWhile isWS ++
          ((rest.dropWhile isWS).takeWhile Char.isDigit ++ fr ++ ex)) ++ t3 := by
        conv_lhs => rw [← h0, ← h1, hlFrac_spec _ fr t2 hfr, hlExp_spec t2 ex t3 hex]
        simp
      have hpre : ∀ c ∈ rest.takeWhile isWS ++
          ((rest.dropWhile isWS).takeWhile Char.isDigit ++ fr ++ ex), ¬(c = escChar) := by
        intro c hc
        rw [List.mem_append] at hc
        rcases hc with hc | hc
        · exact (hw c hc).1
        · exact (hlit c hc).1
      refine ⟨rest.takeWhile isWS ++
        ((rest.dropWhile isWS).takeWhile Char.isDigit ++ fr ++ ex), hsplit,
        wa_of_plain _ hpre, ?_, ?_, ?_⟩
      · exact wa_suffix _ t3 (hsplit ▸ hwa) hpre
      · intro X
        have e1 : (':' :: rest.takeWhile isWS ++ numberColor ++
            ((rest.dropWhile isWS).takeWhile Char.isDigit ++ fr ++ ex) ++ colorReset) ++ X =
            ':' :: (rest.takeWhile isWS ++ (numberColor ++
              (((rest.dropWhile isWS).takeWhile Char.isDigit ++ fr ++ ex) ++
                (colorReset ++ X)))) := by simp
        rw [e1, stripAnsi_cons _ _ (by decide),
          stripAnsi_plain _ _ (fun c hc => (hw c hc).1),
          stripAnsi_code _ _ (by simp [isColorCode, numberColor]),
          stripAnsi_plain _ _ (fun c hc => (hlit c hc).1),
          stripAnsi_code _ _ (by simp [isColorCode]),
          stripAnsi_plain _ _ hpre]
        simp
      · intro z hz
        have e1 : (':' :: rest.takeWhile isWS ++ numberColor ++
            ((rest.dropWhile isWS).takeWhile Char.isDigit ++ fr ++ ex) ++ colorReset) ++ z =
            ':' :: (rest.takeWhile isWS ++ (numberColor ++
              (((rest.dropWhile isWS).takeWhile Char.isDigit ++ fr ++ ex) ++
                (colorReset ++ z)))) := by simp
        rw [e1]
        exact .plain ':' _ (by decide)
          (wa_plains _ _ (fun c hc => (hw c hc).1)
            (.code numberColor _ (by simp [isColorCode, numberColor])
              (wa_plains _ _ (fun c hc => (hlit c hc).1)
                (.code colorReset _ (by simp [isColorCode]) hz))))
  · simp at h

theorem matchBool_wa (rest out rest2 : List Char) (hwa : WellAnsi rest)
    (h : matchBool (':' :: rest) = some (out, rest2)) : WAHit out rest rest2 := by
  rw [matchBool.eq_def] at h
  split at h
  · rename_i cs heq
    injection heq with h1 h2
    subst h2
    dsimp only at h
    have hw : ∀ c ∈ rest.takeWhile isWS, ¬(c = escChar) :=
      fun c hc => (ws_plain c (takeWhile_chars isWS rest c hc)).1
    split at h
    · rename_i r2 heq2
      injection h with h1
      injection h1 with hout hrest
      subst hout hrest
      have hlit : ∀ c ∈ ['t', 'r', 'u', 'e'], ¬(c = escChar) := by decide
      have hsplit : rest = (rest.takeWhile isWS ++ ['t', 'r', 'u', 'e']) ++ r2 := by
        have h0 : rest.takeWhile isWS ++ rest.dropWhile isWS = rest :=
          List.takeWhile_append_dropWhile isWS rest
        conv_lhs => rw [← h0, heq2]
        simp
      have hpre : ∀ c ∈ rest.takeWhile isWS ++ ['t', 'r', 'u', 'e'], ¬(c = escChar) := by
        intro c hc
        rw [List.mem_append] at hc
        rcases hc with hc | hc
        · exact hw c hc
        · exact hlit c hc
      refine ⟨rest.takeWhile isWS ++ ['t', 'r', 'u', 'e'], hsplit,
        wa_of_plain _ hpre, wa_suffix _ r2 (hsplit ▸ hwa) hpre, ?_, ?_⟩
      · intro X
        have e1 : (':' :: rest.takeWhile isWS ++ boolColor ++ ['t', 'r', 'u', 'e'] ++
            colorReset) ++ X = ':' :: (rest.takeWhile isWS ++ (boolColor ++
              (['t', 'r', 'u', 'e'] ++ (colorReset ++ X)))) := by simp
        rw [e1, stripAnsi_cons _ _ (by decide), stripAnsi_plain _ _ hw,
          stripAnsi_code _ _ (by simp [isColorCode, boolColor]),
          stripAnsi_plain _ _ hlit,
          stripAnsi_code _ _ (by simp [isColorCode]),
          stripAnsi_plain _ _ hpre]
        simp
      · intro z hz
        have e1 : (':' :: rest.takeWhile isWS ++ boolColor ++ ['t', 'r', 'u', 'e'] ++
            colorReset) ++ z = ':' :: (rest.takeWhile isWS ++ (boolColor ++
              (['t', 'r', 'u', 'e'] ++ (colorReset ++ z)))) := by simp
        rw [e1]
        exact .plain ':' _ (by decide)
          (wa_plains _ _ hw (.code boolColor _ (by simp [isColorCode, boolColor])
            (wa_plains _ _ hlit (.code colorReset _ (by simp [isColorCode]) hz))))
    · rename_i r2 heq2
      injection h with h1
      injection h1 with hout hrest
      subst hout hrest
      have hlit : ∀ c ∈ ['f', 'a', 'l', 's', 'e'], ¬(c = escChar) := by decide
      have hsplit : rest = (rest.takeWhile isWS ++ ['f', 'a', 'l', 's', 'e']) ++ r2 := by
        have h0 : rest.takeWhile isWS ++ rest.dropWhile isWS = rest :=
          List.takeWhile_append_dropWhile isWS rest
        conv_lhs => rw [← h0, heq2]
        simp
      have hpre : ∀ c ∈ rest.takeWhile isWS ++ ['f', 'a', 'l', 's', 'e'],
          ¬(c = escChar) := by
        intro c hc
        rw [List.mem_append] at hc
        rcases hc with hc | hc
        · exact hw c hc
        · exact hlit c hc
      refine ⟨rest.takeWhile isWS ++ ['f', 'a', 'l', 's', 'e'], hsplit,
        wa_of_plain _ hpre, wa_suffix _ r2 (hsplit ▸ hwa) hpre, ?_, ?_⟩
      · intro X
        have e1 : (':' :: rest.takeWhile isWS ++ boolColor ++ ['f', 'a', 'l', 's', 'e'] ++
            colorReset) ++ X = ':' :: (rest.takeWhile isWS ++ (boolColor ++
              (['f', 'a', 'l', 's', 'e'] ++ (colorReset ++ X)))) := by simp
        rw [e1, stripAnsi_cons _ _ (by decide), stripAnsi_plain _ _ hw,
          stripAnsi_code _ _ (by simp [isColorCode, boolColor]),
          stripAnsi_plain _ _ hlit,
          stripAnsi_code _ _ (by simp [isColorCode]),
          stripAnsi_plain _ _ hpre]
        simp
      · intro z hz
        have e1 : (':' :: rest.takeWhile isWS ++ boolColor ++ ['f', 'a', 'l', 's', 'e'] ++
            colorReset) ++ z = ':' :: (rest.takeWhile isWS ++ (boolColor ++
              (['f', 'a', 'l', 's', 'e'] ++ (colorReset ++ z)))) := by simp
        rw [e1]
        exact .plain ':' _ (by decide)
          (wa_plains _ _ hw (.code boolColor _ (by simp [isColorCode, boolColor])
            (wa_plains _ _ hlit (.code colorReset _ (by simp [isColorCode]) hz))))
    · simp at h
  · simp at h

theorem matchNull_wa (rest out rest2 : List Char) (hwa : WellAnsi rest)
    (h : matchNull (':' :: rest) = some (out, rest2)) : WAHit out rest rest2 := by
  rw [matchNull.eq_def] at h
  split at h
  · rename_i cs heq
    injection heq with h1 h2
    subst h2
    dsimp only at h
    have hw : ∀ c ∈ rest.takeWhile isWS, ¬(c = escChar) :=
      fun c hc => (ws_plain c (takeWhile_chars isWS rest c hc)).1
    split at h
    · rename_i r2 heq2
      injection h with h1
      injection h1 with hout hrest
      subst hout hrest
      have hlit : ∀ c ∈ ['n', 'u', 'l', 'l'], ¬(c = escChar) := by decide
      have hsplit : rest = (rest.takeWhile isWS ++ ['n', 'u', 'l', 'l']) ++ r2 := by
        have h0 : rest.takeWhile isWS ++ rest.dropWhile isWS = rest :=
          List.takeWhile_append_dropWhile isWS rest
        conv_lhs => rw [← h0, heq2]
        simp
      have hpre : ∀ c ∈ rest.takeWhile isWS ++ ['n', 'u', 'l', 'l'], ¬(c = escChar) := by
        intro c hc
        rw [List.mem_append] at hc
        rcases hc with hc | hc
        · exact hw c hc
        · exact hlit c hc
      refine ⟨rest.takeWhile isWS ++ ['n', 'u', 'l', 'l'], hsplit,
        wa_of_plain _ hpre, wa_suffix _ r2 (hsplit ▸ hwa) hpre, ?_, ?_⟩
      · intro X
        have e1 : (':' :: rest.takeWhile isWS ++ nullColor ++ ['n', 'u', 'l', 'l'] ++
            colorReset) ++ X = ':' :: (rest.takeWhile isWS ++ (nullColor ++
              (['n', 'u', 'l', 'l'] ++ (colorReset ++ X)))) := by simp
        rw [e1, stripAnsi_cons _ _ (by decide), stripAnsi_plain _ _ hw,
          stripAnsi_code _ _ (by simp [isColorCode, nullColor]),
          stripAnsi_plain _ _ hlit,
          stripAnsi_code _ _ (by simp [isColorCode]),
          stripAnsi_plain _ _ hpre]
        simp
      · intro z hz
        have e1 : (':' :: rest.takeWhile isWS ++ nullColor ++ ['n', 'u', 'l', 'l'] ++
            colorReset) ++ z = ':' :: (rest.takeWhile isWS ++ (nullColor ++
              (['n', 'u', 'l', 'l'] ++ (colorReset ++ z)))) := by simp
        rw [e1]
        exact .plain ':' _ (by decide)
          (wa_plains _ _ hw (.code nullColor _ (by simp [isColorCode, nullColor])
            (wa_plains _ _ hlit (.code colorReset _ (by simp [isColorCode]) hz))))
    · simp at h
  · simp at h

theorem passColon_wa (m : List Char → Option (List Char × List Char)) (hms : MSpec m)
    (hmiss : ∀ c cs, ¬(c = ':') → m (c :: cs) = none)
    (hhit : ∀ rest out rest2, WellAnsi rest → m (':' :: rest) = some (out, rest2) →
      WAHit out rest rest2) :
    ∀ (n : Nat) (s : List Char) (fuel : Nat), s.length ≤ n → s.length ≤ fuel →
      WellAnsi s →
      stripAnsi (passGen m fuel s) = stripAnsi s ∧ WellAnsi (passGen m fuel s) := by
  have hmn : ∀ c cs, (decide (c = ':') : Bool) = false → m (c :: cs) = none :=
    fun c cs h => hmiss c cs (by simpa using h)
  intro n
  induction n with
  | zero =>
    intro s fuel hn hf hwa
    have hs : s = [] := List.length_eq_zero.mp (Nat.le_antisymm hn (Nat.zero_le _))
    subst hs
    rw [passGen_nil]
    exact ⟨rfl, .nil⟩
  | succ n ih =>
    intro s fuel hn hf hwa
    cases s with
    | nil =>
      rw [passGen_nil]
      exact ⟨rfl, .nil⟩
    | cons c cs =>
      simp only [List.length_cons] at hn hf
      match fuel, hf with
      | f + 1, hf =>
        rcases wa_inv (c :: cs) hwa c cs rfl with ⟨hce, hcs⟩ | ⟨hce, a, z2, haz, ha, hz2⟩
        · cases hm : m (c :: cs) with
          | none =>
            rw [passGen, hm]
            dsimp only
            obtain ⟨ihs, ihwa⟩ := ih cs f (by omega) (by omega) hcs
            constructor
            · rw [stripAnsi_cons c _ hce, stripAnsi_cons c _ hce, ihs]
            · exact .plain c _ hce ihwa
          | some pr =>
            obtain ⟨out, rest2⟩ := pr
            by_cases hc : c = ':'
            · subst hc
              obtain ⟨pre, hpre_eq, hprewa, hwa2, hstrip, hwaout⟩ :=
                hhit cs out rest2 hcs hm
              have hlen : rest2.length ≤ cs.length := by
                rw [hpre_eq, List.length_append]
                omega
              obtain ⟨ihs, ihwa⟩ := ih rest2 f (by omega) (by omega) hwa2
              rw [passGen, hm]
              dsimp only
              constructor
              · rw [hstrip, stripAnsi_cons _ _ (by decide), hpre_eq,
                  wa_strip_app pre hprewa, wa_strip_app pre hprewa, ihs]
              · exact hwaout _ ihwa
            · rw [hmiss c cs hc] at hm
              exact absurd hm (by simp)
        · obtain ⟨t2, rfl⟩ := code_head a ha
          rw [haz]
          have haq : ∀ e ∈ (escChar :: t2 : List Char),
              (decide (e = ':') : Bool) = false :=
            fun e he => by simp [(code_chars _ ha e he).2.1]
          have hlen1 : ((escChar :: t2) ++ z2 : List Char).length = cs.length + 1 := by
            rw [← haz, List.length_cons]
          have hlen2 : ((escChar :: t2) ++ z2 : List Char).length =
              t2.length + 1 + z2.length := by
            rw [List.length_append, List.length_cons]
          have hfix : passGen m (f + 1) ((escChar :: t2) ++ z2) =
              passGen m ((escChar :: t2 : List Char).length + z2.length)
                ((escChar :: t2) ++ z2) :=
            passGen_fuel m hms (((escChar :: t2) ++ z2).length) _ _ _
              (Nat.le_refl _) (by omega) (Nat.le_of_eq (List.length_append _ _))
          rw [hfix, passGen_skip m _ hmn _ z2 z2.length haq]
          obtain ⟨ihs, ihwa⟩ := ih z2 z2.length (by omega) (Nat.le_refl _) hz2
          constructor
          · rw [stripAnsi_code _ _ ha, stripAnsi_code _ _ ha, ihs]
          · exact .code _ _ ha ihwa

theorem matchKey_inv (t out rest : List Char) (h : matchKey t = some (out, rest)) :
    ∃ k cs2, t = '"' :: (k ++ '"' :: cs2) ∧ k ≠ [] ∧ (∀ c ∈ k, ¬(c = '"')) ∧
      cs2.dropWhile isWS = ':' :: rest ∧
      out = keyColor ++ '"' :: k ++ '"' :: colorReset ++ [':'] := by
  rw [matchKey.eq_def] at h
  split at h
  · rename_i cs
    dsimp only at h
    split at h
    · rename_i cs2 heq2
      split at h
      · simp at h
      · rename_i hk0
        split at h
        · rename_i cs3 heq3
          injection h with h1
          injection h1 with hout hrest
          subst hout hrest
          refine ⟨cs.takeWhile (fun x => x != '"'), cs2, ?_, hk0, ?_, heq3, rfl⟩
          · have e1 := takeWhile_dropWhile_split (fun x => x != '"') cs _ heq2
            conv_lhs => rw [e1]
          · intro c hc
            have := takeWhile_chars (fun x => x != '"') cs c hc
            simpa using this
        · simp at h
    · simp at h
  · simp at h

theorem passKey_wa :
    ∀ (n : Nat) (s : List Char) (fuel : Nat), s.length ≤ n → s.length ≤ fuel →
      hasEsc s = false → hasQWC s = false →
      stripAnsi (passGen matchKey fuel s) = s ∧ WellAnsi (passGen matchKey fuel s) := by
  intro n
  induction n with
  | zero =>
    intro s fuel hn hf he hq
    have hs : s = [] := List.length_eq_zero.mp (Nat.le_antisymm hn (Nat.zero_le _))
    subst hs
    rw [passGen_nil]
    exact ⟨stripAnsi_nil, .nil⟩
  | succ n ih =>
    intro s fuel hn hf he hq
    cases s with
    | nil =>
      rw [passGen_nil]
      exact ⟨stripAnsi_nil, .nil⟩
    | cons c cs =>
      simp only [List.length_cons] at hn hf
      match fuel, hf with
      | f + 1, hf =>
        cases hm : matchKey (c :: cs) with
        | none =>
          rw [passGen, hm]
          dsimp only
          have hce : ¬(c = escChar) := hasEsc_head c cs he
          obtain ⟨ihs, ihwa⟩ := ih cs f (by omega) (by omega)
            (hasEsc_tail c cs he) (hasQWC_tail c cs hq)
          exact ⟨by rw [stripAnsi_cons c _ hce, ihs], .plain c _ hce ihwa⟩
        | some pr =>
          obtain ⟨out, rest2⟩ := pr
          obtain ⟨k, cs2, heqt, hk0, hkq, hdw, hout⟩ :=
            matchKey_inv (c :: cs) out rest2 hm
          subst hout
          injection heqt with hc1 hc2
          subst hc1
          subst hc2
          have hq2 : hasQWC ('"' :: cs2) = false := by
            refine hasQWC_suffix ('"' :: k) ('"' :: cs2) ?_
            simpa using hq
          have hwsc : wsColon cs2 = false := hasQWC_head cs2 hq2
          have hcs2 : cs2 = ':' :: rest2 := wsColon_false_colon cs2 rest2 hwsc hdw
          subst hcs2
          have hke : ∀ e ∈ k, ¬(e = escChar) := by
            intro e hek
            refine hasEsc_chars _ he e ?_
            simp [hek]
          have hr2e : hasEsc rest2 = false := by
            refine hasEsc_suffix ('"' :: (k ++ ['"', ':'])) rest2 ?_
            simpa using he
          have hr2q : hasQWC rest2 = false := by
            refine hasQWC_suffix ('"' :: (k ++ ['"', ':'])) rest2 ?_
            simpa using hq
          have hlen : (k ++ '"' :: ':' :: rest2 : List Char).length =
              k.length + (rest2.length + 2) := by simp
          obtain ⟨ihs, ihwa⟩ := ih rest2 f (by omega) (by omega) hr2e hr2q
          rw [passGen, hm]
          dsimp only
          constructor
          · have e1 : (keyColor ++ '"' :: k ++ '"' :: colorReset ++ [':']) ++
                passGen matchKey f rest2 =
                colorBlue ++ (colorBold ++ ('"' :: (k ++ ('"' ::
                  (colorReset ++ (':' :: passGen matchKey f rest2)))))) := by
              simp [keyColor]
            rw [e1, stripAnsi_code _ _ (by simp [isColorCode]),
              stripAnsi_code _ _ (by simp [isColorCode]),
              stripAnsi_cons _ _ (by decide), stripAnsi_plain k _ hke,
              stripAnsi_cons _ _ (by decide),
              stripAnsi_code _ _ (by simp [isColorCode]),
              stripAnsi_cons _ _ (by decide), ihs]
          · have e1 : (keyColor ++ '"' :: k ++ '"' :: colorReset ++ [':']) ++
                passGen matchKey f rest2 =
                colorBlue ++ (colorBold ++ ('"' :: (k ++ ('"' ::
                  (colorReset ++ (':' :: passGen matchKey f rest2)))))) := by
              simp [keyColor]
            rw [e1]
            exact .code colorBlue _ (by simp [isColorCode])
              (.code colorBold _ (by simp [isColorCode])
                (.plain '"' _ (by decide) (wa_plains k _ hke
                  (.plain '"' _ (by decide)
                    (.code colorReset _ (by simp [isColorCode])
                      (.plain ':' _ (by decide) ihwa))))))

theorem passStrF_wa (t : List Char) (hwa : WellAnsi t) :
    stripAnsi (passStrF t) = stripAnsi t ∧ WellAnsi (passStrF t) := by
  rw [passStrF]
  exact passColon_wa matchStr (fun s o r h => matchStr_spec s o r h)
    (fun c cs hc => matchStr_none c cs hc)
    (fun rest out rest2 hs h => matchStr_wa rest out rest2 hs h)
    t.length t t.length (Nat.le_refl _) (Nat.le_refl _) hwa

theorem passNumF_wa (t : List Char) (hwa : WellAnsi t) :
    stripAnsi (passNumF t) = stripAnsi t ∧ WellAnsi (passNumF t) := by
  rw [passNumF]
  exact passColon_wa matchNum (fun s o r h => matchNum_spec s o r h)
    (fun c cs hc => matchNum_none c cs hc)
    (fun rest out rest2 hs h => matchNum_wa rest out rest2 hs h)
    t.length t t.length (Nat.le_refl _) (Nat.le_refl _) hwa

theorem passBoolF_wa (t : List Char) (hwa : WellAnsi t) :
    stripAnsi (passBoolF t) = stripAnsi t ∧ WellAnsi (passBoolF t) := by
  rw [passBoolF]
  exact passColon_wa matchBool (fun s o r h => matchBool_spec s o r h)
    (fun c cs hc => matchBool_none c cs hc)
    (fun rest out rest2 hs h => matchBool_wa rest out rest2 hs h)
    t.length t t.length (Nat.le_refl _) (Nat.le_refl _) hwa

theorem passNullF_wa (t : List Char) (hwa : WellAnsi t) :
    stripAnsi (passNullF t) = stripAnsi t ∧ WellAnsi (passNullF t) := by
  rw [passNullF]
  exact passColon_wa matchNull (fun s o r h => matchNull_spec s o r h)
    (fun c cs hc => matchNull_none c cs hc)
    (fun rest out rest2 hs h => matchNull_wa rest out rest2 hs h)
    t.length t t.length (Nat.le_refl _) (Nat.le_refl _) hwa

theorem passKeyF_wa (s : List Char) (he : hasEsc s = false) (hq : hasQWC s = false) :
    stripAnsi (passKeyF s) = s ∧ WellAnsi (passKeyF s) := by
  rw [passKeyF]
  exact passKey_wa s.length s s.length (Nat.le_refl _) (Nat.le_refl _) he hq

/-- C4 (amended): stripping the inserted ANSI codes after `syntaxHighlight`
restores the input exactly for every text that contains no escape character
and no quote followed by nonempty whitespace and a colon (`hasQWC`).  These
two conditions are the exact boundary the counterexample forces: the key
pass is the only pass that deletes anything, and it deletes precisely the
whitespace of a quote-whitespace-colon occurrence; every other pass only
inserts complete color codes, which stripping removes again.  Rendered JSON
texts satisfy `hasEsc = false` always (a raw escape byte cannot occur in a
JSON string literal), and `hasQWC = false` unless a string's own content
mimics a key boundary as in the counterexample. -/
theorem c4_amended (s : List Char) (hq : hasQWC s = false) (he : hasEsc s = false) :
    stripAnsi (syntaxHighlight s) = s := by
  obtain ⟨h1s, h1w⟩ := passKeyF_wa s he hq
  obtain ⟨h2s, h2w⟩ := passStrF_wa _ h1w
  obtain ⟨h3s, h3w⟩ := passNumF_wa _ h2w
  obtain ⟨h4s, h4w⟩ := passBoolF_wa _ h3w
  obtain ⟨h5s, h5w⟩ := passNullF_wa _ h4w
  rw [syntaxHighlight, h5s, h4s, h3s, h2s, h1s]

/-- C4 amended theorem applied at the concrete text `{"t":"10:30"}` (a
compact rendering with a colon inside a string value), discharging both
hypotheses by computation. -/
theorem c4_amended_witness :
    stripAnsi (syntaxHighlight (toL "\x7b\"t\":\"10:30\"\x7d")) =
      toL "\x7b\"t\":\"10:30\"\x7d" :=
  c4_amended (toL "\x7b\"t\":\"10:30\"\x7d") (by decide) (by decide)
